import Mathlib

/-! Sequence matching: LCS engines, local alignment and best-match search

A shallow embedding of `StringMatchingWithDynamicProgramming/project3.hh`,
`StringMatchingWithDynamicProgramming2/project4.hh` and `EmpiricalAnalysis/project1.hh`.

Conventions of the embedding

* `std::string` is a `List Char`; `s[k]` is `charAt s k`.
* `int` values are `Int`.  The LCS tables hold values between `0` and the length of
  the shorter string, so no arithmetic of the LCS engines can leave the `int` range
  for strings whose sizes fit an `int`; the place where the range matters there is
  `pow(2, size)` of the exhaustive engine, modelled by `pow2_int`.  The sums of
  `local_alignment`, of a cell of `D` and a score of the penalty matrix, can leave the
  range: they are formed by `intAdd`, the sum modulo `2^32` that the compiled program
  computes (`local_alignment_int_max` follows a call through such a sum).
* `BlosumPenaltyArray::get_penalty` inserts absent keys into the map; the insertion
  changes the score of no pair (`penalty_get_penalty`), so `local_alignment` reads the
  scores through `BlosumPenaltyArray.penalty` and does not thread the map.
* `std::vector<std::vector<T>>` is a `Table T`, a function of the row and the column;
  a cell is overwritten by `Table.set`.
* `for (int i = lo; i < hi; i++)` is `forLoop lo hi`.
* A call either returns, or reads a vector out of range, or leaves the `int` range in a
  conversion, or does not leave its loop: see `Outcome`.
-/

namespace SeqMatch

/-! ## Loops, tables, outcomes -/

/-- The loop `for (int i = lo; i < hi; i++) body`: the body runs for
`i = lo, lo+1, ..., hi-1` in this order, each time on the state left by the previous
iteration. -/
def forLoop {σ : Type} (lo hi : Nat) (body : Nat → σ → σ) (s : σ) : σ :=
  (List.range' lo (hi - lo)).foldl (fun acc i => body i acc) s

/-- A vector of vectors, indexed by row and then by column. -/
abbrev Table (α : Type) := Nat → Nat → α

/-- The assignment `T[i][j] = v`. -/
def Table.set {α : Type} (T : Table α) (i j : Nat) (v : α) : Table α :=
  fun a b => if a = i ∧ b = j then v else T a b

/-- The character `s[k]` of a string (`'\0'` at and past the end, where the source never
reads). -/
def charAt (s : List Char) (k : Nat) : Char := s.getD k (Char.ofNat 0)

/-- How a call ends. The source has no `throw`, no `assert` and no error return in the
functions embedded here, so `thrown` is produced by none of them. -/
inductive Outcome (α : Type) where
  /-- The call returns a value. -/
  | returned (v : α) : Outcome α
  /-- An explicit error reaches the caller. -/
  | thrown (what : String) : Outcome α
  /-- The call evaluates `v[index]` on a vector of `size <= index` elements:
  `operator[]` does not check, nothing is raised, the behaviour is undefined. -/
  | outOfRange (index size : Nat) : Outcome α
  /-- The call converts a `double` outside the `int` range to `int`: undefined. -/
  | intRange : Outcome α
  /-- The call is still inside a loop when the step budget of the model is used up. -/
  | noReturn : Outcome α
  deriving DecidableEq, Repr

/-- Sequencing of calls: the first failure ends the computation. -/
def Outcome.bind {α β : Type} (o : Outcome α) (f : α → Outcome β) : Outcome β :=
  match o with
  | .returned v => f v
  | .thrown w => .thrown w
  | .outOfRange i n => .outOfRange i n
  | .intRange => .intRange
  | .noReturn => .noReturn

/-- An outcome is an explicit error when an error value reaches the caller. -/
def Outcome.isExplicitError {α : Type} (o : Outcome α) : Prop :=
  ∃ w, o = .thrown w

/-- The read `v[i]` of a vector. -/
def vecAt {α : Type} (v : List α) (i : Nat) : Outcome α :=
  match v[i]? with
  | some x => .returned x
  | none => .outOfRange i v.length

/-! ## project3.hh: the LCS engines -/

/-- A protein: a description and a residue string. -/
structure Protein where
  description : List Char
  sequence : List Char
  deriving DecidableEq, Repr

/-- A vector of (shared pointers to) proteins. -/
abbrev ProteinVector := List Protein

/-- One pass of the inner loop body of `dynamicprogramming_longest_common_subsequence`
(lines 113-119) at cell `(i, j)`. -/
def lcsCell (string1 string2 : List Char) (i j : Nat) (D : Table Int) : Table Int :=
  let up := D (i - 1) j
  let left := D i (j - 1)
  let diag := D (i - 1) (j - 1)
  let diag := if charAt string1 (i - 1) = charAt string2 (j - 1) then diag + 1 else diag
  D.set i j (max (max up left) diag)

/-- The table `D` of `dynamicprogramming_longest_common_subsequence` when the three
loops (lines 104-121) have run. -/
def lcsTable (string1 string2 : List Char) : Table Int :=
  let n := string1.length
  let m := string2.length
  let D : Table Int := fun _ _ => 0
  let D := forLoop 0 (n + 1) (fun i D => D.set i 0 0) D
  let D := forLoop 0 (m + 1) (fun j D => D.set 0 j 0) D
  forLoop 1 (n + 1) (fun i D => forLoop 1 (m + 1) (fun j D => lcsCell string1 string2 i j D) D) D

/-- The function `dynamicprogramming_longest_common_subsequence` (project3.hh, 94-124). -/
def dynamicprogramming_longest_common_subsequence (string1 string2 : List Char) : Int :=
  lcsTable string1 string2 string1.length string2.length

/-- The conversion `int n = pow(2, k)`: the power is exact as a `double`, and it is an
`int` when `k <= 30`. -/
def pow2_int (k : Nat) : Outcome Int :=
  if k ≤ 30 then .returned (2 ^ k) else .intRange

/-- The inner loop of `generate_all_subsequences` (lines 139-144): the characters of
`sequence` at the positions `j` whose bit is set in `bits`. -/
def subseqOfBits (sequence : List Char) (bits : Nat) : List Char :=
  forLoop 0 sequence.length
    (fun j subseq => if (bits >>> j) &&& 1 = 1 then subseq ++ [charAt sequence j] else subseq) []

/-- The function `generate_all_subsequences` (project3.hh, 132-149). -/
def generate_all_subsequences (sequence : List Char) : Outcome (List (List Char)) :=
  (pow2_int sequence.length).bind fun n =>
    .returned (forLoop 0 n.toNat
      (fun bits subsequences => subsequences ++ [subseqOfBits sequence bits]) [])

/-- The two nested range-for loops of `exhaustive_longest_common_subsequence`
(lines 165-173). -/
def exhaustiveScan (all_subseqs1 all_subseqs2 : List (List Char)) : Int :=
  all_subseqs1.foldl (fun best_score s1 =>
    all_subseqs2.foldl (fun best_score s2 =>
      if s1 = s2 ∧ best_score < (s1.length : Int) then (s1.length : Int) else best_score)
      best_score) 0

/-- The function `exhaustive_longest_common_subsequence` (project3.hh, 160-176). -/
def exhaustive_longest_common_subsequence (string1 string2 : List Char) : Outcome Int :=
  (generate_all_subsequences string1).bind fun all_subseqs1 =>
  (generate_all_subsequences string2).bind fun all_subseqs2 =>
    .returned (exhaustiveScan all_subseqs1 all_subseqs2)

/-- The update of `(best_i, best_score)` by the score of entry `i` (lines 200-204 and
236-240): the entry replaces the best one only when its score is strictly greater. -/
def keepBest (i : Nat) (score : Int) (best : Nat × Int) : Nat × Int :=
  if score > best.2 then (i, score) else best

/-- One pass of the loop body of `exhaustive_best_match` (lines 194-204) for entry `i`;
the loop state is `(best_i, best_score)`. -/
def exhaustiveMatchStep (proteins : ProteinVector) (string1 : List Char) (i : Nat)
    (st : Outcome (Nat × Int)) : Outcome (Nat × Int) :=
  st.bind fun best =>
  (vecAt proteins i).bind fun p =>
  (exhaustive_longest_common_subsequence p.sequence string1).bind fun score =>
    .returned (keepBest i score best)

/-- The function `exhaustive_best_match` (project3.hh, 186-218). -/
def exhaustive_best_match (proteins : ProteinVector) (string1 : List Char) : Outcome Protein :=
  (forLoop 0 proteins.length (exhaustiveMatchStep proteins string1) (.returned (0, 0))).bind
    fun best => vecAt proteins best.1

/-- One pass of the loop body of `dynamicprogramming_best_match` (lines 235-240) for
entry `i`; the loop state is `(best_i, best_score)`. -/
def dynamicMatchStep (proteins : ProteinVector) (string1 : List Char) (i : Nat)
    (st : Outcome (Nat × Int)) : Outcome (Nat × Int) :=
  st.bind fun best =>
  (vecAt proteins i).bind fun p =>
    .returned (keepBest i (dynamicprogramming_longest_common_subsequence p.sequence string1) best)

/-- The function `dynamicprogramming_best_match` (project3.hh, 227-248). -/
def dynamicprogramming_best_match (proteins : ProteinVector) (string1 : List Char) :
    Outcome Protein :=
  (forLoop 0 proteins.length (dynamicMatchStep proteins string1) (.returned (0, 0))).bind
    fun best => vecAt proteins best.1

/-! ## project4.hh: the penalty matrix and the local alignment -/

/-- The class `BlosumPenaltyArray`: its only member is the map of maps `_penaltyMap`.
A `std::map` is a finite partial function of its keys. -/
structure BlosumPenaltyArray where
  _penaltyMap : Char → Option (Char → Option Int)

/-- The row `_penaltyMap[c1]` as `operator[]` leaves it: the stored row, or a new empty
one. -/
def BlosumPenaltyArray.row (bpa : BlosumPenaltyArray) (c1 : Char) : Char → Option Int :=
  (bpa._penaltyMap c1).getD (fun _ => none)

/-- The method `get_penalty` (project4.hh, 56-58): `_penaltyMap[c1][c2]`. Both
`operator[]` insert a value-initialised element for an absent key, so the call returns
the stored score, or `0`, and leaves a map that holds the pair. -/
def BlosumPenaltyArray.get_penalty (bpa : BlosumPenaltyArray) (c1 c2 : Char) :
    Int × BlosumPenaltyArray :=
  let v : Int := (bpa.row c1 c2).getD 0
  (v, ⟨fun a => if a = c1 then some (fun b => if b = c2 then some v else bpa.row c1 b)
                else bpa._penaltyMap a⟩)

/-- The method `set_penalty` (project4.hh, 60-62): `_penaltyMap[c1][c2] = penalty`. -/
def BlosumPenaltyArray.set_penalty (bpa : BlosumPenaltyArray) (c1 c2 : Char) (penalty : Int) :
    BlosumPenaltyArray :=
  ⟨fun a => if a = c1 then some (fun b => if b = c2 then some penalty else bpa.row c1 b)
            else bpa._penaltyMap a⟩

/-- The default-constructed penalty matrix: an empty map. -/
def BlosumPenaltyArray.empty : BlosumPenaltyArray := ⟨fun _ => none⟩

/-- The score that `get_penalty(c1, c2)` returns. By `penalty_get_penalty` a call of
`get_penalty` changes the score of no pair, so the tables of `local_alignment` are a
function of these scores alone. -/
def BlosumPenaltyArray.penalty (bpa : BlosumPenaltyArray) (c1 c2 : Char) : Int :=
  (bpa.get_penalty c1 c2).1

/-- The tables `D` and `B` of `local_alignment`. -/
structure AlignTables where
  D : Table Int
  B : Table Char

/-- A value of `Int` that a 32-bit `int` can hold. -/
def IsInt (x : Int) : Prop := -2147483648 ≤ x ∧ x ≤ 2147483647

instance (x : Int) : Decidable (IsInt x) :=
  inferInstanceAs (Decidable (-2147483648 ≤ x ∧ x ≤ 2147483647))

/-- The value of the `int` range that is congruent to `x` modulo `2^32`
(`2^31 = 2147483648`, `2^32 = 4294967296`). -/
def wrapInt (x : Int) : Int := (x + 2147483648) % 4294967296 - 2147483648

/-- The sum `a + b` of two `int` operands as the compiled program computes it: the sum
modulo `2^32`, taken in the `int` range. It is the mathematical sum when that sum is an
`int` (`intAdd_of_isInt`); a sum that leaves the range is undefined in C++, and the
program as built wraps it around (`INT_MAX + INT_MAX` is `-2`). On operands that no `int`
holds the definition is the plain sum: the penalty map of the model can store any `Int`,
and such a score is none that `set_penalty(char, char, int)` can be given. -/
def intAdd (a b : Int) : Int :=
  if IsInt a ∧ IsInt b then wrapInt (a + b) else a + b

/-- One pass of the body of the fill loop of `local_alignment` (lines 228-247) at cell
`(i, j)`. The three sums are sums of `int` values: `intAdd`. -/
def alignCell (string1 string2 : List Char) (bpa : BlosumPenaltyArray) (i j : Nat)
    (t : AlignTables) : AlignTables :=
  let up := intAdd (t.D (i - 1) j) (bpa.penalty (charAt string1 (i - 1)) '*')
  let left := intAdd (t.D i (j - 1)) (bpa.penalty '*' (charAt string2 (j - 1)))
  let diag := intAdd (t.D (i - 1) (j - 1))
    (bpa.penalty (charAt string1 (i - 1)) (charAt string2 (j - 1)))
  let B :=
    if left > up then
      if left > diag then t.B.set i j 'l' else t.B.set i j 'd'
    else
      if up > diag then t.B.set i j 'u' else t.B.set i j 'd'
  { D := t.D.set i j (max (max up left) (max diag 0)), B := B }

/-- The tables of `local_alignment` after the initialisation loop (lines 220-225). The
vectors are value-initialised (`0`, `'\0'`) when they are constructed (lines 214-215). -/
def alignInit (n m : Nat) : AlignTables :=
  forLoop 0 (n + 1) (fun i t =>
    forLoop 0 (m + 1) (fun j t => { D := t.D.set i j 0, B := t.B.set i j '?' }) t)
    { D := fun _ _ => 0, B := fun _ _ => Char.ofNat 0 }

/-- The tables of `local_alignment` when the initialisation loop and the fill loop
(lines 226-249) have run. -/
def alignTables (string1 string2 : List Char) (bpa : BlosumPenaltyArray) : AlignTables :=
  forLoop 1 (string1.length + 1) (fun i t =>
    forLoop 1 (string2.length + 1) (fun j t => alignCell string1 string2 bpa i j t) t)
    (alignInit string1.length string2.length)

/-- The scan of the bottom row (lines 252-257); the state is `(best_score, best_j)`. -/
def bestInRow (D : Table Int) (best_i m : Nat) : Int × Nat :=
  forLoop 1 (m + 1) (fun j best => if D best_i j > best.1 then (D best_i j, j) else best) (0, 0)

/-- The variables of the backtrace loop of `local_alignment`. -/
structure Walk where
  i : Nat
  j : Nat
  matchString1 : List Char
  matchString2 : List Char
  done : Bool
  deriving DecidableEq, Repr

/-- One pass of the body of the backtrace loop (lines 263-285): the `switch` on
`B[i][j]`. The decrements act on positive indices only (`alignTables_goodB`). -/
def walkStep (string1 string2 : List Char) (B : Table Char) (w : Walk) : Walk :=
  if B w.i w.j = 'u' then
    { w with matchString1 := w.matchString1 ++ [charAt string1 (w.i - 1)],
             matchString2 := w.matchString2 ++ ['*'],
             i := w.i - 1 }
  else if B w.i w.j = 'l' then
    { w with matchString1 := w.matchString1 ++ ['*'],
             matchString2 := w.matchString2 ++ [charAt string2 (w.j - 1)],
             j := w.j - 1 }
  else if B w.i w.j = 'd' then
    { w with matchString1 := w.matchString1 ++ [charAt string1 (w.i - 1)],
             matchString2 := w.matchString2 ++ [charAt string2 (w.j - 1)],
             i := w.i - 1, j := w.j - 1 }
  else if B w.i w.j = '?' then
    { w with done := true }
  else w

/-- The loop `while (!done)` of the backtrace, run for at most `budget` passes of its
body. -/
def walkLoop (string1 string2 : List Char) (B : Table Char) : Nat → Walk → Outcome Walk
  | 0, w => if w.done then .returned w else .noReturn
  | budget + 1, w =>
    if w.done then .returned w else walkLoop string1 string2 B budget (walkStep string1 string2 B w)

/-- What `local_alignment` hands back: the returned score and the two output strings. -/
structure Alignment where
  score : Int
  matchString1 : List Char
  matchString2 : List Char
  deriving DecidableEq, Repr

/-- The function `local_alignment` (project4.hh, 200-292). The backtrace loop gets a
budget of `n + m + 1` passes; `local_alignment_returns` shows that it never needs more,
so that `noReturn` does not occur. -/
def local_alignment (string1 string2 : List Char) (bpa : BlosumPenaltyArray) :
    Outcome Alignment :=
  let n := string1.length
  let m := string2.length
  let best_i := n
  let t := alignTables string1 string2 bpa
  let best := bestInRow t.D best_i m
  (walkLoop string1 string2 t.B (n + m + 1)
      { i := best_i, j := best.2, matchString1 := [], matchString2 := [], done := false }).bind
    fun w =>
      .returned { score := best.1, matchString1 := w.matchString1.reverse,
                  matchString2 := w.matchString2.reverse }

/-- What `local_alignment_best_match` hands back: the returned entry and the contents
of the two output strings. -/
structure BestMatch where
  best_protein : Protein
  matchString1 : List Char
  matchString2 : List Char
  deriving DecidableEq, Repr

/-- The variables that the loop of `local_alignment_best_match` carries. -/
structure BestState where
  best_protein : Protein
  best_score : Int
  matchString1 : List Char
  matchString2 : List Char
  deriving DecidableEq, Repr

/-- The update of lines 310-316 by the alignment `a` of entry `p`. -/
def keepBestAlignment (p : Protein) (a : Alignment) (st : BestState) : BestState :=
  if a.score > st.best_score then
    { best_protein := p, best_score := a.score,
      matchString1 := a.matchString1, matchString2 := a.matchString2 }
  else st

/-- One pass of the loop body of `local_alignment_best_match` (lines 309-316) for
entry `i`. -/
def alignMatchStep (proteins : ProteinVector) (string1 : List Char) (bpa : BlosumPenaltyArray)
    (i : Nat) (st : Outcome BestState) : Outcome BestState :=
  st.bind fun st =>
  (vecAt proteins i).bind fun p =>
  (local_alignment string1 p.sequence bpa).bind fun a =>
    .returned (keepBestAlignment p a st)

/-- The function `local_alignment_best_match` (project4.hh, 295-322). The arguments
`matchString1` and `matchString2` are the contents of the two output strings at the
call. -/
def local_alignment_best_match (proteins : ProteinVector) (string1 : List Char)
    (bpa : BlosumPenaltyArray) (matchString1 matchString2 : List Char) : Outcome BestMatch :=
  (vecAt proteins 0).bind fun first =>
  (forLoop 0 proteins.length (alignMatchStep proteins string1 bpa)
    (.returned { best_protein := first, best_score := 0,
                 matchString1 := matchString1, matchString2 := matchString2 })).bind fun st =>
    .returned { best_protein := st.best_protein, matchString1 := st.matchString1,
                matchString2 := st.matchString2 }

/-- A call of one of the two methods through which a `BlosumPenaltyArray` is read or
written. -/
inductive PenaltyCall where
  /-- The call `set_penalty(c1, c2, penalty)`. -/
  | set (c1 c2 : Char) (penalty : Int) : PenaltyCall
  /-- The call `get_penalty(c1, c2)`. -/
  | get (c1 c2 : Char) : PenaltyCall
  deriving DecidableEq, Repr

/-- The penalty matrix that a call leaves. -/
def BlosumPenaltyArray.call (bpa : BlosumPenaltyArray) : PenaltyCall → BlosumPenaltyArray
  | .set c1 c2 penalty => bpa.set_penalty c1 c2 penalty
  | .get c1 c2 => (bpa.get_penalty c1 c2).2

/-- The penalty matrix that a sequence of calls leaves, the first call of the list
first. -/
def BlosumPenaltyArray.after (bpa : BlosumPenaltyArray) (calls : List PenaltyCall) :
    BlosumPenaltyArray :=
  calls.foldl BlosumPenaltyArray.call bpa

/-! ## project1.hh: mirrored strings, substring trios, character mode -/

/-- A vector of strings. -/
abbrev string_vector := List (List Char)

/-- The read `s[k]` of a `const std::string` with an `int` index: a character of the
string; the terminating `'\0'` at `k = size()`; for every other index, a negative one
included (it is converted to `size_t`), a read out of range. -/
def strAt (s : List Char) (k : Int) : Outcome Char :=
  if 0 ≤ k ∧ k < (s.length : Int) then .returned (charAt s k.toNat)
  else if k = (s.length : Int) then .returned (Char.ofNat 0)
  else .outOfRange (k % 2 ^ 64).toNat s.length

/-- The loop `while (i < string1.size() || rev_i >= 0)` of `is_mirrored` (lines 56-63),
run for at most `budget` tests of its condition. -/
def mirrorLoop (string1 string2 : List Char) : Nat → Int → Int → Outcome Bool
  | 0, _, _ => .noReturn
  | budget + 1, i, rev_i =>
    if i < (string1.length : Int) ∨ rev_i ≥ 0 then
      (strAt string1 i).bind fun c1 =>
      (strAt string2 rev_i).bind fun c2 =>
        if c1 ≠ c2 then .returned false
        else mirrorLoop string1 string2 budget (i + 1) (rev_i - 1)
    else .returned true

/-- The function `is_mirrored` (project1.hh, 48-65). Every pass of the loop increments
`i` and decrements `rev_i`, so the condition fails after at most
`max string1.size() string2.size()` passes; the budget is above that
(`is_mirrored_ends`). -/
def is_mirrored (string1 string2 : List Char) : Outcome Bool :=
  let rev_i : Int := (string2.length : Int) - 1
  let i : Int := 0
  if string1 = string2 ∨ string1 = [] ∨ string2 = [] then .returned false
  else mirrorLoop string1 string2 (string1.length + string2.length + 1) i rev_i

/-- The member `std::string::find(str)` of the standard library, as the standard
describes it: the lowest position at which `str` occurs in the string, if any. -/
def stringFind (s str : List Char) : Option Nat :=
  (List.range (s.length + 1)).find? (fun pos => str.isPrefixOf (s.drop pos))

/-- The function `is_substring` (project1.hh, 72-80). -/
def is_substring (alleged_substring alleged_superstring : List Char) : Bool :=
  if stringFind alleged_superstring alleged_substring ≠ none then true else false

/-- The conversion `int(c)` of a `char` used as an index of `counts`. The characters
`0..127` give their code; where `char` is signed the other characters give a negative
`int`, an index out of the array. -/
def charIndex (c : Char) : Outcome Nat :=
  if c.toNat < 128 then .returned c.toNat else .outOfRange c.toNat 128

/-- The body of the inner counting loop of `character_mode` (line 96) for character `j`
of string `i`. -/
def countStep (strings : string_vector) (i j : Nat) (counts : Outcome (Nat → Int)) :
    Outcome (Nat → Int) :=
  counts.bind fun counts =>
  (vecAt strings i).bind fun s =>
  (strAt s j).bind fun c =>
  (charIndex c).bind fun k =>
    .returned (fun a => if a = k then counts a + 1 else counts a)

/-- The two counting loops of `character_mode` (lines 94-98) on the array `counts`
initialised to zeros. -/
def countLoops (strings : string_vector) : Outcome (Nat → Int) :=
  forLoop 0 strings.length (fun i counts =>
    forLoop 0 ((strings.getD i []).length) (fun j counts => countStep strings i j counts) counts)
    (.returned (fun _ => 0))

/-- The call `std::max_element(counts, counts + counts_len)` followed by
`std::distance`: the index of the first greatest element; the scan replaces the largest
element seen only by a strictly greater one. -/
def maxElementIndex (counts : Nat → Int) (counts_len : Nat) : Nat :=
  forLoop 1 counts_len (fun k largest => if counts largest < counts k then k else largest) 0

/-- The function `character_mode` (project1.hh, 88-102). -/
def character_mode (strings : string_vector) : Outcome Char :=
  (countLoops strings).bind fun counts =>
    let counts_len := 256
    let mode_index := maxElementIndex counts counts_len
    .returned (Char.ofNat mode_index)

/-- The body of the inner loop of `longest_mirrored_string` (lines 116-118) for the
indices `i` and `j`. -/
def mirroredStep (strings : string_vector) (i j : Nat) (best : Outcome (List Char)) :
    Outcome (List Char) :=
  best.bind fun best =>
  (vecAt strings i).bind fun si =>
  (vecAt strings j).bind fun sj =>
  (is_mirrored si sj).bind fun m =>
    .returned (if m = true ∧ si.length > best.length then si else best)

/-- The function `longest_mirrored_string` (project1.hh, 111-122). The inner loop is
`for (int j = i + 1; j < strings.size() - i; j++)`. -/
def longest_mirrored_string (strings : string_vector) : Outcome (List Char) :=
  forLoop 0 strings.length (fun i best =>
    forLoop (i + 1) (strings.length - i) (fun j best => mirroredStep strings i j best) best)
    (.returned [])

/-- The variables `best_length` and `trio` of `longest_substring_trio`. -/
structure TrioState where
  best_length : Int
  trio : List (List Char)
  deriving DecidableEq, Repr

/-- The body of the innermost loop of `longest_substring_trio` (lines 141-149). -/
def trioStep (a b c : List Char) (st : TrioState) : TrioState :=
  let abc_length : Int := (a.length : Int) + (b.length : Int) + (c.length : Int)
  let a_sub_b := is_substring a b
  let b_sub_c := is_substring b c
  if a_sub_b = true ∧ b_sub_c = true ∧ abc_length > st.best_length ∧ ¬ (a = b ∨ b = c) then
    { best_length := abc_length, trio := ((st.trio.set 0 a).set 1 b).set 2 c }
  else st

/-- The state that the three nested range-for loops of `longest_substring_trio` (lines
138-152) leave, from `best_length = 0` and a `trio` of three empty strings. -/
def trioLoops (strings : string_vector) : TrioState :=
  strings.foldl (fun st a =>
    strings.foldl (fun st b =>
      strings.foldl (fun st c => trioStep a b c st) st) st)
    { best_length := 0, trio := [[], [], []] }

/-- The function `longest_substring_trio` (project1.hh, 131-154). -/
def longest_substring_trio (strings : string_vector) : List (List Char) :=
  (trioLoops strings).trio

/-! ## Reference notions used by the statements -/

/-- The recurrence that the fill loop of the LCS engine realises. -/
def lcsRec (string1 string2 : List Char) : Nat → Nat → Int
  | 0, _ => 0
  | _ + 1, 0 => 0
  | i + 1, j + 1 =>
    max (max (lcsRec string1 string2 i (j + 1)) (lcsRec string1 string2 (i + 1) j))
      (if charAt string1 i = charAt string2 j then lcsRec string1 string2 i j + 1
       else lcsRec string1 string2 i j)

/-- The number `v` is the length of a longest common subsequence of `A` and `B`: some
common subsequence has length `v` and no common subsequence is longer. -/
def IsLcsLength (A B : List Char) (v : Int) : Prop :=
  (∃ s : List Char, s.Sublist A ∧ s.Sublist B ∧ (s.length : Int) = v) ∧
    ∀ s : List Char, s.Sublist A → s.Sublist B → (s.length : Int) ≤ v

/-- The invariant of the fill loop of the LCS engine: column `0` is zero, and the cells
of the rows above `i` and of row `i` left of `j` hold the values of `lcsRec`. -/
def LcsInv (s1 s2 : List Char) (m i j : Nat) (D : Table Int) : Prop :=
  (∀ a, D a 0 = 0) ∧
    ∀ a b, b ≤ m → (a < i ∨ (a = i ∧ b < j)) → D a b = lcsRec s1 s2 a b

/-- The inner loop of `generate_all_subsequences` after its first `k` passes. -/
def subseqPrefix (sequence : List Char) (bits k : Nat) : List Char :=
  forLoop 0 k
    (fun j subseq => if (bits >>> j) &&& 1 = 1 then subseq ++ [charAt sequence j] else subseq) []

/-- The loop of the best-match searches on the scores alone: entry `i` has score
`score i`, the state is `(best_i, best_score)`. -/
def bestLoop (score : Nat → Int) (k : Nat) : Nat × Int :=
  forLoop 0 k (fun i best => keepBest i (score i) best) (0, 0)

/-- The score of entry `j` of the vector under the scoring `sc` of a protein (`0` past the
end of the vector, where no loop goes). -/
def entryScore (sc : Protein → Int) (proteins : ProteinVector) (j : Nat) : Int :=
  match proteins[j]? with
  | some p => sc p
  | none => 0

/-- The score that `dynamicprogramming_best_match` gives to entry `j`. -/
def dpScore (proteins : ProteinVector) (string1 : List Char) (j : Nat) : Int :=
  entryScore (fun p => dynamicprogramming_longest_common_subsequence p.sequence string1)
    proteins j

/-- The value that a call of the exhaustive engine returns (`0` when it does not
return). -/
def exhaustiveValue (string1 string2 : List Char) : Int :=
  match exhaustive_longest_common_subsequence string1 string2 with
  | .returned v => v
  | _ => 0

/-- The score that `exhaustive_best_match` gives to entry `j`. -/
def exScore (proteins : ProteinVector) (string1 : List Char) (j : Nat) : Int :=
  entryScore (fun p => exhaustiveValue p.sequence string1) proteins j

/-- The back pointers are well formed on the `(n+1) x (m+1)` table: a cell holds `'?'`, or
it lies in a row and a column of positive index and holds one of `'u'`, `'l'`, `'d'`. -/
def GoodB (n m : Nat) (B : Table Char) : Prop :=
  ∀ a b, a ≤ n → b ≤ m →
    B a b = '?' ∨ (1 ≤ a ∧ 1 ≤ b ∧ (B a b = 'u' ∨ B a b = 'l' ∨ B a b = 'd'))

/-- The string `s` with every gap marker `'*'` removed. -/
def stripGaps (s : List Char) : List Char := s.filter (fun c => c != '*')

/-- The invariant of the backtrace for the output strings: without their gap markers, the
strings written so far are, read backwards, the part of `string1` between rows `w.i` and
`n`, and the part of `string2` between columns `w.j` and `j0`. -/
def WalkInv (s1 s2 : List Char) (j0 : Nat) (w : Walk) : Prop :=
  w.j ≤ j0 ∧ (stripGaps w.matchString1).reverse = s1.drop w.i ∧
    (stripGaps w.matchString2).reverse = (s2.take j0).drop w.j

/-- The penalty matrix of the scenario of the specification: `+1` for equal residues,
`-1` for different residues and `-1` for every pair with the gap marker. -/
def unitPenalties : BlosumPenaltyArray :=
  ⟨fun a => some (fun b => some (if a = '*' ∨ b = '*' then -1 else if a = b then 1 else -1))⟩

/-- A vector of proteins whose second entry has a sequence of 31 characters, one more
than the sizes for which `pow(2, size)` is an `int`. -/
def longProteins : ProteinVector :=
  [⟨['p', '1'], ['C']⟩, ⟨['p', '2'], List.replicate 31 'A'⟩]

/-- A penalty matrix with a score at the end of the `int` range: the unit penalties
with `INT_MAX = 2147483647` for the pair `('A', 'A')`. -/
def maxPenalties : BlosumPenaltyArray := unitPenalties.set_penalty 'A' 'A' 2147483647

/-- The vector of proteins of the scenario of the specification. -/
def sampleProteins : ProteinVector :=
  [⟨['p', '1'], ['A', 'C', 'D', 'E']⟩, ⟨['p', '2'], ['A', 'C', 'D', 'F']⟩]

/-- The score that `local_alignment` returns: the first component of the scan of the
bottom row. -/
def alignScore (string1 string2 : List Char) (bpa : BlosumPenaltyArray) : Int :=
  (bestInRow (alignTables string1 string2 bpa).D string1.length string2.length).1

/-- The score that `local_alignment_best_match` gives to entry `j`. -/
def laScore (proteins : ProteinVector) (string1 : List Char) (bpa : BlosumPenaltyArray)
    (j : Nat) : Int :=
  entryScore (fun p => alignScore string1 p.sequence bpa) proteins j

/-- A penalty matrix gives `+1` to equal residues, `-1` to different residues and `-1` to
every pair of a residue and the gap marker. -/
def IsUnitPenalty (bpa : BlosumPenaltyArray) : Prop :=
  (∀ a b : Char, a ≠ '*' → b ≠ '*' → (bpa.get_penalty a b).1 = if a = b then 1 else -1) ∧
    (∀ a : Char, a ≠ '*' → (bpa.get_penalty a '*').1 = -1) ∧
    (∀ b : Char, b ≠ '*' → (bpa.get_penalty '*' b).1 = -1)

/-- The number of characters of code `k` in a string. -/
def codeCount (k : Nat) (s : List Char) : Nat := s.countP (fun c => decide (c.toNat = k))

/-- The number of characters of code `k` in a vector of strings. -/
def codeTotal (strings : string_vector) (k : Nat) : Nat :=
  (strings.map (codeCount k)).sum

/-- The number of occurrences of the character `c` across the strings of a vector. -/
def occurrences (strings : string_vector) (c : Char) : Nat :=
  (strings.map (fun s => s.count c)).sum

/-- The strings `a`, `b`, `c` are a substring trio: non-empty, pairwise distinct, `a` a
substring of `b` and `b` a substring of `c`. -/
def IsTrio (a b c : List Char) : Prop :=
  a ≠ [] ∧ b ≠ [] ∧ c ≠ [] ∧ a ≠ b ∧ b ≠ c ∧ a ≠ c ∧ a <:+: b ∧ b <:+: c

/-- The total length of three strings. -/
def trioLength (a b c : List Char) : Int :=
  (a.length : Int) + (b.length : Int) + (c.length : Int)

/-- The state of `longest_substring_trio` is the initial one, or it holds three strings
of the vector that met the test of line 144, with their total length. -/
def TrioSeen (strings : string_vector) (st : TrioState) : Prop :=
  (st.best_length = 0 ∧ st.trio = [[], [], []]) ∨
    ∃ a b c, a ∈ strings ∧ b ∈ strings ∧ c ∈ strings ∧
      (a <:+: b ∧ b <:+: c ∧ a ≠ b ∧ b ≠ c) ∧
      st.trio = [a, b, c] ∧ st.best_length = trioLength a b c

/-- The table of the specification: `D[i][0] = D[0][j] = 0` and, for `i, j >= 1`,
`D[i][j] = max(up, left, diag, 0)` with `up = D[i-1][j] + penalty(string1[i-1], gap)`,
`left = D[i][j-1] + penalty(gap, string2[j-1])` and
`diag = D[i-1][j-1] + penalty(string1[i-1], string2[j-1])`, the sums being sums of `int`
values (`intAdd`). -/
def swRec (string1 string2 : List Char) (bpa : BlosumPenaltyArray) : Nat → Nat → Int
  | 0, _ => 0
  | _ + 1, 0 => 0
  | i + 1, j + 1 =>
    max (max (intAdd (swRec string1 string2 bpa i (j + 1)) (bpa.penalty (charAt string1 i) '*'))
          (intAdd (swRec string1 string2 bpa (i + 1) j) (bpa.penalty '*' (charAt string2 j))))
      (max (intAdd (swRec string1 string2 bpa i j)
          (bpa.penalty (charAt string1 i) (charAt string2 j))) 0)

/-- The recurrence of `swRec` with the three sums taken in the integers, where no sum
wraps. -/
def swMath (string1 string2 : List Char) (bpa : BlosumPenaltyArray) : Nat → Nat → Int
  | 0, _ => 0
  | _ + 1, 0 => 0
  | i + 1, j + 1 =>
    max (max (swMath string1 string2 bpa i (j + 1) + bpa.penalty (charAt string1 i) '*')
          (swMath string1 string2 bpa (i + 1) j + bpa.penalty '*' (charAt string2 j)))
      (max (swMath string1 string2 bpa i j + bpa.penalty (charAt string1 i) (charAt string2 j)) 0)

/-- Every sum that the recurrence forms on `string1` and `string2` is an `int`: no sum of
the fill loop overflows. -/
def SumsInInt (string1 string2 : List Char) (bpa : BlosumPenaltyArray) : Prop :=
  ∀ i j, i < string1.length → j < string2.length →
    IsInt (swMath string1 string2 bpa i (j + 1) + bpa.penalty (charAt string1 i) '*') ∧
    IsInt (swMath string1 string2 bpa (i + 1) j + bpa.penalty '*' (charAt string2 j)) ∧
    IsInt (swMath string1 string2 bpa i j + bpa.penalty (charAt string1 i) (charAt string2 j))

/-- The candidate value `up` of cell `(i, j)`, read from the table `D`. -/
def upAt (D : Table Int) (string1 : List Char) (bpa : BlosumPenaltyArray) (i j : Nat) : Int :=
  intAdd (D (i - 1) j) (bpa.penalty (charAt string1 (i - 1)) '*')

/-- The candidate value `left` of cell `(i, j)`, read from the table `D`. -/
def leftAt (D : Table Int) (string2 : List Char) (bpa : BlosumPenaltyArray) (i j : Nat) : Int :=
  intAdd (D i (j - 1)) (bpa.penalty '*' (charAt string2 (j - 1)))

/-- The candidate value `diag` of cell `(i, j)`, read from the table `D`. -/
def diagAt (D : Table Int) (string1 string2 : List Char) (bpa : BlosumPenaltyArray)
    (i j : Nat) : Int :=
  intAdd (D (i - 1) (j - 1)) (bpa.penalty (charAt string1 (i - 1)) (charAt string2 (j - 1)))

/-- The back pointer that the tests of lines 231-246 select for the candidate values. -/
def direction (up left diag : Int) : Char :=
  if left > up then
    if left > diag then 'l' else 'd'
  else
    if up > diag then 'u' else 'd'

/-- The invariant of the fill loop of `local_alignment`: column `0` of `D` is zero, and
the cells of the rows above `i` and of row `i` left of `j` hold the values of the
recurrence and, inside the table, the back pointer selected for their candidates. -/
def AlignInv (s1 s2 : List Char) (bpa : BlosumPenaltyArray) (m i j : Nat) (t : AlignTables) :
    Prop :=
  (∀ a, t.D a 0 = 0) ∧
    (∀ a b, b ≤ m → (a < i ∨ (a = i ∧ b < j)) → t.D a b = swRec s1 s2 bpa a b) ∧
    ∀ a b, 1 ≤ a → 1 ≤ b → b ≤ m → (a < i ∨ (a = i ∧ b < j)) →
      t.B a b = direction (upAt (swRec s1 s2 bpa) s1 bpa a b)
        (leftAt (swRec s1 s2 bpa) s2 bpa a b) (diagAt (swRec s1 s2 bpa) s1 s2 bpa a b)

/-- The candidate value that belongs to a back pointer. -/
def candidate (c : Char) (up left diag : Int) : Int :=
  if c = 'u' then up else if c = 'l' then left else diag

/-- The value `max(0, max over 1 <= j <= m of D[n][j])`. -/
def rowMax (D : Table Int) (n m : Nat) : Int :=
  ((List.range' 1 m).map (D n)).foldl max 0

/-- A pass of the backtrace loop that follows a direction, from the variables `w` to the
variables `w'`: the cell read lies inside the table, in a row and a column of positive
index, it holds `'u'`, `'l'` or `'d'`, and the pass decreases `i` or `j` and increases
neither. -/
def WalkPass (B : Table Char) (n m : Nat) (w w' : Walk) : Prop :=
  1 ≤ w.i ∧ w.i ≤ n ∧ 1 ≤ w.j ∧ w.j ≤ m ∧
    (B w.i w.j = 'u' ∨ B w.i w.j = 'l' ∨ B w.i w.j = 'd') ∧
    w'.i ≤ w.i ∧ w'.j ≤ w.j ∧ w'.i + w'.j < w.i + w.j

/-- The cell at which the backtrace loop stops: inside the table, in row `0` or in column
`0`, and holding `'?'`. -/
def WalkStop (B : Table Char) (n m : Nat) (w : Walk) : Prop :=
  w.i ≤ n ∧ w.j ≤ m ∧ (w.i = 0 ∨ w.j = 0) ∧ B w.i w.j = '?'

/-- The variables of the backtrace loop of `local_alignment` when the loop is entered
(lines 260-261): `i = best_i = n`, `j = best_j`, two empty strings. -/
def walkStart (string1 string2 : List Char) (bpa : BlosumPenaltyArray) : Walk :=
  { i := string1.length,
    j := (bestInRow (alignTables string1 string2 bpa).D string1.length string2.length).2,
    matchString1 := [], matchString2 := [], done := false }

/-! ## Loop rules -/

theorem forLoop_of_le {σ : Type} (lo hi : Nat) (body : Nat → σ → σ) (s : σ) (h : hi ≤ lo) :
    forLoop lo hi body s = s := by
  unfold forLoop
  have : hi - lo = 0 := by omega
  simp [this]

theorem forLoop_succ {σ : Type} (lo hi : Nat) (body : Nat → σ → σ) (s : σ) (h : lo ≤ hi) :
    forLoop lo (hi + 1) body s = body hi (forLoop lo hi body s) := by
  unfold forLoop
  have : hi + 1 - lo = (hi - lo) + 1 := by omega
  rw [this, List.range'_1_concat, List.foldl_append]
  have h2 : lo + (hi - lo) = hi := by omega
  simp [h2]

/-- Loop invariant rule. -/
theorem forLoop_inv {σ : Type} (Inv : Nat → σ → Prop) (lo hi : Nat) (body : Nat → σ → σ)
    (s : σ) (h : lo ≤ hi) (h0 : Inv lo s)
    (hstep : ∀ i t, lo ≤ i → i < hi → Inv i t → Inv (i + 1) (body i t)) :
    Inv hi (forLoop lo hi body s) := by
  induction hi, h using Nat.le_induction with
  | base => rw [forLoop_of_le _ _ _ _ (le_refl _)]; exact h0
  | succ k hk ih =>
    rw [forLoop_succ _ _ _ _ hk]
    exact hstep k _ hk (Nat.lt_succ_self k) (ih (fun i t h1 h2 => hstep i t h1 (by omega)))

theorem lcsRec_zero_left (s1 s2 : List Char) (j : Nat) : lcsRec s1 s2 0 j = 0 := by
  simp [lcsRec]

theorem lcsRec_zero_right (s1 s2 : List Char) (i : Nat) : lcsRec s1 s2 i 0 = 0 := by
  cases i <;> simp [lcsRec]

/-! ## The LCS table -/

theorem Table.set_same {α : Type} (T : Table α) (i j : Nat) (v : α) : T.set i j v i j = v := by
  simp [Table.set]

theorem Table.set_other {α : Type} (T : Table α) (i j a b : Nat) (v : α)
    (h : ¬ (a = i ∧ b = j)) : T.set i j v a b = T a b := by
  simp [Table.set, h]

/-- The two initialisation loops of the LCS engine leave a table of zeros. -/
theorem lcsInit_zero (n m : Nat) (a b : Nat) :
    forLoop 0 (m + 1) (fun j D => Table.set D 0 j 0)
      (forLoop 0 (n + 1) (fun i D => Table.set D i 0 0) (fun _ _ => (0 : Int))) a b = 0 := by
  have h1 : ∀ a b, forLoop 0 (n + 1) (fun i D => Table.set D i 0 0) (fun _ _ => (0 : Int)) a b = 0 := by
    refine forLoop_inv (fun _ (D : Table Int) => ∀ a b, D a b = 0) 0 (n + 1) _ _ (Nat.zero_le _)
      (fun _ _ => rfl) ?_
    intro i t _ _ ht a b
    by_cases h : a = i ∧ b = 0
    · rw [h.1, h.2, Table.set_same]
    · rw [Table.set_other _ _ _ _ _ _ h]; exact ht a b
  refine forLoop_inv (fun _ (D : Table Int) => ∀ a b, D a b = 0) 0 (m + 1) _ _ (Nat.zero_le _)
    h1 ?_ a b
  intro j t _ _ ht a b
  by_cases h : a = 0 ∧ b = j
  · rw [h.1, h.2, Table.set_same]
  · rw [Table.set_other _ _ _ _ _ _ h]; exact ht a b

theorem lcsCell_inv (s1 s2 : List Char) (m i j : Nat) (D : Table Int) (hi : 1 ≤ i)
    (hj : 1 ≤ j) (hjm : j ≤ m) (h : LcsInv s1 s2 m i j D) :
    LcsInv s1 s2 m i (j + 1) (lcsCell s1 s2 i j D) := by
  obtain ⟨h0, h1⟩ := h
  obtain ⟨i', rfl⟩ : ∃ i', i = i' + 1 := ⟨i - 1, by omega⟩
  obtain ⟨j', rfl⟩ : ∃ j', j = j' + 1 := ⟨j - 1, by omega⟩
  refine ⟨?_, ?_⟩
  · intro a
    unfold lcsCell
    rw [Table.set_other _ _ _ _ _ _ (by omega)]
    exact h0 a
  · intro a b hb hab
    unfold lcsCell
    by_cases hc : a = i' + 1 ∧ b = j' + 1
    · rw [hc.1, hc.2, Table.set_same]
      simp only [Nat.add_sub_cancel]
      rw [h1 i' (j' + 1) hjm (Or.inl (by omega)), h1 (i' + 1) j' (by omega) (Or.inr ⟨rfl, by omega⟩),
        h1 i' j' (by omega) (Or.inl (by omega))]
      rw [lcsRec]
    · rw [Table.set_other _ _ _ _ _ _ hc]
      exact h1 a b hb (by omega)

theorem lcsTable_eq_lcsRec (s1 s2 : List Char) :
    ∀ a b, a ≤ s1.length → b ≤ s2.length → lcsTable s1 s2 a b = lcsRec s1 s2 a b := by
  have key : LcsInv s1 s2 s2.length (s1.length + 1) 1 (lcsTable s1 s2) := by
    unfold lcsTable
    refine forLoop_inv (fun i D => LcsInv s1 s2 s2.length i 1 D) 1 (s1.length + 1) _ _ (by omega)
      ?_ ?_
    · refine ⟨fun a => lcsInit_zero _ _ a 0, ?_⟩
      intro a b _ hab
      rw [lcsInit_zero]
      rcases hab with h | ⟨_, h⟩
      · have : a = 0 := by omega
        rw [this, lcsRec_zero_left]
      · have : b = 0 := by omega
        rw [this, lcsRec_zero_right]
    · intro i D hi _ hD
      have hrow : LcsInv s1 s2 s2.length i (s2.length + 1)
          (forLoop 1 (s2.length + 1) (fun j D => lcsCell s1 s2 i j D) D) := by
        refine forLoop_inv (fun j D => LcsInv s1 s2 s2.length i j D) 1 (s2.length + 1) _ _
          (by omega) hD ?_
        intro j t hj hjm ht
        exact lcsCell_inv s1 s2 _ i j t hi hj (by omega) ht
      refine ⟨hrow.1, ?_⟩
      intro a b hb hab
      rcases hab with h | ⟨_, h⟩
      · exact hrow.2 a b hb (by omega)
      · have : b = 0 := by omega
        rw [this, hrow.1, lcsRec_zero_right]
  intro a b ha hb
  exact key.2 a b hb (Or.inl (by omega))

/-! ## The LCS recurrence computes the length of a longest common subsequence -/

theorem sublist_concat_iff (s A : List Char) (a : Char) :
    s.Sublist (A ++ [a]) ↔ s.Sublist A ∨ ∃ t, s = t ++ [a] ∧ t.Sublist A := by
  rw [List.sublist_append_iff]
  constructor
  · rintro ⟨r1, r2, rfl, h1, h2⟩
    rcases List.sublist_singleton.mp h2 with rfl | rfl
    · left; simpa using h1
    · right; exact ⟨r1, rfl, h1⟩
  · rintro (h | ⟨t, rfl, h⟩)
    · exact ⟨s, [], by simp, h, by simp⟩
    · exact ⟨t, [a], rfl, h, List.Sublist.refl _⟩

theorem isLcsLength_nil_left (B : List Char) : IsLcsLength [] B 0 := by
  refine ⟨⟨[], List.Sublist.refl _, List.nil_sublist _, rfl⟩, ?_⟩
  intro s hs _
  rw [List.sublist_nil.mp hs]; simp

theorem isLcsLength_nil_right (A : List Char) : IsLcsLength A [] 0 := by
  refine ⟨⟨[], List.nil_sublist _, List.Sublist.refl _, rfl⟩, ?_⟩
  intro s _ hs
  rw [List.sublist_nil.mp hs]; simp

theorem isLcsLength_concat (A B : List Char) (a b : Char) (u l d : Int)
    (hu : IsLcsLength A (B ++ [b]) u) (hl : IsLcsLength (A ++ [a]) B l)
    (hd : IsLcsLength A B d) :
    IsLcsLength (A ++ [a]) (B ++ [b]) (max (max u l) (if a = b then d + 1 else d)) := by
  obtain ⟨⟨su, hu1, hu2, hu3⟩, hu4⟩ := hu
  obtain ⟨⟨sl, hl1, hl2, hl3⟩, hl4⟩ := hl
  obtain ⟨⟨sd, hd1, hd2, hd3⟩, hd4⟩ := hd
  have hAa : A.Sublist (A ++ [a]) := List.sublist_append_left A [a]
  have hBb : B.Sublist (B ++ [b]) := List.sublist_append_left B [b]
  have hdu : d ≤ u := by rw [← hd3]; exact hu4 sd hd1 (hd2.trans hBb)
  constructor
  · by_cases hab : a = b
    · subst hab
      simp only [if_true]
      rcases le_total (max u l) (d + 1) with h | h
      · rw [max_eq_right h]
        refine ⟨sd ++ [a], List.Sublist.append hd1 (List.Sublist.refl _),
          List.Sublist.append hd2 (List.Sublist.refl _), ?_⟩
        simp [hd3]
      · rw [max_eq_left h]
        rcases le_total u l with h' | h'
        · rw [max_eq_right h']; exact ⟨sl, hl1, hl2.trans hBb, hl3⟩
        · rw [max_eq_left h']; exact ⟨su, hu1.trans hAa, hu2, hu3⟩
    · simp only [if_neg hab]
      have : max (max u l) d = max u l := max_eq_left (le_trans hdu (le_max_left _ _))
      rw [this]
      rcases le_total u l with h' | h'
      · rw [max_eq_right h']; exact ⟨sl, hl1, hl2.trans hBb, hl3⟩
      · rw [max_eq_left h']; exact ⟨su, hu1.trans hAa, hu2, hu3⟩
  · intro s hsA hsB
    rcases (sublist_concat_iff s A a).mp hsA with h1 | ⟨t, rfl, ht⟩
    · exact le_trans (hu4 s h1 hsB) (le_trans (le_max_left _ _) (le_max_left _ _))
    · rcases (sublist_concat_iff _ B b).mp hsB with h2 | ⟨t', ht', ht2⟩
      · exact le_trans (hl4 _ hsA h2) (le_trans (le_max_right _ _) (le_max_left _ _))
      · obtain ⟨rfl, hab⟩ := List.append_inj' ht' rfl
        have hab : a = b := by simpa using hab
        subst hab
        simp only [if_true]
        refine le_trans ?_ (le_max_right _ _)
        have := hd4 t ht ht2
        simp only [List.length_append, List.length_singleton, Nat.cast_add, Nat.cast_one]
        omega

theorem take_succ_charAt (s : List Char) (i : Nat) (h : i < s.length) :
    s.take (i + 1) = s.take i ++ [charAt s i] := by
  rw [List.take_succ, List.getElem?_eq_getElem h]
  simp [charAt, List.getD, List.getElem?_eq_getElem h]

theorem lcsRec_isLcsLength (s1 s2 : List Char) :
    ∀ i j, i ≤ s1.length → j ≤ s2.length →
      IsLcsLength (s1.take i) (s2.take j) (lcsRec s1 s2 i j) := by
  intro i
  induction i with
  | zero => intro j _ _; rw [lcsRec_zero_left]; exact isLcsLength_nil_left _
  | succ i ihi =>
    intro j
    induction j with
    | zero => intro _ _; rw [lcsRec_zero_right]; exact isLcsLength_nil_right _
    | succ j ihj =>
      intro hi hj
      rw [lcsRec, take_succ_charAt s1 i (by omega), take_succ_charAt s2 j (by omega)]
      have h1 := ihi (j + 1) (by omega) hj
      have h2 := ihj hi (by omega)
      have h3 := ihi j (by omega) (by omega)
      rw [take_succ_charAt s2 j (by omega)] at h1
      rw [take_succ_charAt s1 i (by omega)] at h2
      exact isLcsLength_concat _ _ _ _ _ _ _ h1 h2 h3

theorem dp_isLcsLength (A B : List Char) :
    IsLcsLength A B (dynamicprogramming_longest_common_subsequence A B) := by
  unfold dynamicprogramming_longest_common_subsequence
  rw [lcsTable_eq_lcsRec A B _ _ (le_refl _) (le_refl _)]
  have := lcsRec_isLcsLength A B A.length B.length (le_refl _) (le_refl _)
  simpa using this

/-- C1. For all strings `A` and `B` the value returned by
`dynamicprogramming_longest_common_subsequence` is the length of a longest common
subsequence: some string of that length is a subsequence of both `A` and `B`, and no
longer string is a subsequence of both. -/
theorem dynamicprogramming_lcs_correct (A B : List Char) :
    (∃ s : List Char, s.Sublist A ∧ s.Sublist B ∧
        (s.length : Int) = dynamicprogramming_longest_common_subsequence A B) ∧
      ∀ s : List Char, s.Sublist A → s.Sublist B →
        (s.length : Int) ≤ dynamicprogramming_longest_common_subsequence A B :=
  dp_isLcsLength A B

/-- C3. For every string `A`, `dynamicprogramming_longest_common_subsequence A A` is the
length of `A`. -/
theorem dynamicprogramming_lcs_self (A : List Char) :
    dynamicprogramming_longest_common_subsequence A A = (A.length : Int) := by
  obtain ⟨⟨s, hs, _, hlen⟩, hmax⟩ := dp_isLcsLength A A
  have h1 := hmax A (List.Sublist.refl _) (List.Sublist.refl _)
  have h2 : (s.length : Int) ≤ A.length := by exact_mod_cast hs.length_le
  omega

/-! ## The exhaustive engine -/

/-- The bit test of `generate_all_subsequences` is `Nat.testBit`. -/
theorem bit_test_iff (bits j : Nat) : ((bits >>> j) &&& 1 = 1) ↔ bits.testBit j = true := by
  rw [Nat.and_one_is_mod, Nat.shiftRight_eq_div_pow, Nat.testBit_to_div_mod]
  simp

theorem subseqPrefix_succ (sequence : List Char) (bits k : Nat) :
    subseqPrefix sequence bits (k + 1) =
      if bits.testBit k = true then subseqPrefix sequence bits k ++ [charAt sequence k]
      else subseqPrefix sequence bits k := by
  unfold subseqPrefix
  rw [forLoop_succ _ _ _ _ (Nat.zero_le _)]
  simp only [bit_test_iff]

theorem subseqPrefix_zero (sequence : List Char) (bits : Nat) :
    subseqPrefix sequence bits 0 = [] := by
  unfold subseqPrefix
  rw [forLoop_of_le _ _ _ _ (le_refl _)]

theorem subseqPrefix_sublist (sequence : List Char) (bits : Nat) :
    ∀ k, k ≤ sequence.length → (subseqPrefix sequence bits k).Sublist (sequence.take k) := by
  intro k
  induction k with
  | zero => intro _; rw [subseqPrefix_zero]; exact List.nil_sublist _
  | succ k ih =>
    intro hk
    rw [subseqPrefix_succ, take_succ_charAt _ _ (by omega)]
    split
    · exact List.Sublist.append (ih (by omega)) (List.Sublist.refl _)
    · exact (ih (by omega)).trans (List.sublist_append_left _ _)

theorem subseqPrefix_congr (sequence : List Char) (b1 b2 : Nat) :
    ∀ k, (∀ j, j < k → b1.testBit j = b2.testBit j) →
      subseqPrefix sequence b1 k = subseqPrefix sequence b2 k := by
  intro k
  induction k with
  | zero => intro _; rw [subseqPrefix_zero, subseqPrefix_zero]
  | succ k ih =>
    intro h
    rw [subseqPrefix_succ, subseqPrefix_succ, h k (Nat.lt_succ_self k),
      ih (fun j hj => h j (by omega))]

theorem subseqPrefix_surj (sequence : List Char) :
    ∀ k, k ≤ sequence.length → ∀ s : List Char, s.Sublist (sequence.take k) →
      ∃ bits, bits < 2 ^ k ∧ subseqPrefix sequence bits k = s := by
  intro k
  induction k with
  | zero =>
    intro _ s hs
    refine ⟨0, by simp, ?_⟩
    rw [subseqPrefix_zero]
    simp at hs
    exact hs.symm
  | succ k ih =>
    intro hk s hs
    rw [take_succ_charAt _ _ (by omega)] at hs
    rcases (sublist_concat_iff _ _ _).mp hs with h | ⟨t, rfl, ht⟩
    · obtain ⟨bits, hb, hbs⟩ := ih (by omega) s h
      refine ⟨bits, by rw [pow_succ]; omega, ?_⟩
      rw [subseqPrefix_succ, Nat.testBit_lt_two_pow hb]
      simpa using hbs
    · obtain ⟨bits, hb, hbs⟩ := ih (by omega) t ht
      refine ⟨2 ^ k + bits, by rw [pow_succ]; omega, ?_⟩
      rw [subseqPrefix_succ, Nat.testBit_two_pow_add_eq, Nat.testBit_lt_two_pow hb]
      simp only [Bool.not_false, if_true]
      rw [subseqPrefix_congr sequence (2 ^ k + bits) bits k
        (fun j hj => Nat.testBit_two_pow_add_gt hj bits), hbs]

theorem forLoop_push {α : Type} (f : Nat → α) (k : Nat) :
    forLoop 0 k (fun bits (acc : List α) => acc ++ [f bits]) [] = (List.range k).map f := by
  induction k with
  | zero => rw [forLoop_of_le _ _ _ _ (le_refl _)]; rfl
  | succ k ih => rw [forLoop_succ _ _ _ _ (Nat.zero_le _), ih, List.range_succ]; simp

/-- Within the `int` range `generate_all_subsequences` returns a vector that holds
exactly the subsequences of its argument. -/
theorem generate_all_subsequences_spec (sequence : List Char) (h : sequence.length ≤ 30) :
    ∃ all : List (List Char), generate_all_subsequences sequence = .returned all ∧
      ∀ s : List Char, s ∈ all ↔ s.Sublist sequence := by
  refine ⟨(List.range (2 ^ sequence.length)).map (subseqOfBits sequence), ?_, ?_⟩
  · unfold generate_all_subsequences pow2_int
    rw [if_pos h]
    simp only [Outcome.bind]
    rw [forLoop_push]
    have hp : ((2 : Int) ^ sequence.length).toNat = 2 ^ sequence.length := by
      have : (2 : Int) ^ sequence.length = ((2 ^ sequence.length : Nat) : Int) := by
        push_cast; rfl
      rw [this, Int.toNat_natCast]
    rw [hp]
  · intro s
    simp only [List.mem_map, List.mem_range]
    constructor
    · rintro ⟨bits, _, rfl⟩
      have := subseqPrefix_sublist sequence bits sequence.length (le_refl _)
      simpa [subseqPrefix, subseqOfBits] using this
    · intro hs
      obtain ⟨bits, hb, hbs⟩ := subseqPrefix_surj sequence sequence.length (le_refl _) s
        (by simpa using hs)
      exact ⟨bits, hb, hbs⟩

theorem exhaustive_inner (s1 : List Char) (L2 : List (List Char)) :
    ∀ b : Int, L2.foldl (fun best_score s2 =>
      if s1 = s2 ∧ best_score < (s1.length : Int) then (s1.length : Int) else best_score) b =
      if s1 ∈ L2 ∧ b < (s1.length : Int) then (s1.length : Int) else b := by
  induction L2 with
  | nil => intro b; simp
  | cons s2 rest ih =>
    intro b
    rw [List.foldl_cons, ih]
    by_cases h1 : s1 = s2
    · subst h1
      by_cases h2 : b < (s1.length : Int)
      · have e : (if s1 = s1 ∧ b < (s1.length : Int) then (s1.length : Int) else b) =
            (s1.length : Int) := if_pos ⟨rfl, h2⟩
        rw [e, if_neg (fun h => lt_irrefl _ h.2), if_pos ⟨List.mem_cons_self _ _, h2⟩]
      · have e : (if s1 = s1 ∧ b < (s1.length : Int) then (s1.length : Int) else b) = b :=
          if_neg (fun h => h2 h.2)
        rw [e, if_neg (fun h => h2 h.2), if_neg (fun h => h2 h.2)]
    · have e : (if s1 = s2 ∧ b < (s1.length : Int) then (s1.length : Int) else b) = b :=
        if_neg (fun h => h1 h.1)
      rw [e]
      simp only [List.mem_cons, h1, false_or]

theorem exhaustive_outer (L2 : List (List Char)) (L1 : List (List Char)) :
    ∀ b : Int,
      let r := L1.foldl (fun best_score s1 =>
        L2.foldl (fun best_score s2 =>
          if s1 = s2 ∧ best_score < (s1.length : Int) then (s1.length : Int) else best_score)
          best_score) b
      b ≤ r ∧ (r = b ∨ ∃ s, s ∈ L1 ∧ s ∈ L2 ∧ (s.length : Int) = r) ∧
        ∀ s, s ∈ L1 → s ∈ L2 → (s.length : Int) ≤ r := by
  induction L1 with
  | nil => intro b; simp
  | cons s1 rest ih =>
    intro b
    simp only [List.foldl_cons]
    rw [exhaustive_inner]
    obtain ⟨h1, h2, h3⟩ := ih (if s1 ∈ L2 ∧ b < (s1.length : Int) then (s1.length : Int) else b)
    by_cases hc : s1 ∈ L2 ∧ b < (s1.length : Int)
    · rw [if_pos hc] at h1 h2 h3 ⊢
      refine ⟨by omega, ?_, ?_⟩
      · rcases h2 with h | ⟨s, hs1, hs2, hs3⟩
        · exact Or.inr ⟨s1, List.mem_cons_self _ _, hc.1, h.symm⟩
        · exact Or.inr ⟨s, List.mem_cons_of_mem _ hs1, hs2, hs3⟩
      · intro s hs hs2
        rcases List.mem_cons.mp hs with rfl | hs
        · exact h1
        · exact h3 s hs hs2
    · rw [if_neg hc] at h1 h2 h3 ⊢
      refine ⟨h1, ?_, ?_⟩
      · rcases h2 with h | ⟨s, hs1, hs2, hs3⟩
        · exact Or.inl h
        · exact Or.inr ⟨s, List.mem_cons_of_mem _ hs1, hs2, hs3⟩
      · intro s hs hs2
        rcases List.mem_cons.mp hs with rfl | hs
        · have : ¬ b < (s.length : Int) := fun hb => hc ⟨hs2, hb⟩
          omega
        · exact h3 s hs hs2

theorem exhaustiveScan_isLcsLength (A B : List Char) (L1 L2 : List (List Char))
    (h1 : ∀ s : List Char, s ∈ L1 ↔ s.Sublist A) (h2 : ∀ s : List Char, s ∈ L2 ↔ s.Sublist B) :
    IsLcsLength A B (exhaustiveScan L1 L2) := by
  obtain ⟨_, hb, hc⟩ := exhaustive_outer L2 L1 0
  refine ⟨?_, ?_⟩
  · rcases hb with h | ⟨s, hs1, hs2, hs3⟩
    · exact ⟨[], List.nil_sublist _, List.nil_sublist _, by unfold exhaustiveScan; rw [h]; rfl⟩
    · exact ⟨s, (h1 s).mp hs1, (h2 s).mp hs2, hs3⟩
  · intro s hs1 hs2
    exact hc s ((h1 s).mpr hs1) ((h2 s).mpr hs2)

theorem isLcsLength_unique (A B : List Char) (u v : Int) (hu : IsLcsLength A B u)
    (hv : IsLcsLength A B v) : u = v := by
  obtain ⟨⟨su, a1, a2, a3⟩, a4⟩ := hu
  obtain ⟨⟨sv, b1, b2, b3⟩, b4⟩ := hv
  have := a4 sv b1 b2
  have := b4 su a1 a2
  omega

theorem exhaustive_isLcsLength (A B : List Char) (hA : A.length ≤ 30) (hB : B.length ≤ 30) :
    ∃ v, exhaustive_longest_common_subsequence A B = .returned v ∧ IsLcsLength A B v := by
  obtain ⟨L1, e1, m1⟩ := generate_all_subsequences_spec A hA
  obtain ⟨L2, e2, m2⟩ := generate_all_subsequences_spec B hB
  refine ⟨exhaustiveScan L1 L2, ?_, exhaustiveScan_isLcsLength A B L1 L2 m1 m2⟩
  unfold exhaustive_longest_common_subsequence
  rw [e1, e2]
  rfl

/-- Within the `int` range the exhaustive engine returns the value of the dynamic
programming engine. -/
theorem exhaustive_returns_dp (A B : List Char) (hA : A.length ≤ 30) (hB : B.length ≤ 30) :
    exhaustive_longest_common_subsequence A B =
      .returned (dynamicprogramming_longest_common_subsequence A B) := by
  obtain ⟨v, hv, hl⟩ := exhaustive_isLcsLength A B hA hB
  rw [hv, isLcsLength_unique A B v _ hl (dp_isLcsLength A B)]

/-- C2. For all strings `A` and `B` of at most 30 characters (so that `2^|A|` and
`2^|B|` fit an `int`), `exhaustive_longest_common_subsequence` returns, and it returns the
value of `dynamicprogramming_longest_common_subsequence`. -/
theorem exhaustive_eq_dynamicprogramming (A B : List Char) (hA : A.length ≤ 30)
    (hB : B.length ≤ 30) :
    exhaustive_longest_common_subsequence A B =
      .returned (dynamicprogramming_longest_common_subsequence A B) :=
  exhaustive_returns_dp A B hA hB

/-- Witness of C2 at `"AGC"` and `"GAC"`. -/
theorem exhaustive_eq_dynamicprogramming_witness :
    ['A', 'G', 'C'].length ≤ 30 ∧ ['G', 'A', 'C'].length ≤ 30 ∧
      exhaustive_longest_common_subsequence ['A', 'G', 'C'] ['G', 'A', 'C'] =
        .returned (dynamicprogramming_longest_common_subsequence ['A', 'G', 'C'] ['G', 'A', 'C']) :=
  ⟨by decide, by decide,
    exhaustive_eq_dynamicprogramming ['A', 'G', 'C'] ['G', 'A', 'C'] (by decide) (by decide)⟩

/-! ## Best-match search with the LCS engines -/

theorem bestLoop_inv (score : Nat → Int) (hnn : ∀ j, 0 ≤ score j) :
    ∀ k, ((bestLoop score k).2 = 0 ∧ (bestLoop score k).1 = 0 ∧ ∀ j, j < k → score j = 0) ∨
      ((bestLoop score k).1 < k ∧ (bestLoop score k).2 = score (bestLoop score k).1 ∧
        0 < (bestLoop score k).2 ∧ (∀ j, j < k → score j ≤ (bestLoop score k).2) ∧
        ∀ j, j < (bestLoop score k).1 → score j < (bestLoop score k).2) := by
  intro k
  induction k with
  | zero =>
    left
    unfold bestLoop
    rw [forLoop_of_le _ _ _ _ (le_refl _)]
    exact ⟨rfl, rfl, fun j hj => absurd hj (Nat.not_lt_zero j)⟩
  | succ k ih =>
    have e : bestLoop score (k + 1) = keepBest k (score k) (bestLoop score k) := by
      unfold bestLoop
      rw [forLoop_succ _ _ _ _ (Nat.zero_le _)]
    rw [e]
    unfold keepBest
    by_cases hc : score k > (bestLoop score k).2
    · rw [if_pos hc]
      right
      refine ⟨Nat.lt_succ_self k, rfl, ?_, ?_, ?_⟩
      · rcases ih with ⟨h1, _, _⟩ | ⟨_, _, h3, _, _⟩
        · show 0 < score k
          omega
        · show 0 < score k
          omega
      · intro j hj
        show score j ≤ score k
        rcases Nat.lt_succ_iff_lt_or_eq.mp hj with h | h
        · rcases ih with ⟨h1, _, h3⟩ | ⟨_, _, _, h4, _⟩
          · have := h3 j h; omega
          · have := h4 j h; omega
        · rw [h]
      · intro j hj
        show score j < score k
        have hj : j < k := hj
        rcases ih with ⟨h1, _, h3⟩ | ⟨_, _, _, h4, _⟩
        · have := h3 j hj; omega
        · have := h4 j hj; omega
    · rw [if_neg hc]
      rcases ih with ⟨h1, h2, h3⟩ | ⟨h1, h2, h3, h4, h5⟩
      · left
        refine ⟨h1, h2, ?_⟩
        intro j hj
        rcases Nat.lt_succ_iff_lt_or_eq.mp hj with h | h
        · exact h3 j h
        · rw [h]; have := hnn k; omega
      · right
        refine ⟨by omega, h2, h3, ?_, h5⟩
        intro j hj
        rcases Nat.lt_succ_iff_lt_or_eq.mp hj with h | h
        · exact h4 j h
        · rw [h]; omega

/-- With non-negative scores and at least one entry, the loop of the best-match searches
ends at the smallest index whose score is the greatest. -/
theorem bestLoop_first_max (score : Nat → Int) (hnn : ∀ j, 0 ≤ score j) (len : Nat)
    (hlen : 0 < len) :
    (bestLoop score len).1 < len ∧
      (∀ j, j < len → score j ≤ score (bestLoop score len).1) ∧
      ∀ j, j < (bestLoop score len).1 → score j < score (bestLoop score len).1 := by
  rcases bestLoop_inv score hnn len with ⟨_, h2, h3⟩ | ⟨h1, h2, _, h4, h5⟩
  · rw [h2]
    refine ⟨hlen, ?_, fun j hj => absurd hj (Nat.not_lt_zero j)⟩
    intro j hj
    rw [h3 j hj, h3 0 hlen]
  · refine ⟨by omega, ?_, ?_⟩
    · intro j hj; rw [← h2]; exact h4 j hj
    · intro j hj; rw [← h2]; exact h5 j hj

theorem dp_nonneg (A B : List Char) : 0 ≤ dynamicprogramming_longest_common_subsequence A B := by
  have := (dp_isLcsLength A B).2 [] (List.nil_sublist _) (List.nil_sublist _)
  simpa using this

theorem vecAt_of_lt {α : Type} (v : List α) (i : Nat) (h : i < v.length) :
    vecAt v i = .returned (v.get ⟨i, h⟩) := by
  unfold vecAt
  rw [List.getElem?_eq_getElem h]
  rfl

theorem dynamic_loop (proteins : ProteinVector) (string1 : List Char) :
    ∀ k, k ≤ proteins.length →
      forLoop 0 k (dynamicMatchStep proteins string1) (.returned (0, 0)) =
        .returned (bestLoop (dpScore proteins string1) k) := by
  intro k
  induction k with
  | zero =>
    intro _
    unfold bestLoop
    rw [forLoop_of_le _ _ _ _ (le_refl _), forLoop_of_le _ _ _ _ (le_refl _)]
  | succ k ih =>
    intro hk
    have hk2 : k < proteins.length := by omega
    rw [forLoop_succ _ _ _ _ (Nat.zero_le _), ih (by omega)]
    unfold bestLoop
    rw [forLoop_succ _ _ _ _ (Nat.zero_le _)]
    unfold dynamicMatchStep
    simp only [Outcome.bind, vecAt_of_lt proteins k hk2]
    unfold dpScore entryScore
    rw [List.getElem?_eq_getElem hk2]
    rfl

theorem exhaustive_nonneg (A B : List Char) (v : Int)
    (h : exhaustive_longest_common_subsequence A B = .returned v) : 0 ≤ v := by
  unfold exhaustive_longest_common_subsequence at h
  cases h1 : generate_all_subsequences A with
  | returned L1 =>
    cases h2 : generate_all_subsequences B with
    | returned L2 =>
      rw [h1, h2] at h
      simp only [Outcome.bind, Outcome.returned.injEq] at h
      rw [← h]
      exact (exhaustive_outer L2 L1 0).1
    | thrown w => rw [h1, h2] at h; exact Outcome.noConfusion h
    | outOfRange i n => rw [h1, h2] at h; exact Outcome.noConfusion h
    | intRange => rw [h1, h2] at h; exact Outcome.noConfusion h
    | noReturn => rw [h1, h2] at h; exact Outcome.noConfusion h
  | thrown w => rw [h1] at h; exact Outcome.noConfusion h
  | outOfRange i n => rw [h1] at h; exact Outcome.noConfusion h
  | intRange => rw [h1] at h; exact Outcome.noConfusion h
  | noReturn => rw [h1] at h; exact Outcome.noConfusion h

theorem exhaustiveValue_of_returned (A B : List Char) (v : Int)
    (h : exhaustive_longest_common_subsequence A B = .returned v) : exhaustiveValue A B = v := by
  unfold exhaustiveValue
  rw [h]

theorem exhaustiveValue_nonneg (A B : List Char) : 0 ≤ exhaustiveValue A B := by
  unfold exhaustiveValue
  split
  · next v hv => exact exhaustive_nonneg A B v hv
  · exact le_refl _

/-- The loop of `exhaustive_best_match` on a vector on whose entries the exhaustive
engine returns. -/
theorem exhaustive_loop (proteins : ProteinVector) (string1 : List Char)
    (hret : ∀ q, q ∈ proteins →
      ∃ w, exhaustive_longest_common_subsequence q.sequence string1 = .returned w) :
    ∀ k, k ≤ proteins.length →
      forLoop 0 k (exhaustiveMatchStep proteins string1) (.returned (0, 0)) =
        .returned (bestLoop (exScore proteins string1) k) := by
  intro k
  induction k with
  | zero =>
    intro _
    unfold bestLoop
    rw [forLoop_of_le _ _ _ _ (le_refl _), forLoop_of_le _ _ _ _ (le_refl _)]
  | succ k ih =>
    intro hk
    have hk2 : k < proteins.length := by omega
    obtain ⟨w, hw⟩ := hret _ (List.get_mem proteins k hk2)
    rw [forLoop_succ _ _ _ _ (Nat.zero_le _), ih (by omega)]
    unfold bestLoop
    rw [forLoop_succ _ _ _ _ (Nat.zero_le _)]
    unfold exhaustiveMatchStep
    simp only [Outcome.bind, vecAt_of_lt proteins k hk2]
    rw [hw]
    unfold exScore entryScore
    rw [List.getElem?_eq_getElem hk2]
    simp only []
    have e : exhaustiveValue (proteins[k]).sequence string1 = w :=
      exhaustiveValue_of_returned _ _ w hw
    rw [e]

/-- The index at which the loop of a best-match search ends on a non-empty vector, for
a scoring without negative scores: the entry there has the greatest score, and every
entry before it has a strictly smaller one. -/
theorem first_max_entry (sc : Protein → Int) (hnn : ∀ p, 0 ≤ sc p) (proteins : ProteinVector)
    (h : proteins ≠ []) :
    ∃ k p, proteins[k]? = some p ∧
      vecAt proteins (bestLoop (entryScore sc proteins) proteins.length).1 = .returned p ∧
      (∀ (j : Nat) (q : Protein), proteins[j]? = some q → sc q ≤ sc p) ∧
      (∀ (j : Nat) (q : Protein), j < k → proteins[j]? = some q → sc q < sc p) := by
  have hlen : 0 < proteins.length := List.length_pos.mpr h
  have hnn2 : ∀ j, 0 ≤ entryScore sc proteins j := by
    intro j
    unfold entryScore
    split
    · exact hnn _
    · exact le_refl _
  obtain ⟨h1, h2, h3⟩ := bestLoop_first_max (entryScore sc proteins) hnn2 proteins.length hlen
  have hsc : ∀ (j : Nat) (q : Protein), proteins[j]? = some q →
      entryScore sc proteins j = sc q := by
    intro j q hq
    unfold entryScore
    rw [hq]
  have hlt : ∀ (j : Nat) (q : Protein), proteins[j]? = some q → j < proteins.length := by
    intro j q hq
    by_contra hc
    rw [List.getElem?_eq_none (by omega)] at hq
    exact Option.noConfusion hq
  have hb : entryScore sc proteins (bestLoop (entryScore sc proteins) proteins.length).1 =
      sc (proteins.get ⟨_, h1⟩) :=
    hsc _ _ (List.getElem?_eq_getElem h1)
  refine ⟨(bestLoop (entryScore sc proteins) proteins.length).1, proteins.get ⟨_, h1⟩,
    List.getElem?_eq_getElem h1, vecAt_of_lt _ _ h1, ?_, ?_⟩
  · intro j q hq
    rw [← hsc j q hq, ← hb]
    exact h2 j (hlt j q hq)
  · intro j q hj hq
    rw [← hsc j q hq, ← hb]
    exact h3 j hj

/-- C9, amended. For every non-empty vector of proteins and every query,
`dynamicprogramming_best_match` returns the entry at the smallest index whose LCS score
against the query is the greatest of all entries; `exhaustive_best_match` does the same
with the scores of its own engine `exhaustive_longest_common_subsequence` when the
sequences of the vector and the query have at most 30 characters, the sizes for which
`pow(2, size)` is an `int`. -/
theorem lcs_best_match_first_max (proteins : ProteinVector) (string1 : List Char)
    (h : proteins ≠ []) :
    (∃ k p, proteins[k]? = some p ∧
      dynamicprogramming_best_match proteins string1 = .returned p ∧
      (∀ (j : Nat) (q : Protein), proteins[j]? = some q →
        dynamicprogramming_longest_common_subsequence q.sequence string1 ≤
          dynamicprogramming_longest_common_subsequence p.sequence string1) ∧
      (∀ (j : Nat) (q : Protein), j < k → proteins[j]? = some q →
        dynamicprogramming_longest_common_subsequence q.sequence string1 <
          dynamicprogramming_longest_common_subsequence p.sequence string1)) ∧
    ((∀ q, q ∈ proteins → q.sequence.length ≤ 30) → string1.length ≤ 30 →
      ∃ k p v, proteins[k]? = some p ∧
        exhaustive_best_match proteins string1 = .returned p ∧
        exhaustive_longest_common_subsequence p.sequence string1 = .returned v ∧
        (∀ (j : Nat) (q : Protein), proteins[j]? = some q →
          ∃ w, exhaustive_longest_common_subsequence q.sequence string1 = .returned w ∧ w ≤ v) ∧
        (∀ (j : Nat) (q : Protein), j < k → proteins[j]? = some q →
          ∃ w, exhaustive_longest_common_subsequence q.sequence string1 = .returned w ∧ w < v)) := by
  constructor
  · obtain ⟨k, p, hk, hr, hmax, hfirst⟩ := first_max_entry
      (fun p => dynamicprogramming_longest_common_subsequence p.sequence string1)
      (fun p => dp_nonneg _ _) proteins h
    refine ⟨k, p, hk, ?_, hmax, hfirst⟩
    unfold dynamicprogramming_best_match
    rw [dynamic_loop proteins string1 _ (le_refl _)]
    exact hr
  · intro hp hs
    have hret : ∀ q, q ∈ proteins →
        ∃ w, exhaustive_longest_common_subsequence q.sequence string1 = .returned w :=
      fun q hq => ⟨_, exhaustive_returns_dp _ _ (hp q hq) hs⟩
    obtain ⟨k, p, hk, hr, hmax, hfirst⟩ := first_max_entry
      (fun p => exhaustiveValue p.sequence string1)
      (fun p => exhaustiveValue_nonneg _ _) proteins h
    have hval : ∀ (j : Nat) (q : Protein), proteins[j]? = some q →
        exhaustive_longest_common_subsequence q.sequence string1 =
          .returned (exhaustiveValue q.sequence string1) := by
      intro j q hq
      obtain ⟨w, hw⟩ := hret q (List.getElem?_mem hq)
      rw [exhaustiveValue_of_returned _ _ w hw, hw]
    refine ⟨k, p, _, hk, ?_, hval k p hk, ?_, ?_⟩
    · unfold exhaustive_best_match
      rw [exhaustive_loop proteins string1 hret _ (le_refl _)]
      exact hr
    · intro j q hq
      exact ⟨_, hval j q hq, hmax j q hq⟩
    · intro j q hj hq
      exact ⟨_, hval j q hq, hfirst j q hj hq⟩

/-! ## The tables of the local alignment -/

theorem alignInit_spec (n m : Nat) :
    (∀ a b, (alignInit n m).D a b = 0) ∧
      ∀ a b, a ≤ n → b ≤ m → (alignInit n m).B a b = '?' := by
  have key : (∀ a b, (alignInit n m).D a b = 0) ∧
      ∀ a b, b ≤ m → (a < n + 1 ∨ (a = n + 1 ∧ b < 0)) → (alignInit n m).B a b = '?' := by
    unfold alignInit
    refine forLoop_inv (fun i (t : AlignTables) => (∀ a b, t.D a b = 0) ∧
      ∀ a b, b ≤ m → (a < i ∨ (a = i ∧ b < 0)) → t.B a b = '?') 0 (n + 1) _ _ (Nat.zero_le _)
      ?_ ?_
    · exact ⟨fun _ _ => rfl, fun a b _ h => by omega⟩
    · intro i t _ _ ht
      have hrow : (∀ a b, (forLoop 0 (m + 1) (fun j (t : AlignTables) =>
            ({ D := t.D.set i j 0, B := t.B.set i j '?' } : AlignTables)) t).D a b = 0) ∧
          ∀ a b, b ≤ m → (a < i ∨ (a = i ∧ b < m + 1)) →
            (forLoop 0 (m + 1) (fun j (t : AlignTables) =>
              ({ D := t.D.set i j 0, B := t.B.set i j '?' } : AlignTables)) t).B a b = '?' := by
        refine forLoop_inv (fun j (t : AlignTables) => (∀ a b, t.D a b = 0) ∧
          ∀ a b, b ≤ m → (a < i ∨ (a = i ∧ b < j)) → t.B a b = '?') 0 (m + 1) _ _
          (Nat.zero_le _) ht ?_
        intro j u _ _ hu
        refine ⟨?_, ?_⟩
        · intro a b
          show Table.set u.D i j 0 a b = 0
          by_cases hc : a = i ∧ b = j
          · rw [hc.1, hc.2, Table.set_same]
          · rw [Table.set_other _ _ _ _ _ _ hc]; exact hu.1 a b
        · intro a b hb hab
          show Table.set u.B i j '?' a b = '?'
          by_cases hc : a = i ∧ b = j
          · rw [hc.1, hc.2, Table.set_same]
          · rw [Table.set_other _ _ _ _ _ _ hc]; exact hu.2 a b hb (by omega)
      refine ⟨hrow.1, ?_⟩
      intro a b hb hab
      exact hrow.2 a b hb (by omega)
  exact ⟨key.1, fun a b ha hb => key.2 a b hb (by omega)⟩

/-- Wrapping leaves the values of the `int` range alone. -/
theorem wrapInt_of_isInt (x : Int) (h : IsInt x) : wrapInt x = x := by
  unfold IsInt at h
  unfold wrapInt
  omega

/-- A wrapped value is an `int`. -/
theorem wrapInt_isInt (x : Int) : IsInt (wrapInt x) := by
  unfold IsInt wrapInt
  omega

/-- The sum of two `int` values is the mathematical sum when that is an `int`. -/
theorem intAdd_of_isInt (a b : Int) (h : IsInt (a + b)) : intAdd a b = a + b := by
  unfold intAdd
  split_ifs
  · exact wrapInt_of_isInt _ h
  · rfl

/-- The sum of two `int` values is an `int`. -/
theorem intAdd_isInt (a b : Int) (ha : IsInt a) (hb : IsInt b) : IsInt (intAdd a b) := by
  unfold intAdd
  rw [if_pos ⟨ha, hb⟩]
  exact wrapInt_isInt _

/-- Adding to `0` changes nothing. -/
theorem intAdd_zero_left (p : Int) : intAdd 0 p = p := by
  unfold intAdd
  split_ifs with h
  · rw [zero_add]; exact wrapInt_of_isInt _ h.2
  · exact zero_add p

/-- The sum `INT_MAX + INT_MAX` of the program is `-2`. -/
theorem intAdd_int_max : intAdd 2147483647 2147483647 = -2 := by decide

theorem isInt_max (a b : Int) (ha : IsInt a) (hb : IsInt b) : IsInt (max a b) := by
  rcases le_total a b with h | h
  · rw [max_eq_right h]; exact hb
  · rw [max_eq_left h]; exact ha

theorem isInt_zero : IsInt 0 := by decide

theorem alignCell_D (s1 s2 : List Char) (bpa : BlosumPenaltyArray) (i j : Nat)
    (t : AlignTables) :
    (alignCell s1 s2 bpa i j t).D =
      t.D.set i j (max (max (intAdd (t.D (i - 1) j) (bpa.penalty (charAt s1 (i - 1)) '*'))
          (intAdd (t.D i (j - 1)) (bpa.penalty '*' (charAt s2 (j - 1)))))
        (max (intAdd (t.D (i - 1) (j - 1))
          (bpa.penalty (charAt s1 (i - 1)) (charAt s2 (j - 1)))) 0)) :=
  rfl

theorem alignCell_B (s1 s2 : List Char) (bpa : BlosumPenaltyArray) (i j : Nat)
    (t : AlignTables) :
    ∃ c : Char, (c = 'u' ∨ c = 'l' ∨ c = 'd') ∧ (alignCell s1 s2 bpa i j t).B = t.B.set i j c := by
  unfold alignCell
  simp only []
  split_ifs
  · exact ⟨'l', Or.inr (Or.inl rfl), rfl⟩
  · exact ⟨'d', Or.inr (Or.inr rfl), rfl⟩
  · exact ⟨'u', Or.inl rfl, rfl⟩
  · exact ⟨'d', Or.inr (Or.inr rfl), rfl⟩

/-- A loop invariant of the fill loop of `local_alignment`, whatever the penalties:
the cells of row `0` and of column `0` keep `'?'`, and the back pointers are well
formed. -/
theorem alignTables_goodB (s1 s2 : List Char) (bpa : BlosumPenaltyArray) :
    (∀ a b, a ≤ s1.length → b ≤ s2.length → (a = 0 ∨ b = 0) →
        (alignTables s1 s2 bpa).B a b = '?') ∧
      GoodB s1.length s2.length (alignTables s1 s2 bpa).B := by
  unfold alignTables
  have hstep : ∀ i j (t : AlignTables), 1 ≤ i → 1 ≤ j →
      ((∀ a b, a ≤ s1.length → b ≤ s2.length → (a = 0 ∨ b = 0) → t.B a b = '?') ∧
        GoodB s1.length s2.length t.B) →
      ((∀ a b, a ≤ s1.length → b ≤ s2.length → (a = 0 ∨ b = 0) →
          (alignCell s1 s2 bpa i j t).B a b = '?') ∧
        GoodB s1.length s2.length (alignCell s1 s2 bpa i j t).B) := by
    intro i j t hi hj ht
    obtain ⟨c, hc, hB⟩ := alignCell_B s1 s2 bpa i j t
    rw [hB]
    refine ⟨?_, ?_⟩
    · intro a b ha hb hab
      rw [Table.set_other _ _ _ _ _ _ (by omega)]
      exact ht.1 a b ha hb hab
    · intro a b ha hb
      by_cases he : a = i ∧ b = j
      · rw [he.1, he.2, Table.set_same]
        exact Or.inr ⟨hi, hj, hc⟩
      · rw [Table.set_other _ _ _ _ _ _ he]
        exact ht.2 a b ha hb
  refine forLoop_inv (fun _ (t : AlignTables) =>
    (∀ a b, a ≤ s1.length → b ≤ s2.length → (a = 0 ∨ b = 0) → t.B a b = '?') ∧
      GoodB s1.length s2.length t.B) 1 (s1.length + 1) _ _ (by omega) ?_ ?_
  · have h := (alignInit_spec s1.length s2.length).2
    exact ⟨fun a b ha hb _ => h a b ha hb, fun a b ha hb => Or.inl (h a b ha hb)⟩
  · intro i t hi _ ht
    refine forLoop_inv (fun _ (t : AlignTables) =>
      (∀ a b, a ≤ s1.length → b ≤ s2.length → (a = 0 ∨ b = 0) → t.B a b = '?') ∧
        GoodB s1.length s2.length t.B) 1 (s2.length + 1) _ _ (by omega) ht ?_
    intro j u hj _ hu
    exact hstep i j u hi hj hu

theorem bestInRow_bounds (D : Table Int) (best_i m : Nat) :
    0 ≤ (bestInRow D best_i m).1 ∧ (bestInRow D best_i m).2 ≤ m := by
  have key : 0 ≤ (bestInRow D best_i m).1 ∧ (bestInRow D best_i m).2 < m + 1 := by
    unfold bestInRow
    refine forLoop_inv (fun j (r : Int × Nat) => 0 ≤ r.1 ∧ r.2 < j) 1 (m + 1) _ _ (by omega)
      ⟨le_refl _, Nat.zero_lt_one⟩ ?_
    intro j r _ _ hr
    by_cases hc : D best_i j > r.1
    · rw [if_pos hc]
      exact ⟨by show 0 ≤ D best_i j; omega, Nat.lt_succ_self j⟩
    · rw [if_neg hc]
      exact ⟨hr.1, by omega⟩
  exact ⟨key.1, by omega⟩

/-! ## The backtrace of the local alignment -/

theorem walkStep_u (s1 s2 : List Char) (B : Table Char) (w : Walk) (h : B w.i w.j = 'u') :
    walkStep s1 s2 B w =
      { w with matchString1 := w.matchString1 ++ [charAt s1 (w.i - 1)],
               matchString2 := w.matchString2 ++ ['*'],
               i := w.i - 1 } := by
  unfold walkStep
  rw [if_pos h]

theorem walkStep_l (s1 s2 : List Char) (B : Table Char) (w : Walk) (h : B w.i w.j = 'l') :
    walkStep s1 s2 B w =
      { w with matchString1 := w.matchString1 ++ ['*'],
               matchString2 := w.matchString2 ++ [charAt s2 (w.j - 1)],
               j := w.j - 1 } := by
  unfold walkStep
  rw [if_neg (by rw [h]; decide), if_pos h]

theorem walkStep_d (s1 s2 : List Char) (B : Table Char) (w : Walk) (h : B w.i w.j = 'd') :
    walkStep s1 s2 B w =
      { w with matchString1 := w.matchString1 ++ [charAt s1 (w.i - 1)],
               matchString2 := w.matchString2 ++ [charAt s2 (w.j - 1)],
               i := w.i - 1, j := w.j - 1 } := by
  unfold walkStep
  rw [if_neg (by rw [h]; decide), if_neg (by rw [h]; decide), if_pos h]

theorem walkStep_q (s1 s2 : List Char) (B : Table Char) (w : Walk) (h : B w.i w.j = '?') :
    walkStep s1 s2 B w = { w with done := true } := by
  unfold walkStep
  rw [if_neg (by rw [h]; decide), if_neg (by rw [h]; decide), if_neg (by rw [h]; decide),
    if_pos h]

/-- The backtrace loop returns within `i + j + 1` passes when the back pointers are well
formed, and every property that one pass preserves holds of the variables it leaves. -/
theorem walkLoop_returns (s1 s2 : List Char) (B : Table Char) (n m : Nat)
    (hB : GoodB n m B) (I : Walk → Prop)
    (hI : ∀ w, w.i ≤ n → w.j ≤ m → I w → I (walkStep s1 s2 B w)) :
    ∀ budget w, w.i ≤ n → w.j ≤ m → I w → (w.done = true ∨ w.i + w.j + 1 ≤ budget) →
      ∃ w', walkLoop s1 s2 B budget w = .returned w' ∧ I w' := by
  intro budget
  induction budget with
  | zero =>
    intro w _ _ hw hd
    rcases hd with hd | hd
    · exact ⟨w, by simp [walkLoop, hd], hw⟩
    · omega
  | succ k ih =>
    intro w hi hj hw hd
    by_cases hdone : w.done = true
    · exact ⟨w, by simp [walkLoop, hdone], hw⟩
    · have hlt : w.i + w.j + 1 ≤ k + 1 := by
        rcases hd with hd | hd
        · exact absurd hd hdone
        · exact hd
      have e : walkLoop s1 s2 B (k + 1) w = walkLoop s1 s2 B k (walkStep s1 s2 B w) := by
        simp [walkLoop, hdone]
      rw [e]
      have hw' := hI w hi hj hw
      rcases hB w.i w.j hi hj with hq | ⟨h1, h2, hu | hl | hd'⟩
      · rw [walkStep_q _ _ _ _ hq] at hw' ⊢
        exact ih _ hi hj hw' (Or.inl rfl)
      · rw [walkStep_u _ _ _ _ hu] at hw' ⊢
        exact ih _ (by show w.i - 1 ≤ n; omega) hj hw'
          (Or.inr (by show w.i - 1 + w.j + 1 ≤ k; omega))
      · rw [walkStep_l _ _ _ _ hl] at hw' ⊢
        exact ih _ hi (by show w.j - 1 ≤ m; omega) hw'
          (Or.inr (by show w.i + (w.j - 1) + 1 ≤ k; omega))
      · rw [walkStep_d _ _ _ _ hd'] at hw' ⊢
        exact ih _ (by show w.i - 1 ≤ n; omega) (by show w.j - 1 ≤ m; omega) hw'
          (Or.inr (by show w.i - 1 + (w.j - 1) + 1 ≤ k; omega))

theorem walkStep_length (s1 s2 : List Char) (B : Table Char) (w : Walk)
    (h : w.matchString1.length = w.matchString2.length) :
    (walkStep s1 s2 B w).matchString1.length = (walkStep s1 s2 B w).matchString2.length := by
  unfold walkStep
  split_ifs <;> simp [h]

/-- The call `local_alignment` returns: the score is the one found in the bottom row, and
the output strings are the reversed strings of the backtrace, which satisfy every
property that holds at the start of the walk and that one pass preserves. -/
theorem local_alignment_returns (s1 s2 : List Char) (bpa : BlosumPenaltyArray)
    (I : Walk → Prop)
    (h0 : I { i := s1.length, j := (bestInRow (alignTables s1 s2 bpa).D s1.length s2.length).2,
              matchString1 := [], matchString2 := [], done := false })
    (hI : ∀ w, w.i ≤ s1.length → w.j ≤ s2.length → I w →
      I (walkStep s1 s2 (alignTables s1 s2 bpa).B w)) :
    ∃ w, I w ∧ local_alignment s1 s2 bpa = .returned
      { score := (bestInRow (alignTables s1 s2 bpa).D s1.length s2.length).1,
        matchString1 := w.matchString1.reverse, matchString2 := w.matchString2.reverse } := by
  have hj := (bestInRow_bounds (alignTables s1 s2 bpa).D s1.length s2.length).2
  obtain ⟨w, hw, hIw⟩ := walkLoop_returns s1 s2 (alignTables s1 s2 bpa).B s1.length s2.length
    (alignTables_goodB s1 s2 bpa).2 I hI (s1.length + s2.length + 1)
    { i := s1.length, j := (bestInRow (alignTables s1 s2 bpa).D s1.length s2.length).2,
      matchString1 := [], matchString2 := [], done := false }
    (le_refl _) hj h0 (Or.inr (Nat.succ_le_succ (Nat.add_le_add_left hj _)))
  refine ⟨w, hIw, ?_⟩
  unfold local_alignment
  simp only []
  rw [hw]
  rfl

/-- C4. For all strings and every penalty matrix, `local_alignment` returns and its
score is `>= 0`. -/
theorem local_alignment_score_nonneg (string1 string2 : List Char) (bpa : BlosumPenaltyArray) :
    ∃ a, local_alignment string1 string2 bpa = .returned a ∧ 0 ≤ a.score := by
  obtain ⟨w, _, hw⟩ := local_alignment_returns string1 string2 bpa (fun _ => True) trivial
    (fun _ _ _ _ => trivial)
  exact ⟨_, hw, (bestInRow_bounds _ _ _).1⟩

/-- C6. For all strings and every penalty matrix, `local_alignment` returns and the two
output strings `matchString1` and `matchString2` have the same length. -/
theorem local_alignment_equal_length (string1 string2 : List Char) (bpa : BlosumPenaltyArray) :
    ∃ a, local_alignment string1 string2 bpa = .returned a ∧
      a.matchString1.length = a.matchString2.length := by
  obtain ⟨w, hI, hw⟩ := local_alignment_returns string1 string2 bpa
    (fun w => w.matchString1.length = w.matchString2.length) rfl
    (fun w _ _ h => walkStep_length _ _ _ w h)
  exact ⟨_, hw, by simpa using hI⟩

theorem charAt_mem (s : List Char) (k : Nat) (h : k < s.length) : charAt s k ∈ s := by
  unfold charAt
  rw [List.getD_eq_getElem _ _ h]
  exact List.getElem_mem h

theorem stripGaps_gap (s : List Char) : stripGaps (s ++ ['*']) = stripGaps s := by
  simp [stripGaps]

theorem stripGaps_char (s : List Char) (c : Char) (h : c ≠ '*') :
    stripGaps (s ++ [c]) = stripGaps s ++ [c] := by
  simp [stripGaps, h]

theorem drop_pred_take (s : List Char) (k i : Nat) (hi : 1 ≤ i) (hik : i ≤ k)
    (hk : k ≤ s.length) :
    (s.take k).drop (i - 1) = charAt s (i - 1) :: (s.take k).drop i := by
  have hlen : i - 1 < (s.take k).length := by
    rw [List.length_take]; omega
  rw [List.drop_eq_getElem_cons hlen, List.getElem_take]
  have e : i - 1 + 1 = i := by omega
  rw [e]
  unfold charAt
  rw [List.getD_eq_getElem _ _ (by omega)]

theorem drop_pred (s : List Char) (i : Nat) (hi : 1 ≤ i) (hik : i ≤ s.length) :
    s.drop (i - 1) = charAt s (i - 1) :: s.drop i := by
  have := drop_pred_take s s.length i hi hik (le_refl _)
  simpa using this

theorem walkStep_inv (s1 s2 : List Char) (B : Table Char) (m j0 : Nat)
    (h1 : '*' ∉ s1) (h2 : '*' ∉ s2) (hB : GoodB s1.length m B) (hj0 : j0 ≤ m)
    (hm : m ≤ s2.length) (w : Walk) (hi : w.i ≤ s1.length) (hj : w.j ≤ m)
    (hw : WalkInv s1 s2 j0 w) : WalkInv s1 s2 j0 (walkStep s1 s2 B w) := by
  obtain ⟨hwj, hw1, hw2⟩ := hw
  rcases hB w.i w.j hi hj with hq | ⟨hi1, hj1, hu | hl | hd⟩
  · rw [walkStep_q _ _ _ _ hq]
    exact ⟨hwj, hw1, hw2⟩
  · rw [walkStep_u _ _ _ _ hu]
    have hc : charAt s1 (w.i - 1) ≠ '*' := by
      intro hc
      exact h1 (hc ▸ charAt_mem s1 (w.i - 1) (by omega))
    refine ⟨hwj, ?_, ?_⟩
    · show (stripGaps (w.matchString1 ++ [charAt s1 (w.i - 1)])).reverse = s1.drop (w.i - 1)
      rw [stripGaps_char _ _ hc, List.reverse_append, hw1, drop_pred s1 w.i hi1 hi]
      rfl
    · show (stripGaps (w.matchString2 ++ ['*'])).reverse = (s2.take j0).drop w.j
      rw [stripGaps_gap, hw2]
  · rw [walkStep_l _ _ _ _ hl]
    have hc : charAt s2 (w.j - 1) ≠ '*' := by
      intro hc
      exact h2 (hc ▸ charAt_mem s2 (w.j - 1) (by omega))
    refine ⟨by show w.j - 1 ≤ j0; omega, ?_, ?_⟩
    · show (stripGaps (w.matchString1 ++ ['*'])).reverse = s1.drop w.i
      rw [stripGaps_gap, hw1]
    · show (stripGaps (w.matchString2 ++ [charAt s2 (w.j - 1)])).reverse =
        (s2.take j0).drop (w.j - 1)
      rw [stripGaps_char _ _ hc, List.reverse_append, hw2,
        drop_pred_take s2 j0 w.j hj1 hwj (by omega)]
      rfl
  · rw [walkStep_d _ _ _ _ hd]
    have hc1 : charAt s1 (w.i - 1) ≠ '*' := by
      intro hc
      exact h1 (hc ▸ charAt_mem s1 (w.i - 1) (by omega))
    have hc2 : charAt s2 (w.j - 1) ≠ '*' := by
      intro hc
      exact h2 (hc ▸ charAt_mem s2 (w.j - 1) (by omega))
    refine ⟨by show w.j - 1 ≤ j0; omega, ?_, ?_⟩
    · show (stripGaps (w.matchString1 ++ [charAt s1 (w.i - 1)])).reverse = s1.drop (w.i - 1)
      rw [stripGaps_char _ _ hc1, List.reverse_append, hw1, drop_pred s1 w.i hi1 hi]
      rfl
    · show (stripGaps (w.matchString2 ++ [charAt s2 (w.j - 1)])).reverse =
        (s2.take j0).drop (w.j - 1)
      rw [stripGaps_char _ _ hc2, List.reverse_append, hw2,
        drop_pred_take s2 j0 w.j hj1 hwj (by omega)]
      rfl

/-- C7. For all strings `string1`, `string2` without the gap marker `'*'` and every
penalty matrix, `local_alignment` returns, and removing every `'*'` from `matchString1`
leaves a contiguous substring of `string1`, removing every `'*'` from `matchString2`
leaves a contiguous substring of `string2`. -/
theorem local_alignment_substrings (string1 string2 : List Char) (bpa : BlosumPenaltyArray)
    (h1 : '*' ∉ string1) (h2 : '*' ∉ string2) :
    ∃ a, local_alignment string1 string2 bpa = .returned a ∧
      stripGaps a.matchString1 <:+: string1 ∧ stripGaps a.matchString2 <:+: string2 := by
  have hj := (bestInRow_bounds (alignTables string1 string2 bpa).D string1.length
    string2.length).2
  obtain ⟨w, hI, hw⟩ := local_alignment_returns string1 string2 bpa
    (WalkInv string1 string2
      (bestInRow (alignTables string1 string2 bpa).D string1.length string2.length).2)
    ⟨le_refl _, by simp [stripGaps], by simp [stripGaps]⟩
    (fun w hi hj' hw => walkStep_inv string1 string2 _ string2.length _ h1 h2
      (alignTables_goodB string1 string2 bpa).2 hj (le_refl _) w hi hj' hw)
  refine ⟨_, hw, ?_, ?_⟩
  · show stripGaps w.matchString1.reverse <:+: string1
    unfold stripGaps
    rw [List.filter_reverse]
    have := hI.2.1
    unfold stripGaps at this
    rw [this]
    exact (List.drop_suffix _ _).isInfix
  · show stripGaps w.matchString2.reverse <:+: string2
    unfold stripGaps
    rw [List.filter_reverse]
    have := hI.2.2
    unfold stripGaps at this
    rw [this]
    exact (List.drop_suffix _ _).isInfix.trans (List.take_prefix _ _).isInfix

/-- Witness of C7 at `"ACD"` and `"AXCD"` with the unit penalties. -/
theorem local_alignment_substrings_witness :
    '*' ∉ ['A', 'C', 'D'] ∧ '*' ∉ ['A', 'X', 'C', 'D'] ∧
      ∃ a, local_alignment ['A', 'C', 'D'] ['A', 'X', 'C', 'D'] unitPenalties =
          .returned a ∧
        stripGaps a.matchString1 <:+: ['A', 'C', 'D'] ∧
        stripGaps a.matchString2 <:+: ['A', 'X', 'C', 'D'] :=
  ⟨by decide, by decide,
    local_alignment_substrings ['A', 'C', 'D'] ['A', 'X', 'C', 'D'] unitPenalties
      (by decide) (by decide)⟩

theorem walkLoop_done (s1 s2 : List Char) (B : Table Char) (budget : Nat) (w : Walk)
    (h : w.done = true) : walkLoop s1 s2 B budget w = .returned w := by
  cases budget <;> simp [walkLoop, h]

/-- With no positive penalty among the pairs that the fill loop looks up, every cell of
`D` is `0`. -/
theorem alignTables_zero (A B : List Char) (bpa : BlosumPenaltyArray)
    (h1 : ∀ a, a ∈ A → ∀ b, b ∈ B → bpa.penalty a b ≤ 0)
    (h2 : ∀ a, a ∈ A → bpa.penalty a '*' ≤ 0)
    (h3 : ∀ b, b ∈ B → bpa.penalty '*' b ≤ 0) :
    ∀ a b, (alignTables A B bpa).D a b = 0 := by
  unfold alignTables
  refine forLoop_inv (fun _ (t : AlignTables) => ∀ a b, t.D a b = 0) 1 (A.length + 1) _ _
    (by omega) (alignInit_spec A.length B.length).1 ?_
  intro i t hi hin ht
  refine forLoop_inv (fun _ (t : AlignTables) => ∀ a b, t.D a b = 0) 1 (B.length + 1) _ _
    (by omega) ht ?_
  intro j u hj hjm hu a b
  rw [alignCell_D]
  by_cases hc : a = i ∧ b = j
  · rw [hc.1, hc.2, Table.set_same, hu, hu, hu]
    have m1 := charAt_mem A (i - 1) (by omega)
    have m2 := charAt_mem B (j - 1) (by omega)
    have p1 := h1 _ m1 _ m2
    have p2 := h2 _ m1
    have p3 := h3 _ m2
    simp only [intAdd_zero_left]
    rw [max_eq_right p1, max_eq_right]
    exact max_le p2 p3
  · rw [Table.set_other _ _ _ _ _ _ hc]
    exact hu a b

/-- With `int` scores in the penalty matrix every cell of `D` holds an `int`: the tables
of the model are tables of the program. -/
theorem alignTables_isInt (s1 s2 : List Char) (bpa : BlosumPenaltyArray)
    (h : ∀ a b, IsInt (bpa.penalty a b)) :
    ∀ a b, IsInt ((alignTables s1 s2 bpa).D a b) := by
  unfold alignTables
  refine forLoop_inv (fun _ (t : AlignTables) => ∀ a b, IsInt (t.D a b)) 1 (s1.length + 1) _ _
    (by omega) ?_ ?_
  · intro a b
    rw [(alignInit_spec s1.length s2.length).1 a b]
    exact isInt_zero
  intro i t hi hin ht
  refine forLoop_inv (fun _ (t : AlignTables) => ∀ a b, IsInt (t.D a b)) 1 (s2.length + 1) _ _
    (by omega) ht ?_
  intro j u hj hjm hu a b
  rw [alignCell_D]
  by_cases hc : a = i ∧ b = j
  · rw [hc.1, hc.2, Table.set_same]
    exact isInt_max _ _
      (isInt_max _ _ (intAdd_isInt _ _ (hu _ _) (h _ _)) (intAdd_isInt _ _ (hu _ _) (h _ _)))
      (isInt_max _ _ (intAdd_isInt _ _ (hu _ _) (h _ _)) isInt_zero)
  · rw [Table.set_other _ _ _ _ _ _ hc]
    exact hu a b

theorem bestInRow_zero (D : Table Int) (best_i m : Nat) (h : ∀ b, D best_i b = 0) :
    bestInRow D best_i m = (0, 0) := by
  unfold bestInRow
  refine forLoop_inv (fun _ (r : Int × Nat) => r = (0, 0)) 1 (m + 1) _ _ (by omega) rfl ?_
  intro j r _ _ hr
  rw [hr, h j]
  rfl

/-- C5. For all strings `A`, `B` and every penalty matrix in which no pair scores
positively (`get_penalty` is `<= 0` for every residue of `A` paired with a residue of
`B`, for every residue of `A` paired with the gap marker and for the gap marker paired
with every residue of `B`), `local_alignment` returns score `0` and leaves both
`matchString1` and `matchString2` empty. -/
theorem local_alignment_no_positive_pair (A B : List Char) (bpa : BlosumPenaltyArray)
    (h1 : ∀ a, a ∈ A → ∀ b, b ∈ B → (bpa.get_penalty a b).1 ≤ 0)
    (h2 : ∀ a, a ∈ A → (bpa.get_penalty a '*').1 ≤ 0)
    (h3 : ∀ b, b ∈ B → (bpa.get_penalty '*' b).1 ≤ 0) :
    local_alignment A B bpa =
      .returned { score := 0, matchString1 := [], matchString2 := [] } := by
  have hz := alignTables_zero A B bpa h1 h2 h3
  have hb := bestInRow_zero (alignTables A B bpa).D A.length B.length (fun b => hz _ b)
  have hq := (alignTables_goodB A B bpa).1 A.length 0 (le_refl _) (Nat.zero_le _) (Or.inr rfl)
  unfold local_alignment
  simp only []
  rw [hb]
  have e : walkLoop A B (alignTables A B bpa).B (A.length + B.length + 1)
      { i := A.length, j := 0, matchString1 := [], matchString2 := [], done := false } =
      .returned { i := A.length, j := 0, matchString1 := [], matchString2 := [], done := true } := by
    show walkLoop A B (alignTables A B bpa).B ((A.length + B.length) + 1) _ = _
    rw [walkLoop]
    simp only [Bool.false_eq_true, if_false]
    rw [walkStep_q _ _ _ _ hq, walkLoop_done _ _ _ _ _ rfl]
  show (walkLoop A B (alignTables A B bpa).B (A.length + B.length + 1)
      { i := A.length, j := 0, matchString1 := [], matchString2 := [], done := false }).bind _ = _
  rw [e]
  rfl

/-- Witness of C5 at `"AB"` and `"CD"` with the unit penalties: no residue of the first
string equals a residue of the second. -/
theorem local_alignment_no_positive_pair_witness :
    (∀ a, a ∈ ['A', 'B'] → ∀ b, b ∈ ['C', 'D'] → (unitPenalties.get_penalty a b).1 ≤ 0) ∧
      (∀ a, a ∈ ['A', 'B'] → (unitPenalties.get_penalty a '*').1 ≤ 0) ∧
      (∀ b, b ∈ ['C', 'D'] → (unitPenalties.get_penalty '*' b).1 ≤ 0) ∧
      local_alignment ['A', 'B'] ['C', 'D'] unitPenalties =
        .returned { score := 0, matchString1 := [], matchString2 := [] } :=
  have g1 : ∀ a, a ∈ ['A', 'B'] → ∀ b, b ∈ ['C', 'D'] →
      (unitPenalties.get_penalty a b).1 ≤ 0 := by
    decide
  have g2 : ∀ a, a ∈ ['A', 'B'] → (unitPenalties.get_penalty a '*').1 ≤ 0 := by decide
  have g3 : ∀ b, b ∈ ['C', 'D'] → (unitPenalties.get_penalty '*' b).1 ≤ 0 := by decide
  ⟨g1, g2, g3, local_alignment_no_positive_pair ['A', 'B'] ['C', 'D'] unitPenalties g1 g2 g3⟩

/-! ## Best-match search with the local alignment -/

/-- A call of `get_penalty` changes the score of no pair: the element that `operator[]`
inserts for an absent key holds the `0` that the call returns. -/
theorem penalty_get_penalty (bpa : BlosumPenaltyArray) (c1 c2 a b : Char) :
    (bpa.get_penalty c1 c2).2.penalty a b = bpa.penalty a b := by
  unfold BlosumPenaltyArray.penalty BlosumPenaltyArray.get_penalty BlosumPenaltyArray.row
  by_cases h1 : a = c1
  · by_cases h2 : b = c2
    · simp [h1, h2]
    · simp [h1, h2]
  · simp [h1]

theorem local_alignment_score (s1 s2 : List Char) (bpa : BlosumPenaltyArray) :
    ∃ a, local_alignment s1 s2 bpa = .returned a ∧ a.score = alignScore s1 s2 bpa := by
  obtain ⟨w, _, hw⟩ := local_alignment_returns s1 s2 bpa (fun _ => True) trivial
    (fun _ _ _ _ => trivial)
  exact ⟨_, hw, rfl⟩

theorem laScore_nonneg (proteins : ProteinVector) (string1 : List Char)
    (bpa : BlosumPenaltyArray) (j : Nat) : 0 ≤ laScore proteins string1 bpa j := by
  unfold laScore entryScore
  split
  · exact (bestInRow_bounds _ _ _).1
  · exact le_refl _

/-- The loop of `local_alignment_best_match` after `k` passes: it has returned, its best
score and its best entry are those of the loop on the scores, and the output strings are
the ones of the call while the best score is `0`, the alignment of the best entry
otherwise. -/
theorem align_loop (proteins : ProteinVector) (string1 : List Char) (bpa : BlosumPenaltyArray)
    (m1 m2 : List Char) (first : Protein) (hfirst : proteins[0]? = some first) :
    ∀ k, k ≤ proteins.length →
      ∃ st : BestState,
        forLoop 0 k (alignMatchStep proteins string1 bpa)
          (.returned { best_protein := first, best_score := 0,
                       matchString1 := m1, matchString2 := m2 }) = .returned st ∧
        st.best_score = (bestLoop (laScore proteins string1 bpa) k).2 ∧
        proteins[(bestLoop (laScore proteins string1 bpa) k).1]? = some st.best_protein ∧
        (st.best_score = 0 → st.matchString1 = m1 ∧ st.matchString2 = m2) ∧
        (0 < st.best_score → ∃ a, local_alignment string1 st.best_protein.sequence bpa =
          .returned a ∧ st.matchString1 = a.matchString1 ∧ st.matchString2 = a.matchString2) := by
  intro k
  induction k with
  | zero =>
    intro _
    refine ⟨_, forLoop_of_le _ _ _ _ (le_refl _), ?_, ?_, fun _ => ⟨rfl, rfl⟩, ?_⟩
    · unfold bestLoop; rw [forLoop_of_le _ _ _ _ (le_refl _)]
    · unfold bestLoop; rw [forLoop_of_le _ _ _ _ (le_refl _)]; exact hfirst
    · intro h; exact absurd h (lt_irrefl _)
  | succ k ih =>
    intro hk
    have hk2 : k < proteins.length := by omega
    obtain ⟨st, hst, hs1, hs2, hs3, hs4⟩ := ih (by omega)
    obtain ⟨a, ha, hsc⟩ := local_alignment_score string1 (proteins.get ⟨k, hk2⟩).sequence bpa
    have hsk : laScore proteins string1 bpa k = a.score := by
      unfold laScore entryScore
      rw [List.getElem?_eq_getElem hk2, hsc]
      rfl
    have hnn : 0 ≤ st.best_score := by
      rw [hs1]
      rcases bestLoop_inv _ (laScore_nonneg proteins string1 bpa) k with ⟨h, _, _⟩ | ⟨_, _, h, _, _⟩
      · rw [h]
      · exact le_of_lt h
    have e1 : forLoop 0 (k + 1) (alignMatchStep proteins string1 bpa)
        (.returned { best_protein := first, best_score := 0,
                     matchString1 := m1, matchString2 := m2 }) =
        .returned (keepBestAlignment (proteins.get ⟨k, hk2⟩) a st) := by
      rw [forLoop_succ _ _ _ _ (Nat.zero_le _), hst]
      unfold alignMatchStep
      simp only [Outcome.bind, vecAt_of_lt proteins k hk2, ha]
    have e2 : bestLoop (laScore proteins string1 bpa) (k + 1) =
        keepBest k a.score (bestLoop (laScore proteins string1 bpa) k) := by
      unfold bestLoop
      rw [forLoop_succ _ _ _ _ (Nat.zero_le _), hsk]
    refine ⟨_, e1, ?_⟩
    rw [e2]
    unfold keepBestAlignment keepBest
    rw [← hs1]
    by_cases hc : a.score > st.best_score
    · rw [if_pos hc, if_pos hc]
      refine ⟨rfl, List.getElem?_eq_getElem hk2, ?_, ?_⟩
      · intro h0
        have h0 : a.score = 0 := h0
        omega
      · intro _
        exact ⟨a, ha, rfl, rfl⟩
    · rw [if_neg hc, if_neg hc]
      exact ⟨hs1, hs2, hs3, hs4⟩

/-- C8. For every non-empty vector of proteins, every query and every penalty matrix,
`local_alignment_best_match` returns the entry at the smallest index whose
`local_alignment` score against the query is the greatest of all entries: no entry
scores more, and every entry before it scores strictly less. -/
theorem local_alignment_best_match_first_max (proteins : ProteinVector) (string1 : List Char)
    (bpa : BlosumPenaltyArray) (matchString1 matchString2 : List Char) (h : proteins ≠ []) :
    ∃ k p r a, proteins[k]? = some p ∧
      local_alignment_best_match proteins string1 bpa matchString1 matchString2 = .returned r ∧
      r.best_protein = p ∧
      local_alignment string1 p.sequence bpa = .returned a ∧
      (∀ (j : Nat) (q : Protein), proteins[j]? = some q →
        ∃ b, local_alignment string1 q.sequence bpa = .returned b ∧ b.score ≤ a.score) ∧
      (∀ (j : Nat) (q : Protein), j < k → proteins[j]? = some q →
        ∃ b, local_alignment string1 q.sequence bpa = .returned b ∧ b.score < a.score) := by
  have hlen : 0 < proteins.length := List.length_pos.mpr h
  have hfirst : proteins[0]? = some (proteins.get ⟨0, hlen⟩) := List.getElem?_eq_getElem hlen
  obtain ⟨st, hst, _, hs2, _, _⟩ := align_loop proteins string1 bpa matchString1 matchString2
    _ hfirst proteins.length (le_refl _)
  obtain ⟨h1, h2, h3⟩ := bestLoop_first_max (laScore proteins string1 bpa)
    (laScore_nonneg proteins string1 bpa) proteins.length hlen
  have hsc : ∀ (j : Nat) (q : Protein), proteins[j]? = some q →
      ∃ b, local_alignment string1 q.sequence bpa = .returned b ∧
        b.score = laScore proteins string1 bpa j := by
    intro j q hq
    obtain ⟨b, hb, hbs⟩ := local_alignment_score string1 q.sequence bpa
    refine ⟨b, hb, ?_⟩
    unfold laScore entryScore
    rw [hq, hbs]
  have hlt : ∀ (j : Nat) (q : Protein), proteins[j]? = some q → j < proteins.length := by
    intro j q hq
    by_contra hc
    rw [List.getElem?_eq_none (by omega)] at hq
    exact Option.noConfusion hq
  obtain ⟨a, ha, has⟩ := hsc _ _ hs2
  refine ⟨_, st.best_protein,
    (⟨st.best_protein, st.matchString1, st.matchString2⟩ : BestMatch), a, hs2, ?_, rfl, ha,
    ?_, ?_⟩
  · unfold local_alignment_best_match
    rw [vecAt_of_lt proteins 0 hlen]
    simp only [Outcome.bind]
    rw [hst]
  · intro j q hq
    obtain ⟨b, hb, hbs⟩ := hsc j q hq
    exact ⟨b, hb, by rw [hbs, has]; exact h2 j (hlt j q hq)⟩
  · intro j q hj hq
    obtain ⟨b, hb, hbs⟩ := hsc j q hq
    exact ⟨b, hb, by rw [hbs, has]; exact h3 j hj⟩

/-- Witness of C8 on the vector of the scenario, with the query `"ACD"` and the unit
penalties. -/
theorem local_alignment_best_match_first_max_witness :
    sampleProteins ≠ [] ∧
      ∃ k p r a, sampleProteins[k]? = some p ∧
        local_alignment_best_match sampleProteins ['A', 'C', 'D'] unitPenalties [] [] =
          .returned r ∧
        r.best_protein = p ∧
        local_alignment ['A', 'C', 'D'] p.sequence unitPenalties = .returned a ∧
        (∀ (j : Nat) (q : Protein), sampleProteins[j]? = some q →
          ∃ b, local_alignment ['A', 'C', 'D'] q.sequence unitPenalties = .returned b ∧
            b.score ≤ a.score) ∧
        (∀ (j : Nat) (q : Protein), j < k → sampleProteins[j]? = some q →
          ∃ b, local_alignment ['A', 'C', 'D'] q.sequence unitPenalties = .returned b ∧
            b.score < a.score) :=
  ⟨by decide,
    local_alignment_best_match_first_max sampleProteins ['A', 'C', 'D'] unitPenalties [] []
      (by decide)⟩

/-- Witness of C9, amended, on the vector of the scenario with the query `"ACD"`: the
sequences and the query have at most 30 characters. -/
theorem lcs_best_match_first_max_witness :
    sampleProteins ≠ [] ∧
      (∀ q, q ∈ sampleProteins → q.sequence.length ≤ 30) ∧
      ['A', 'C', 'D'].length ≤ 30 ∧
      (∃ p, dynamicprogramming_best_match sampleProteins ['A', 'C', 'D'] = .returned p) ∧
      (∃ p, exhaustive_best_match sampleProteins ['A', 'C', 'D'] = .returned p) :=
  have hp : ∀ q, q ∈ sampleProteins → q.sequence.length ≤ 30 := by decide
  have hc := lcs_best_match_first_max sampleProteins ['A', 'C', 'D'] (by decide)
  ⟨by decide, hp, by decide,
    hc.1.elim (fun _ h => h.elim (fun p h => ⟨p, h.2.1⟩)),
    (hc.2 hp (by decide)).elim (fun _ h => h.elim (fun p h => h.elim (fun _ h => ⟨p, h.2.1⟩)))⟩

/-- The entry that `dynamicprogramming_best_match` returns is the one at the index that
its loop leaves in `best_i`. -/
theorem dynamicprogramming_best_match_index (proteins : ProteinVector)
    (string1 : List Char) :
    dynamicprogramming_best_match proteins string1 =
      vecAt proteins (bestLoop (entryScore
        (fun p => dynamicprogramming_longest_common_subsequence p.sequence string1) proteins)
        proteins.length).1 := by
  unfold dynamicprogramming_best_match
  rw [dynamic_loop _ _ _ (le_refl _)]
  rfl

/-- The LCS engine on a sequence of 31 times `'A'` and the query `"A"`. -/
theorem dynamicprogramming_lcs_long :
    dynamicprogramming_longest_common_subsequence (List.replicate 31 'A') ['A'] = 1 := by
  obtain ⟨⟨s, _, hs, hlen⟩, hmax⟩ := dp_isLcsLength (List.replicate 31 'A') ['A']
  have h1 := hmax ['A'] (List.singleton_sublist.mpr (by decide)) (List.Sublist.refl _)
  have h2 : (s.length : Int) ≤ 1 := by exact_mod_cast hs.length_le
  have h3 : ((['A'] : List Char).length : Int) = 1 := rfl
  omega

/-- On `longProteins` and the query `"A"`, `dynamicprogramming_best_match` returns the
second entry, the one of greatest LCS score. -/
theorem dynamicprogramming_best_match_long :
    dynamicprogramming_best_match longProteins ['A'] =
      .returned ⟨['p', '2'], List.replicate 31 'A'⟩ := by
  obtain ⟨k, p, hk, hr, hmax, _⟩ := first_max_entry
    (fun p => dynamicprogramming_longest_common_subsequence p.sequence ['A'])
    (fun p => dp_nonneg _ _) longProteins (by decide)
  have h2 : longProteins[1]? = some ⟨['p', '2'], List.replicate 31 'A'⟩ := rfl
  have hle := hmax 1 _ h2
  simp only [] at hle
  rw [dynamicprogramming_lcs_long] at hle
  have hp : p = ⟨['p', '2'], List.replicate 31 'A'⟩ := by
    have hm := List.getElem?_mem hk
    unfold longProteins at hm
    rw [List.mem_cons, List.mem_singleton] at hm
    rcases hm with hm | hm
    · rw [hm] at hle
      have h0 : dynamicprogramming_longest_common_subsequence ['C'] ['A'] = 0 := by decide
      simp only [] at hle
      rw [h0] at hle
      omega
    · exact hm
  rw [dynamicprogramming_best_match_index, hr, hp]

/-- C9, as stated, fails for `exhaustive_best_match`. On `longProteins`, whose second
entry has the sequence 31 times `'A'`, and the query `"A"`, the engine scores the first
entry `0` and evaluates `int n = pow(2, 31)` for the second, which is no `int`: the
search does not return the second entry, which is the one of greatest LCS score (`1`
against `0`) and the one that `dynamicprogramming_best_match` returns. -/
theorem exhaustive_best_match_beyond_int :
    exhaustive_longest_common_subsequence ['C'] ['A'] = .returned 0 ∧
      exhaustive_longest_common_subsequence (List.replicate 31 'A') ['A'] = .intRange ∧
      exhaustive_best_match longProteins ['A'] = .intRange ∧
      (¬ ∃ p, exhaustive_best_match longProteins ['A'] = .returned p) ∧
      dynamicprogramming_longest_common_subsequence ['C'] ['A'] = 0 ∧
      dynamicprogramming_longest_common_subsequence (List.replicate 31 'A') ['A'] = 1 ∧
      dynamicprogramming_best_match longProteins ['A'] =
        .returned ⟨['p', '2'], List.replicate 31 'A'⟩ := by
  refine ⟨by decide, by decide, by decide, ?_, by decide, dynamicprogramming_lcs_long,
    dynamicprogramming_best_match_long⟩
  rintro ⟨p, hp⟩
  have e : exhaustive_best_match longProteins ['A'] = .intRange := by decide
  rw [e] at hp
  exact Outcome.noConfusion hp

theorem exhaustive_best_match_nil (string1 : List Char) :
    exhaustive_best_match [] string1 = .outOfRange 0 0 := rfl

theorem dynamicprogramming_best_match_nil (string1 : List Char) :
    dynamicprogramming_best_match [] string1 = .outOfRange 0 0 := rfl

theorem local_alignment_best_match_nil (string1 : List Char) (bpa : BlosumPenaltyArray)
    (matchString1 matchString2 : List Char) :
    local_alignment_best_match [] string1 bpa matchString1 matchString2 = .outOfRange 0 0 :=
  rfl

/-- C10, as stated, fails: on the empty vector and the query `"ACD"` each of the three
best-match searches ends in the unchecked read `proteins[0]`, and none ends with an
explicit error. -/
theorem best_match_empty_no_explicit_error :
    (exhaustive_best_match [] ['A', 'C', 'D'] = .outOfRange 0 0 ∧
        ¬ (exhaustive_best_match [] ['A', 'C', 'D']).isExplicitError) ∧
      (dynamicprogramming_best_match [] ['A', 'C', 'D'] = .outOfRange 0 0 ∧
        ¬ (dynamicprogramming_best_match [] ['A', 'C', 'D']).isExplicitError) ∧
      (local_alignment_best_match [] ['A', 'C', 'D'] unitPenalties [] [] = .outOfRange 0 0 ∧
        ¬ (local_alignment_best_match [] ['A', 'C', 'D'] unitPenalties [] []).isExplicitError) := by
  refine ⟨⟨rfl, ?_⟩, ⟨rfl, ?_⟩, ⟨rfl, ?_⟩⟩
  · rintro ⟨w, hw⟩
    rw [exhaustive_best_match_nil] at hw
    exact Outcome.noConfusion hw
  · rintro ⟨w, hw⟩
    rw [dynamicprogramming_best_match_nil] at hw
    exact Outcome.noConfusion hw
  · rintro ⟨w, hw⟩
    rw [local_alignment_best_match_nil] at hw
    exact Outcome.noConfusion hw

/-- C10, amended. Called with an empty vector, each of `exhaustive_best_match`,
`dynamicprogramming_best_match` and `local_alignment_best_match` evaluates `proteins[0]`
on the vector of size `0`: an unchecked read out of range, which raises nothing and
returns no entry. -/
theorem best_match_empty_out_of_range (string1 : List Char) (bpa : BlosumPenaltyArray)
    (matchString1 matchString2 : List Char) :
    exhaustive_best_match [] string1 = .outOfRange 0 0 ∧
      dynamicprogramming_best_match [] string1 = .outOfRange 0 0 ∧
      local_alignment_best_match [] string1 bpa matchString1 matchString2 = .outOfRange 0 0 :=
  ⟨rfl, rfl, rfl⟩

/-! ## The scenarios of the specification and the penalty matrix -/

/-- C13. The call `dynamicprogramming_longest_common_subsequence("AGCAT", "GAC")`
returns `2`. -/
theorem dynamicprogramming_lcs_AGCAT_GAC :
    dynamicprogramming_longest_common_subsequence ['A', 'G', 'C', 'A', 'T'] ['G', 'A', 'C'] = 2 := by
  decide

theorem penalty_set_penalty (bpa : BlosumPenaltyArray) (a b c d : Char) (s : Int) :
    (bpa.set_penalty a b s).penalty c d = if c = a ∧ d = b then s else bpa.penalty c d := by
  unfold BlosumPenaltyArray.penalty BlosumPenaltyArray.get_penalty BlosumPenaltyArray.set_penalty
    BlosumPenaltyArray.row
  by_cases h1 : c = a
  · by_cases h2 : d = b
    · simp [h1, h2]
    · simp [h1, h2]
  · simp [h1]

/-- C14. For every penalty matrix, characters `a`, `b` and scores `s`, `t`: after
`set_penalty(a, b, s)` the call `get_penalty(a, b)` returns `s`, and after
`set_penalty(a, b, s)` followed by `set_penalty(a, b, t)` it returns `t`. -/
theorem get_penalty_set_penalty (bpa : BlosumPenaltyArray) (a b : Char) (s t : Int) :
    ((bpa.set_penalty a b s).get_penalty a b).1 = s ∧
      (((bpa.set_penalty a b s).set_penalty a b t).get_penalty a b).1 = t := by
  have h := penalty_set_penalty
  unfold BlosumPenaltyArray.penalty at h
  constructor
  · rw [h]; simp
  · rw [h]; simp

/-- C16. For every penalty matrix, `set_penalty(a, b, s)` leaves the value of
`get_penalty(c, d)` unchanged for every ordered pair `(c, d)` other than `(a, b)`; in
particular, for `a != b`, the value of `get_penalty(b, a)`. -/
theorem set_penalty_frame (bpa : BlosumPenaltyArray) (a b c d : Char) (s : Int)
    (h : (c, d) ≠ (a, b)) :
    ((bpa.set_penalty a b s).get_penalty c d).1 = (bpa.get_penalty c d).1 ∧
      (a ≠ b → ((bpa.set_penalty a b s).get_penalty b a).1 = (bpa.get_penalty b a).1) := by
  have hp := penalty_set_penalty
  unfold BlosumPenaltyArray.penalty at hp
  constructor
  · rw [hp, if_neg]
    rintro ⟨rfl, rfl⟩
    exact h rfl
  · intro hab
    rw [hp, if_neg]
    rintro ⟨rfl, _⟩
    exact hab rfl

/-- Witness of C16: after `set_penalty('A', 'B', 5)` on the empty matrix the pair
`('B', 'A')` keeps its value, which is `0` and not `5`. -/
theorem set_penalty_frame_witness :
    ('B', 'A') ≠ ('A', 'B') ∧
      ((BlosumPenaltyArray.empty.set_penalty 'A' 'B' 5).get_penalty 'B' 'A').1 =
        (BlosumPenaltyArray.empty.get_penalty 'B' 'A').1 ∧
      ((BlosumPenaltyArray.empty.set_penalty 'A' 'B' 5).get_penalty 'B' 'A').1 = 0 ∧
      ((BlosumPenaltyArray.empty.set_penalty 'A' 'B' 5).get_penalty 'A' 'B').1 = 5 :=
  ⟨by decide,
    (set_penalty_frame BlosumPenaltyArray.empty 'A' 'B' 'B' 'A' 5 (by decide)).1,
    by decide, by decide⟩

theorem penalty_call (bpa : BlosumPenaltyArray) (x : PenaltyCall) (c d : Char) :
    (bpa.call x).penalty c d =
      match x with
      | .set a b s => if c = a ∧ d = b then s else bpa.penalty c d
      | .get _ _ => bpa.penalty c d := by
  cases x with
  | set a b s => exact penalty_set_penalty bpa a b c d s
  | get a b => exact penalty_get_penalty bpa a b c d

/-- Two matrices with the same scores have the same scores after the same calls. -/
theorem penalty_after_congr (calls : List PenaltyCall) :
    ∀ M1 M2 : BlosumPenaltyArray, (∀ c d, M1.penalty c d = M2.penalty c d) →
      ∀ c d, (M1.after calls).penalty c d = (M2.after calls).penalty c d := by
  induction calls with
  | nil => intro M1 M2 h; exact h
  | cons x rest ih =>
    intro M1 M2 h
    unfold BlosumPenaltyArray.after
    rw [List.foldl_cons, List.foldl_cons]
    refine ih (M1.call x) (M2.call x) ?_
    intro c d
    rw [penalty_call, penalty_call]
    cases x with
    | set a b s => simp only [h]
    | get a b => exact h c d

/-- A pair whose score is `0` keeps the score `0` through calls that do not store it. -/
theorem penalty_after_unset (a b : Char) (calls : List PenaltyCall) :
    ∀ M : BlosumPenaltyArray, M.penalty a b = 0 →
      (∀ s, PenaltyCall.set a b s ∉ calls) → (M.after calls).penalty a b = 0 := by
  induction calls with
  | nil => intro M h _; exact h
  | cons x rest ih =>
    intro M h hx
    unfold BlosumPenaltyArray.after
    rw [List.foldl_cons]
    refine ih (M.call x) ?_ (fun s hs => hx s (List.mem_cons_of_mem _ hs))
    rw [penalty_call]
    cases x with
    | set a' b' s =>
      have hne : ¬ (a = a' ∧ b = b') := by
        rintro ⟨rfl, rfl⟩
        exact hx s (List.mem_cons_self _ _)
      simp only [if_neg hne]
      exact h
    | get a' b' => exact h

/-- C15. For every penalty matrix (the empty matrix after any sequence of calls of
`set_penalty` and `get_penalty`) and every ordered pair `(a, b)` that no call of
`set_penalty` has stored, `get_penalty(a, b)` returns `0`, and after that lookup, and
after any further calls, `get_penalty` returns for every pair the value it returns
without the lookup. -/
theorem get_penalty_default (calls : List PenaltyCall) (a b : Char)
    (h : ∀ s, PenaltyCall.set a b s ∉ calls) :
    ((BlosumPenaltyArray.empty.after calls).get_penalty a b).1 = 0 ∧
      ∀ (later : List PenaltyCall) (c d : Char),
        ((((BlosumPenaltyArray.empty.after calls).get_penalty a b).2.after later).get_penalty
            c d).1 =
          (((BlosumPenaltyArray.empty.after calls).after later).get_penalty c d).1 := by
  constructor
  · exact penalty_after_unset a b calls BlosumPenaltyArray.empty rfl h
  · intro later c d
    exact penalty_after_congr later _ _ (fun c d => penalty_get_penalty _ a b c d) c d

/-- Witness of C15: after `set_penalty('A', 'B', 5)` and `get_penalty('C', 'D')` the
pair `('B', 'A')` has not been stored. -/
theorem get_penalty_default_witness :
    (∀ s, PenaltyCall.set 'B' 'A' s ∉ [PenaltyCall.set 'A' 'B' 5, PenaltyCall.get 'C' 'D']) ∧
      ((BlosumPenaltyArray.empty.after
        [PenaltyCall.set 'A' 'B' 5, PenaltyCall.get 'C' 'D']).get_penalty 'B' 'A').1 = 0 :=
  have h : ∀ s, PenaltyCall.set 'B' 'A' s ∉
      [PenaltyCall.set 'A' 'B' 5, PenaltyCall.get 'C' 'D'] := by
    intro s hs
    simp at hs
  ⟨h, (get_penalty_default [PenaltyCall.set 'A' 'B' 5, PenaltyCall.get 'C' 'D'] 'B' 'A' h).1⟩

theorem forLoop_congr {σ : Type} (lo hi : Nat) (body1 body2 : Nat → σ → σ) (s : σ)
    (h : ∀ i t, lo ≤ i → i < hi → body1 i t = body2 i t) :
    forLoop lo hi body1 s = forLoop lo hi body2 s := by
  by_cases hle : lo ≤ hi
  · induction hi, hle using Nat.le_induction with
    | base => rw [forLoop_of_le _ _ _ _ (le_refl _), forLoop_of_le _ _ _ _ (le_refl _)]
    | succ k hk ih =>
      rw [forLoop_succ _ _ _ _ hk, forLoop_succ _ _ _ _ hk,
        ih (fun i t h1 h2 => h i t h1 (by omega)), h k _ hk (Nat.lt_succ_self k)]
  · rw [forLoop_of_le _ _ _ _ (by omega), forLoop_of_le _ _ _ _ (by omega)]

/-- The tables of `local_alignment` depend on the penalty matrix through the scores of
the pairs that the fill loop looks up only. -/
theorem alignTables_congr (s1 s2 : List Char) (bpa1 bpa2 : BlosumPenaltyArray)
    (h1 : ∀ a, a ∈ s1 → ∀ b, b ∈ s2 → bpa1.penalty a b = bpa2.penalty a b)
    (h2 : ∀ a, a ∈ s1 → bpa1.penalty a '*' = bpa2.penalty a '*')
    (h3 : ∀ b, b ∈ s2 → bpa1.penalty '*' b = bpa2.penalty '*' b) :
    alignTables s1 s2 bpa1 = alignTables s1 s2 bpa2 := by
  unfold alignTables
  refine forLoop_congr _ _ _ _ _ ?_
  intro i t hi hin
  refine forLoop_congr _ _ _ _ _ ?_
  intro j u hj hjm
  have m1 := charAt_mem s1 (i - 1) (by omega)
  have m2 := charAt_mem s2 (j - 1) (by omega)
  unfold alignCell
  rw [h1 _ m1 _ m2, h2 _ m1, h3 _ m2]

theorem local_alignment_congr (s1 s2 : List Char) (bpa1 bpa2 : BlosumPenaltyArray)
    (h1 : ∀ a, a ∈ s1 → ∀ b, b ∈ s2 → bpa1.penalty a b = bpa2.penalty a b)
    (h2 : ∀ a, a ∈ s1 → bpa1.penalty a '*' = bpa2.penalty a '*')
    (h3 : ∀ b, b ∈ s2 → bpa1.penalty '*' b = bpa2.penalty '*' b) :
    local_alignment s1 s2 bpa1 = local_alignment s1 s2 bpa2 := by
  unfold local_alignment
  rw [alignTables_congr s1 s2 bpa1 bpa2 h1 h2 h3]

theorem isUnitPenalty_unitPenalties : IsUnitPenalty unitPenalties := by
  refine ⟨?_, ?_, ?_⟩
  · intro a b ha hb
    simp [BlosumPenaltyArray.get_penalty, BlosumPenaltyArray.row, unitPenalties, ha, hb]
  · intro a ha
    simp [BlosumPenaltyArray.get_penalty, BlosumPenaltyArray.row, unitPenalties]
  · intro b hb
    simp [BlosumPenaltyArray.get_penalty, BlosumPenaltyArray.row, unitPenalties]

/-- On strings without the gap marker, `local_alignment` gives the same result with
every matrix of unit penalties. -/
theorem local_alignment_unit (s1 s2 : List Char) (bpa : BlosumPenaltyArray)
    (hb : IsUnitPenalty bpa) (g1 : '*' ∉ s1) (g2 : '*' ∉ s2) :
    local_alignment s1 s2 bpa = local_alignment s1 s2 unitPenalties := by
  have hu := isUnitPenalty_unitPenalties
  have n1 : ∀ a, a ∈ s1 → a ≠ '*' := fun a ha h => g1 (h ▸ ha)
  have n2 : ∀ b, b ∈ s2 → b ≠ '*' := fun b hb h => g2 (h ▸ hb)
  refine local_alignment_congr s1 s2 bpa unitPenalties ?_ ?_ ?_
  · intro a ha b hb'
    show (bpa.get_penalty a b).1 = (unitPenalties.get_penalty a b).1
    rw [hb.1 a b (n1 a ha) (n2 b hb'), hu.1 a b (n1 a ha) (n2 b hb')]
  · intro a ha
    show (bpa.get_penalty a '*').1 = (unitPenalties.get_penalty a '*').1
    rw [hb.2.1 a (n1 a ha), hu.2.1 a (n1 a ha)]
  · intro b hb'
    show (bpa.get_penalty '*' b).1 = (unitPenalties.get_penalty '*' b).1
    rw [hb.2.2 b (n2 b hb'), hu.2.2 b (n2 b hb')]

theorem local_alignment_ACD_ACDE :
    local_alignment ['A', 'C', 'D'] ['A', 'C', 'D', 'E'] unitPenalties =
      .returned { score := 3, matchString1 := ['A', 'C', 'D'], matchString2 := ['A', 'C', 'D'] } := by
  decide

theorem local_alignment_ACD_ACDF :
    local_alignment ['A', 'C', 'D'] ['A', 'C', 'D', 'F'] unitPenalties =
      .returned { score := 3, matchString1 := ['A', 'C', 'D'], matchString2 := ['A', 'C', 'D'] } := by
  decide

/-- C12. With the vector `[("p1", "ACDE"), ("p2", "ACDF")]`, the query `"ACD"` and a
penalty matrix that gives `+1` to equal residues, `-1` to different residues and `-1` to
every pair of a residue and the gap marker, `local_alignment` scores both entries `3`,
and `local_alignment_best_match` returns the entry `"p1"` with the output strings `"ACD"`
and `"ACD"`, whatever the two output strings hold at the call. -/
theorem scenario_local_alignment (bpa : BlosumPenaltyArray) (hb : IsUnitPenalty bpa)
    (matchString1 matchString2 : List Char) :
    (∃ a, local_alignment ['A', 'C', 'D'] ['A', 'C', 'D', 'E'] bpa = .returned a ∧ a.score = 3) ∧
      (∃ a, local_alignment ['A', 'C', 'D'] ['A', 'C', 'D', 'F'] bpa = .returned a ∧ a.score = 3) ∧
      local_alignment_best_match sampleProteins ['A', 'C', 'D'] bpa matchString1 matchString2 =
        .returned { best_protein := ⟨['p', '1'], ['A', 'C', 'D', 'E']⟩,
                    matchString1 := ['A', 'C', 'D'], matchString2 := ['A', 'C', 'D'] } := by
  have e1 := (local_alignment_unit ['A', 'C', 'D'] ['A', 'C', 'D', 'E'] bpa hb (by decide)
    (by decide)).trans local_alignment_ACD_ACDE
  have e2 := (local_alignment_unit ['A', 'C', 'D'] ['A', 'C', 'D', 'F'] bpa hb (by decide)
    (by decide)).trans local_alignment_ACD_ACDF
  refine ⟨⟨_, e1, rfl⟩, ⟨_, e2, rfl⟩, ?_⟩
  unfold local_alignment_best_match
  have hv : vecAt sampleProteins 0 = .returned ⟨['p', '1'], ['A', 'C', 'D', 'E']⟩ := rfl
  have hl : sampleProteins.length = 0 + 1 + 1 := rfl
  rw [hv, hl]
  simp only [Outcome.bind]
  rw [forLoop_succ _ _ _ _ (by omega), forLoop_succ _ _ _ _ (by omega),
    forLoop_of_le _ _ _ _ (le_refl _)]
  simp [alignMatchStep, vecAt, sampleProteins, Outcome.bind, e1, e2, keepBestAlignment]

/-- Witness of C12 with the matrix `unitPenalties` and empty output strings. -/
theorem scenario_local_alignment_witness :
    IsUnitPenalty unitPenalties ∧
      local_alignment_best_match sampleProteins ['A', 'C', 'D'] unitPenalties [] [] =
        .returned { best_protein := ⟨['p', '1'], ['A', 'C', 'D', 'E']⟩,
                    matchString1 := ['A', 'C', 'D'], matchString2 := ['A', 'C', 'D'] } :=
  ⟨isUnitPenalty_unitPenalties,
    (scenario_local_alignment unitPenalties isUnitPenalty_unitPenalties [] []).2.2⟩

/-- C11 at a failing input: with the vector `[("p", "C")]`, the query `"A"`, the unit
penalties and the output strings holding `"X"` and `"Y"` at the call, the only score is
`0`, `local_alignment_best_match` returns the entry `"p"` and leaves `"X"` and `"Y"` in
the output strings, while `local_alignment("A", "C")` produces two empty strings. -/
theorem local_alignment_best_match_stale_strings :
    local_alignment_best_match [⟨['p'], ['C']⟩] ['A'] unitPenalties ['X'] ['Y'] =
        .returned { best_protein := ⟨['p'], ['C']⟩, matchString1 := ['X'],
                    matchString2 := ['Y'] } ∧
      local_alignment ['A'] ['C'] unitPenalties =
        .returned { score := 0, matchString1 := [], matchString2 := [] } := by
  decide

/-! ## project1.hh: the character mode -/

theorem strAt_of_lt (s : List Char) (j : Nat) (h : j < s.length) :
    strAt s (j : Int) = .returned (charAt s j) := by
  unfold strAt
  rw [if_pos ⟨by omega, by omega⟩]
  simp

theorem vecAt_of_some {α : Type} (v : List α) (i : Nat) (x : α) (h : v[i]? = some x) :
    vecAt v i = .returned x := by
  unfold vecAt
  rw [h]

theorem countStep_ascii (strings : string_vector) (i j : Nat) (s : List Char)
    (hs : strings[i]? = some s) (hj : j < s.length) (ha : (charAt s j).toNat < 128)
    (f : Nat → Int) :
    countStep strings i j (.returned f) =
      .returned (fun a => if a = (charAt s j).toNat then f a + 1 else f a) := by
  unfold countStep
  simp only [Outcome.bind, vecAt_of_some _ _ _ hs, strAt_of_lt s j hj]
  unfold charIndex
  rw [if_pos ha]

theorem codeCount_take_succ (k : Nat) (s : List Char) (j : Nat) (hj : j < s.length) :
    codeCount k (s.take (j + 1)) =
      codeCount k (s.take j) + if (charAt s j).toNat = k then 1 else 0 := by
  unfold codeCount
  rw [take_succ_charAt s j hj, List.countP_append, List.countP_singleton]
  simp

/-- The inner counting loop on an ASCII string adds to every entry of `counts` the number
of characters of that code in the string. -/
theorem count_inner (strings : string_vector) (i : Nat) (s : List Char)
    (hs : strings[i]? = some s) (ha : ∀ c, c ∈ s → c.toNat < 128) (f : Nat → Int) :
    ∀ j, j ≤ s.length →
      forLoop 0 j (fun j counts => countStep strings i j counts) (.returned f) =
        .returned (fun a => f a + (codeCount a (s.take j) : Int)) := by
  intro j
  induction j with
  | zero =>
    intro _
    rw [forLoop_of_le _ _ _ _ (le_refl _)]
    congr 1
    funext a
    simp [codeCount]
  | succ j ih =>
    intro hj
    have hj2 : j < s.length := by omega
    rw [forLoop_succ _ _ _ _ (Nat.zero_le _), ih (by omega)]
    rw [countStep_ascii strings i j s hs hj2 (ha _ (charAt_mem s j hj2))]
    congr 1
    funext a
    rw [codeCount_take_succ a s j hj2]
    by_cases h : a = (charAt s j).toNat
    · rw [if_pos h, if_pos h.symm]
      push_cast
      ring
    · rw [if_neg h, if_neg (fun h' => h h'.symm)]
      simp

theorem codeTotal_take_succ (strings : string_vector) (k i : Nat) (s : List Char)
    (hs : strings[i]? = some s) :
    codeTotal (strings.take (i + 1)) k = codeTotal (strings.take i) k + codeCount k s := by
  unfold codeTotal
  rw [List.take_succ, hs]
  simp

/-- The counting loops on ASCII strings return, and leave in `counts[k]` the number of
characters of code `k` in the strings. -/
theorem countLoops_ascii (strings : string_vector)
    (ha : ∀ s, s ∈ strings → ∀ c, c ∈ s → c.toNat < 128) :
    countLoops strings = .returned (fun a => (codeTotal strings a : Int)) := by
  have key : ∀ i, i ≤ strings.length →
      forLoop 0 i (fun i counts =>
        forLoop 0 ((strings.getD i []).length)
          (fun j counts => countStep strings i j counts) counts) (.returned (fun _ => 0)) =
        .returned (fun a => (codeTotal (strings.take i) a : Int)) := by
    intro i
    induction i with
    | zero =>
      intro _
      rw [forLoop_of_le _ _ _ _ (le_refl _)]
      congr 1
    | succ i ih =>
      intro hi
      have hi2 : i < strings.length := by omega
      have hs : strings[i]? = some (strings.get ⟨i, hi2⟩) := List.getElem?_eq_getElem hi2
      have hg : strings.getD i [] = strings.get ⟨i, hi2⟩ := by
        rw [List.getD_eq_getElem?_getD, hs]
        rfl
      rw [forLoop_succ _ _ _ _ (Nat.zero_le _), ih (by omega), hg]
      rw [count_inner strings i _ hs (ha _ (List.get_mem strings i hi2)) _ _ (le_refl _)]
      congr 1
      funext a
      rw [codeTotal_take_succ strings a i _ hs, List.take_length]
      push_cast
      rfl
  unfold countLoops
  rw [key strings.length (le_refl _), List.take_length]

/-- The index that `std::max_element` finds: no element is greater than the one there,
and every element before it is strictly smaller. -/
theorem maxElementIndex_spec (counts : Nat → Int) (len : Nat) (hlen : 1 ≤ len) :
    maxElementIndex counts len < len ∧
      (∀ k, k < len → counts k ≤ counts (maxElementIndex counts len)) ∧
      ∀ k, k < maxElementIndex counts len → counts k < counts (maxElementIndex counts len) := by
  unfold maxElementIndex
  refine forLoop_inv (fun K (m : Nat) => m < K ∧ (∀ k, k < K → counts k ≤ counts m) ∧
    ∀ k, k < m → counts k < counts m) 1 len _ _ hlen ?_ ?_
  · refine ⟨Nat.zero_lt_one, ?_, fun k hk => absurd hk (Nat.not_lt_zero k)⟩
    intro k hk
    have : k = 0 := by omega
    rw [this]
  · intro K m _ _ hm
    obtain ⟨h1, h2, h3⟩ := hm
    by_cases hc : counts m < counts K
    · rw [if_pos hc]
      refine ⟨Nat.lt_succ_self K, ?_, ?_⟩
      · intro k hk
        rcases Nat.lt_succ_iff_lt_or_eq.mp hk with h | h
        · exact le_of_lt (lt_of_le_of_lt (h2 k h) hc)
        · rw [h]
      · intro k hk
        exact lt_of_le_of_lt (h2 k hk) hc
    · rw [if_neg hc]
      refine ⟨by omega, ?_, h3⟩
      intro k hk
      rcases Nat.lt_succ_iff_lt_or_eq.mp hk with h | h
      · exact h2 k h
      · rw [h]; omega

theorem char_toNat_inj (c d : Char) (h : c.toNat = d.toNat) : c = d := by
  rw [← Char.ofNat_toNat c, ← Char.ofNat_toNat d, h]

theorem codeCount_toNat (d : Char) (s : List Char) : codeCount d.toNat s = s.count d := by
  unfold codeCount
  rw [List.count_eq_countP]
  refine List.countP_congr ?_
  intro c _
  simp only [decide_eq_true_eq, beq_iff_eq]
  exact ⟨char_toNat_inj c d, fun h => by rw [h]⟩

theorem codeTotal_toNat (strings : string_vector) (d : Char) :
    codeTotal strings d.toNat = occurrences strings d := by
  unfold codeTotal occurrences
  congr 1
  refine List.map_congr_left ?_
  intro s _
  exact codeCount_toNat d s

theorem codeCount_pos (k : Nat) (s : List Char) (h : 0 < codeCount k s) :
    ∃ c, c ∈ s ∧ c.toNat = k := by
  unfold codeCount at h
  obtain ⟨c, hc, hp⟩ := List.countP_pos_iff.mp h
  exact ⟨c, hc, by simpa using hp⟩

theorem codeTotal_pos (strings : string_vector) (k : Nat) (h : 0 < codeTotal strings k) :
    ∃ s c, s ∈ strings ∧ c ∈ s ∧ c.toNat = k := by
  induction strings with
  | nil => simp [codeTotal] at h
  | cons s rest ih =>
    have e : codeTotal (s :: rest) k = codeCount k s + codeTotal rest k := by
      simp [codeTotal]
    rw [e] at h
    by_cases h1 : 0 < codeCount k s
    · obtain ⟨c, hc, hk⟩ := codeCount_pos k s h1
      exact ⟨s, c, List.mem_cons_self _ _, hc, hk⟩
    · obtain ⟨s', c, hs, hc, hk⟩ := ih (by omega)
      exact ⟨s', c, List.mem_cons_of_mem _ hs, hc, hk⟩

theorem occurrences_pos_of_mem (strings : string_vector) (s : List Char) (c : Char)
    (hs : s ∈ strings) (hc : c ∈ s) : 0 < occurrences strings c := by
  induction strings with
  | nil => exact absurd hs (List.not_mem_nil _)
  | cons t rest ih =>
    have e : occurrences (t :: rest) c = t.count c + occurrences rest c := by
      simp [occurrences]
    rw [e]
    rcases List.mem_cons.mp hs with rfl | h
    · have := List.count_pos_iff.mpr hc
      omega
    · have := ih h
      omega

/-- What `character_mode` returns on ASCII strings with at least one character: a
character of the strings whose code is the index of the first greatest count. -/
theorem character_mode_spec (strings : string_vector)
    (hascii : ∀ s, s ∈ strings → ∀ c, c ∈ s → c.toNat < 128)
    (hne : ∃ s, s ∈ strings ∧ s ≠ []) :
    ∃ c, character_mode strings = .returned c ∧
      (∀ d, occurrences strings d ≤ occurrences strings c) ∧
      (∀ d, occurrences strings d = occurrences strings c → c.toNat ≤ d.toNat) := by
  obtain ⟨h1, h2, h3⟩ := maxElementIndex_spec (fun a => (codeTotal strings a : Int)) 256
    (by omega)
  -- some character occurs, so the greatest count is positive
  obtain ⟨s0, hs0, hs0ne⟩ := hne
  obtain ⟨c0, hc0⟩ := List.exists_mem_of_ne_nil s0 hs0ne
  have hc0pos : 0 < occurrences strings c0 := occurrences_pos_of_mem strings s0 c0 hs0 hc0
  have hc0lt : c0.toNat < 256 := by have := hascii s0 hs0 c0 hc0; omega
  have hmpos : 0 < codeTotal strings (maxElementIndex (fun a => (codeTotal strings a : Int)) 256) := by
    have := h2 c0.toNat hc0lt
    simp only [] at this
    rw [codeTotal_toNat] at this
    omega
  -- the index found is the code of a character of the strings
  obtain ⟨s, c, hs, hc, hk⟩ := codeTotal_pos strings _ hmpos
  have hocc : occurrences strings c =
      codeTotal strings (maxElementIndex (fun a => (codeTotal strings a : Int)) 256) := by
    rw [← codeTotal_toNat, hk]
  have hlt : ∀ d, 0 < occurrences strings d → d.toNat < 256 := by
    intro d hd
    rw [← codeTotal_toNat] at hd
    obtain ⟨s', c', hs', hc', hk'⟩ := codeTotal_pos strings _ hd
    have := hascii s' hs' c' hc'
    omega
  refine ⟨c, ?_, ?_, ?_⟩
  · unfold character_mode
    rw [countLoops_ascii strings hascii]
    simp only [Outcome.bind]
    rw [← hk, Char.ofNat_toNat]
  · intro d
    by_cases hd : 0 < occurrences strings d
    · have := h2 d.toNat (hlt d hd)
      simp only [] at this
      rw [codeTotal_toNat] at this
      rw [hocc]
      exact_mod_cast this
    · omega
  · intro d hd
    rw [hk]
    by_contra hcon
    have hdlt : d.toNat < maxElementIndex (fun a => (codeTotal strings a : Int)) 256 := by
      omega
    have := h3 d.toNat hdlt
    simp only [] at this
    rw [codeTotal_toNat] at this
    rw [hocc] at hd
    omega

/-- C20. For every vector of ASCII strings that holds at least one character,
`character_mode` returns a character whose number of occurrences across the strings is
the greatest, and among the characters with that number of occurrences the one with the
smallest code. -/
theorem character_mode_correct (strings : string_vector)
    (hascii : ∀ s, s ∈ strings → ∀ c, c ∈ s → c.toNat < 128)
    (hne : ∃ s, s ∈ strings ∧ s ≠ []) :
    ∃ c, character_mode strings = .returned c ∧
      (∀ d, occurrences strings d ≤ occurrences strings c) ∧
      (∀ d, occurrences strings d = occurrences strings c → c.toNat ≤ d.toNat) :=
  character_mode_spec strings hascii hne

/-- Witness of C20 on the strings `"ba"` and `"ab"`. -/
theorem character_mode_correct_witness :
    (∀ s, s ∈ [['b', 'a'], ['a', 'b']] → ∀ c, c ∈ s → c.toNat < 128) ∧
      (∃ s, s ∈ [['b', 'a'], ['a', 'b']] ∧ s ≠ []) ∧
      ∃ c, character_mode [['b', 'a'], ['a', 'b']] = .returned c ∧
        (∀ d, occurrences [['b', 'a'], ['a', 'b']] d ≤ occurrences [['b', 'a'], ['a', 'b']] c) ∧
        (∀ d, occurrences [['b', 'a'], ['a', 'b']] d = occurrences [['b', 'a'], ['a', 'b']] c →
          c.toNat ≤ d.toNat) :=
  have h1 : ∀ s, s ∈ [['b', 'a'], ['a', 'b']] → ∀ c, c ∈ s → c.toNat < 128 := by decide
  have h2 : ∃ s, s ∈ [['b', 'a'], ['a', 'b']] ∧ s ≠ [] := ⟨['b', 'a'], by decide, by decide⟩
  ⟨h1, h2, character_mode_correct [['b', 'a'], ['a', 'b']] h1 h2⟩

theorem bestInRow_zero_col (D : Table Int) (best_i m : Nat) :
    (bestInRow D best_i m).1 = 0 → (bestInRow D best_i m).2 = 0 := by
  have key : 0 ≤ (bestInRow D best_i m).1 ∧
      ((bestInRow D best_i m).1 = 0 → (bestInRow D best_i m).2 = 0) := by
    unfold bestInRow
    refine forLoop_inv (fun _ (r : Int × Nat) => 0 ≤ r.1 ∧ (r.1 = 0 → r.2 = 0)) 1 (m + 1) _ _
      (by omega) ⟨le_refl _, fun _ => rfl⟩ ?_
    intro j r _ _ hr
    by_cases hc : D best_i j > r.1
    · rw [if_pos hc]
      refine ⟨by show 0 ≤ D best_i j; omega, ?_⟩
      intro h0
      have h0 : D best_i j = 0 := h0
      omega
    · rw [if_neg hc]
      exact hr
  exact key.2

theorem entryScore_of_some (sc : Protein → Int) (proteins : ProteinVector) (j : Nat)
    (q : Protein) (h : proteins[j]? = some q) : entryScore sc proteins j = sc q := by
  unfold entryScore
  rw [h]

/-- A score `0` of `local_alignment` comes with two empty output strings: the scan of the
bottom row then leaves `best_j = 0`, and the backtrace starts on a `'?'`. -/
theorem local_alignment_zero_score (s1 s2 : List Char) (bpa : BlosumPenaltyArray)
    (h : alignScore s1 s2 bpa = 0) :
    local_alignment s1 s2 bpa =
      .returned { score := 0, matchString1 := [], matchString2 := [] } := by
  unfold alignScore at h
  have hj := bestInRow_zero_col _ _ _ h
  have hq := (alignTables_goodB s1 s2 bpa).1 s1.length 0 (le_refl _) (Nat.zero_le _)
    (Or.inr rfl)
  have e : walkLoop s1 s2 (alignTables s1 s2 bpa).B (s1.length + s2.length + 1)
      { i := s1.length, j := 0, matchString1 := [], matchString2 := [], done := false } =
      .returned { i := s1.length, j := 0, matchString1 := [], matchString2 := [],
                  done := true } := by
    show walkLoop s1 s2 (alignTables s1 s2 bpa).B ((s1.length + s2.length) + 1) _ = _
    rw [walkLoop]
    simp only [Bool.false_eq_true, if_false]
    rw [walkStep_q _ _ _ _ hq, walkLoop_done _ _ _ _ _ rfl]
  unfold local_alignment
  simp only []
  rw [hj, h, e]
  rfl

/-- The output strings of `local_alignment_best_match` on a non-empty vector: when the
returned entry scores more than `0` they are the two strings of its alignment; when it
scores `0` (then every entry does) they are the strings that the caller passed in, while
its alignment has two empty strings. -/
theorem local_alignment_best_match_strings (proteins : ProteinVector) (string1 : List Char)
    (bpa : BlosumPenaltyArray) (matchString1 matchString2 : List Char) (h : proteins ≠ []) :
    ∃ r a,
      local_alignment_best_match proteins string1 bpa matchString1 matchString2 = .returned r ∧
      local_alignment string1 r.best_protein.sequence bpa = .returned a ∧
      ((0 < a.score ∧ r.matchString1 = a.matchString1 ∧ r.matchString2 = a.matchString2) ∨
        (a.score = 0 ∧ r.matchString1 = matchString1 ∧ r.matchString2 = matchString2 ∧
          a.matchString1 = [] ∧ a.matchString2 = [])) := by
  have hlen : 0 < proteins.length := List.length_pos.mpr h
  have hfirst : proteins[0]? = some (proteins.get ⟨0, hlen⟩) := List.getElem?_eq_getElem hlen
  obtain ⟨st, hst, hs1, hs2, hs3, hs4⟩ := align_loop proteins string1 bpa matchString1
    matchString2 _ hfirst proteins.length (le_refl _)
  have hret : local_alignment_best_match proteins string1 bpa matchString1 matchString2 =
      .returned (⟨st.best_protein, st.matchString1, st.matchString2⟩ : BestMatch) := by
    unfold local_alignment_best_match
    rw [vecAt_of_lt proteins 0 hlen]
    simp only [Outcome.bind]
    rw [hst]
  -- the score of the returned entry is the best score of the loop
  have hscore : alignScore string1 st.best_protein.sequence bpa = st.best_score := by
    have e : laScore proteins string1 bpa
        (bestLoop (laScore proteins string1 bpa) proteins.length).1 =
        alignScore string1 st.best_protein.sequence bpa := by
      exact entryScore_of_some _ proteins _ _ hs2
    rw [← e, hs1]
    rcases bestLoop_inv _ (laScore_nonneg proteins string1 bpa) proteins.length with
      ⟨h1, h2, h3⟩ | ⟨_, h2, _, _, _⟩
    · rw [h1, h2]; exact h3 0 hlen
    · exact h2.symm
  obtain ⟨a, ha, has⟩ := local_alignment_score string1 st.best_protein.sequence bpa
  refine ⟨_, a, hret, ha, ?_⟩
  have hnn : 0 ≤ a.score := by rw [has]; exact (bestInRow_bounds _ _ _).1
  by_cases hz : a.score = 0
  · right
    have hz2 : st.best_score = 0 := by rw [← hscore, ← has]; exact hz
    have e0 := local_alignment_zero_score string1 st.best_protein.sequence bpa
      (by rw [← has]; exact hz)
    rw [ha] at e0
    have e1 : a = { score := 0, matchString1 := [], matchString2 := [] } :=
      Outcome.returned.inj e0
    refine ⟨hz, (hs3 hz2).1, (hs3 hz2).2, ?_, ?_⟩
    · rw [e1]
    · rw [e1]
  · left
    have hpos : 0 < st.best_score := by rw [← hscore, ← has]; omega
    obtain ⟨a', ha', h1, h2⟩ := hs4 hpos
    rw [ha] at ha'
    have e1 : a = a' := Outcome.returned.inj ha'
    refine ⟨by omega, ?_, ?_⟩
    · show st.matchString1 = a.matchString1
      rw [e1]; exact h1
    · show st.matchString2 = a.matchString2
      rw [e1]; exact h2

/-! ## project1.hh: mirrored strings and substring trios -/

/-- C17 at a failing input: `is_mirrored("ab", "a")` finds `'a' = 'a'` in its first
pass, and in its second pass, with `i = 1` and `rev_i = -1`, it evaluates `string2[-1]`,
a read outside `string2`, where the claim has it return `false`. -/
theorem is_mirrored_ab_a :
    is_mirrored ['a', 'b'] ['a'] = .outOfRange (2 ^ 64 - 1) 1 := by
  decide

/-- C18 at a failing input: the vector `["x", "ab", "ba"]` holds the mirrored pair
`"ab"`, `"ba"`, and `longest_mirrored_string` returns the empty string; the bound
`strings.size() - i` of the inner loop lets it compare `strings[0]` with the two others
only. For the same reason it returns `"ab"` on `["ab", "ba", "abc", "cba", "x"]`, where
the longer `"abc"` has its mirror `"cba"` in the vector. -/
theorem longest_mirrored_string_x_ab_ba :
    (longest_mirrored_string [['x'], ['a', 'b'], ['b', 'a']] = .returned [] ∧
        is_mirrored ['a', 'b'] ['b', 'a'] = .returned true) ∧
      (longest_mirrored_string
          [['a', 'b'], ['b', 'a'], ['a', 'b', 'c'], ['c', 'b', 'a'], ['x']] =
          .returned ['a', 'b'] ∧
        is_mirrored ['a', 'b', 'c'] ['c', 'b', 'a'] = .returned true) := by
  decide

/-- C19 at a failing input: the vector `["", "a", "ab"]` has no three non-empty strings,
and `longest_substring_trio` returns `["", "a", "ab"]`, whose first string is empty,
where the claim has it return three empty strings. -/
theorem longest_substring_trio_empty_a_ab :
    longest_substring_trio [[], ['a'], ['a', 'b']] = [[], ['a'], ['a', 'b']] := by
  decide

theorem charAt_eq_getElem (s : List Char) (k : Nat) (h : k < s.length) :
    charAt s k = s.get ⟨k, h⟩ := by
  unfold charAt
  rw [List.getD_eq_getElem _ _ h]
  rfl

theorem drop_eq_charAt_cons (s : List Char) (k : Nat) (h : k < s.length) :
    s.drop k = charAt s k :: s.drop (k + 1) := by
  rw [List.drop_eq_getElem_cons h, charAt_eq_getElem s k h]
  rfl

theorem charAt_reverse (s : List Char) (k : Nat) (h : k < s.length) :
    charAt s.reverse k = charAt s (s.length - 1 - k) := by
  unfold charAt
  rw [List.getD_eq_getElem?_getD, List.getD_eq_getElem?_getD, List.getElem?_reverse h]

/-- On strings of one length `n`, the loop of `is_mirrored` entered with `i = k` and
`rev_i = n - 1 - k` returns, and it returns whether `string1` from position `k` on is the
reverse of `string2` from position `k` on. -/
theorem mirrorLoop_same_length (s1 s2 : List Char) (n : Nat) (h1 : s1.length = n)
    (h2 : s2.length = n) :
    ∀ budget k, k ≤ n → n - k < budget →
      mirrorLoop s1 s2 budget (k : Int) ((n : Int) - 1 - (k : Int)) =
        .returned (decide (s1.drop k = s2.reverse.drop k)) := by
  intro budget
  induction budget with
  | zero => intro k _ hb; omega
  | succ b ih =>
    intro k hk hb
    unfold mirrorLoop
    by_cases hkn : k < n
    · have hc : (k : Int) < (s1.length : Int) ∨ (n : Int) - 1 - (k : Int) ≥ 0 := by
        left; omega
      rw [if_pos hc]
      have e2 : (n : Int) - 1 - (k : Int) = ((n - 1 - k : Nat) : Int) := by omega
      rw [strAt_of_lt s1 k (by omega), e2, strAt_of_lt s2 (n - 1 - k) (by omega)]
      simp only [Outcome.bind]
      have d1 := drop_eq_charAt_cons s1 k (by omega)
      have d2 := drop_eq_charAt_cons s2.reverse k (by rw [List.length_reverse]; omega)
      rw [charAt_reverse s2 k (by omega), h2] at d2
      by_cases hne : charAt s1 k ≠ charAt s2 (n - 1 - k)
      · rw [if_pos hne]
        congr 1
        symm
        rw [decide_eq_false_iff_not, d1, d2]
        intro h
        exact hne (List.cons.inj h).1
      · rw [if_neg hne]
        have heq : charAt s1 k = charAt s2 (n - 1 - k) := not_not.mp hne
        have e3 : ((n - 1 - k : Nat) : Int) - 1 = (n : Int) - 1 - ((k + 1 : Nat) : Int) := by
          omega
        have e4 : (k : Int) + 1 = ((k + 1 : Nat) : Int) := by omega
        rw [e3, e4, ih (k + 1) (by omega) (by omega)]
        congr 1
        rw [d1, d2, heq]
        simp
    · have hkn2 : k = n := by omega
      have hc : ¬ ((k : Int) < (s1.length : Int) ∨ (n : Int) - 1 - (k : Int) ≥ 0) := by
        omega
      rw [if_neg hc]
      congr 1
      symm
      rw [decide_eq_true_iff, List.drop_of_length_le (by omega),
        List.drop_of_length_le (by rw [List.length_reverse]; omega)]

/-- On two strings of the same length `is_mirrored` reads inside the strings only and
returns `true` exactly when `string1` is the reverse of `string2` and differs from it. -/
theorem is_mirrored_same_length (s1 s2 : List Char) (h : s1.length = s2.length) :
    is_mirrored s1 s2 = .returned (decide (s1 = s2.reverse ∧ s1 ≠ s2)) := by
  unfold is_mirrored
  simp only []
  by_cases hg : s1 = s2 ∨ s1 = [] ∨ s2 = []
  · rw [if_pos hg]
    congr 1
    symm
    rw [decide_eq_false_iff_not]
    rintro ⟨hr, hne⟩
    rcases hg with h0 | h0 | h0
    · exact hne h0
    · subst h0
      have : s2 = [] := List.length_eq_zero.mp h.symm
      exact hne this.symm
    · subst h0
      have : s1 = [] := List.length_eq_zero.mp h
      exact hne this
  · rw [if_neg hg]
    have hne : s1 ≠ s2 := fun h0 => hg (Or.inl h0)
    have e := mirrorLoop_same_length s1 s2 s2.length h rfl (s1.length + s2.length + 1) 0
      (Nat.zero_le _) (by omega)
    simp only [Nat.cast_zero, sub_zero, List.drop_zero] at e
    rw [e]
    congr 1
    simp [hne]

/-- The function `is_substring` returns `true` exactly on a contiguous substring. -/
theorem is_substring_iff (a b : List Char) : is_substring a b = true ↔ a <:+: b := by
  unfold is_substring stringFind
  constructor
  · intro h
    by_cases hf : (List.range (b.length + 1)).find? (fun pos => a.isPrefixOf (b.drop pos)) = none
    · rw [if_neg (not_not.mpr hf)] at h
      exact absurd h (by decide)
    · obtain ⟨p, hp⟩ := Option.ne_none_iff_exists'.mp hf
      have := (List.find?_eq_some.mp hp).1
      rw [List.isPrefixOf_iff_prefix] at this
      exact List.infix_iff_prefix_suffix.mpr ⟨_, this, List.drop_suffix p b⟩
  · intro h
    obtain ⟨t, ht1, ht2⟩ := List.infix_iff_prefix_suffix.mp h
    have hne : (List.range (b.length + 1)).find? (fun pos => a.isPrefixOf (b.drop pos)) ≠ none := by
      intro hn
      rw [List.find?_eq_none] at hn
      have hd := List.suffix_iff_eq_drop.mp ht2
      refine hn (b.length - t.length) (List.mem_range.mpr (by omega)) ?_
      rw [List.isPrefixOf_iff_prefix, ← hd]
      exact ht1
    rw [if_pos hne]

theorem foldl_preserve {α σ : Type} (P : σ → Prop) (f : σ → α → σ) (l : List α)
    (h : ∀ s x, x ∈ l → P s → P (f s x)) : ∀ s, P s → P (l.foldl f s) := by
  induction l with
  | nil => intro s hs; exact hs
  | cons x rest ih =>
    intro s hs
    rw [List.foldl_cons]
    exact ih (fun s y hy => h s y (List.mem_cons_of_mem _ hy)) _
      (h s x (List.mem_cons_self _ _) hs)

theorem foldl_mono {α σ : Type} (m : σ → Int) (f : σ → α → σ) (l : List α)
    (h : ∀ s x, m s ≤ m (f s x)) : ∀ s, m s ≤ m (l.foldl f s) := by
  induction l with
  | nil => intro s; exact le_refl _
  | cons x rest ih =>
    intro s
    rw [List.foldl_cons]
    exact le_trans (h s x) (ih _)

theorem foldl_cover {α σ : Type} (m : σ → Int) (f : σ → α → σ) (l : List α)
    (h : ∀ s x, m s ≤ m (f s x)) (x : α) (hx : x ∈ l) (v : Int)
    (hv : ∀ s, v ≤ m (f s x)) : ∀ s, v ≤ m (l.foldl f s) := by
  induction l with
  | nil => exact absurd hx (List.not_mem_nil _)
  | cons y rest ih =>
    intro s
    rw [List.foldl_cons]
    rcases List.mem_cons.mp hx with rfl | hr
    · exact le_trans (hv s) (foldl_mono m f rest h _)
    · exact ih hr _

theorem trioStep_mono (a b c : List Char) (st : TrioState) :
    st.best_length ≤ (trioStep a b c st).best_length := by
  unfold trioStep
  simp only []
  split_ifs with h
  · exact le_of_lt h.2.2.1
  · exact le_refl _

theorem trioStep_cover (a b c : List Char) (st : TrioState)
    (h : a <:+: b ∧ b <:+: c ∧ a ≠ b ∧ b ≠ c) :
    trioLength a b c ≤ (trioStep a b c st).best_length := by
  unfold trioStep trioLength
  simp only []
  split_ifs with hc
  · exact le_refl _
  · by_contra hlt
    refine hc ⟨(is_substring_iff a b).mpr h.1, (is_substring_iff b c).mpr h.2.1, ?_, ?_⟩
    · exact lt_of_not_le hlt
    · rintro (h0 | h0)
      · exact h.2.2.1 h0
      · exact h.2.2.2 h0

theorem trioStep_seen (strings : string_vector) (a b c : List Char) (ha : a ∈ strings)
    (hb : b ∈ strings) (hc : c ∈ strings) (st : TrioState) (h : TrioSeen strings st) :
    TrioSeen strings (trioStep a b c st) := by
  unfold trioStep
  simp only []
  split_ifs with hcond
  · right
    refine ⟨a, b, c, ha, hb, hc, ⟨(is_substring_iff a b).mp hcond.1,
      (is_substring_iff b c).mp hcond.2.1, fun h0 => hcond.2.2.2 (Or.inl h0),
      fun h0 => hcond.2.2.2 (Or.inr h0)⟩, ?_, rfl⟩
    rcases h with ⟨_, ht⟩ | ⟨a', b', c', _, _, _, _, ht, _⟩
    · show ((st.trio.set 0 a).set 1 b).set 2 c = [a, b, c]
      rw [ht]; rfl
    · show ((st.trio.set 0 a).set 1 b).set 2 c = [a, b, c]
      rw [ht]; rfl
  · exact h

theorem trioLoops_seen (strings : string_vector) : TrioSeen strings (trioLoops strings) := by
  unfold trioLoops
  refine foldl_preserve (TrioSeen strings) _ strings ?_ _ (Or.inl ⟨rfl, rfl⟩)
  intro s a ha hs
  refine foldl_preserve (TrioSeen strings) _ strings ?_ _ hs
  intro s b hb hs
  refine foldl_preserve (TrioSeen strings) _ strings ?_ _ hs
  intro s c hc hs
  exact trioStep_seen strings a b c ha hb hc s hs

theorem trioLoops_cover (strings : string_vector) (a b c : List Char) (ha : a ∈ strings)
    (hb : b ∈ strings) (hc : c ∈ strings) (h : a <:+: b ∧ b <:+: c ∧ a ≠ b ∧ b ≠ c) :
    trioLength a b c ≤ (trioLoops strings).best_length := by
  unfold trioLoops
  have m3 : ∀ (a b : List Char) (s : TrioState),
      s.best_length ≤ (strings.foldl (fun st c => trioStep a b c st) s).best_length :=
    fun a b s => foldl_mono TrioState.best_length _ strings
      (fun s c => trioStep_mono a b c s) s
  have m2 : ∀ (a : List Char) (s : TrioState),
      s.best_length ≤ (strings.foldl (fun st b =>
        strings.foldl (fun st c => trioStep a b c st) st) s).best_length :=
    fun a s => foldl_mono TrioState.best_length _ strings (fun s b => m3 a b s) s
  refine foldl_cover TrioState.best_length _ strings (fun s a => m2 a s) a ha _ ?_ _
  intro s
  refine foldl_cover TrioState.best_length _ strings (fun s b => m3 a b s) b hb _ ?_ _
  intro s
  refine foldl_cover TrioState.best_length _ strings (fun s c => trioStep_mono a b c s) c hc _
    ?_ _
  intro s
  exact trioStep_cover a b c s h

theorem isTrio_of_cond (a b c : List Char) (ha : a ≠ [])
    (h : a <:+: b ∧ b <:+: c ∧ a ≠ b ∧ b ≠ c) : IsTrio a b c := by
  obtain ⟨h1, h2, h3, h4⟩ := h
  have l1 := h1.length_le
  have l2 := h2.length_le
  have hapos : 0 < a.length := List.length_pos.mpr ha
  refine ⟨ha, ?_, ?_, h3, h4, ?_, h1, h2⟩
  · intro hb
    have : b.length = 0 := by rw [hb]; rfl
    omega
  · intro hc
    have : c.length = 0 := by rw [hc]; rfl
    omega
  · intro hac
    subst hac
    exact h3 (h1.eq_of_length (by omega))

/-- On a vector without the empty string, `longest_substring_trio` returns a substring
trio of the greatest total length, or three empty strings when the vector holds no
substring trio. -/
theorem longest_substring_trio_nonempty (strings : string_vector) (hne : [] ∉ strings) :
    (∃ a b c, a ∈ strings ∧ b ∈ strings ∧ c ∈ strings ∧ IsTrio a b c ∧
        longest_substring_trio strings = [a, b, c] ∧
        ∀ a' b' c', a' ∈ strings → b' ∈ strings → c' ∈ strings → IsTrio a' b' c' →
          trioLength a' b' c' ≤ trioLength a b c) ∨
      (longest_substring_trio strings = [[], [], []] ∧
        ¬ ∃ a b c, a ∈ strings ∧ b ∈ strings ∧ c ∈ strings ∧ IsTrio a b c) := by
  have hl : longest_substring_trio strings = (trioLoops strings).trio := rfl
  have hcov := trioLoops_cover strings
  rcases trioLoops_seen strings with ⟨h0, ht⟩ | ⟨a, b, c, ha, hb, hc, hcond, ht, hlen⟩
  · right
    refine ⟨by rw [hl, ht], ?_⟩
    rintro ⟨a, b, c, ha, hb, hc, h⟩
    have := hcov a b c ha hb hc ⟨h.2.2.2.2.2.2.1, h.2.2.2.2.2.2.2, h.2.2.2.1, h.2.2.2.2.1⟩
    rw [h0] at this
    have hapos : 0 < a.length := List.length_pos.mpr h.1
    unfold trioLength at this
    omega
  · left
    refine ⟨a, b, c, ha, hb, hc, isTrio_of_cond a b c (fun h => hne (h ▸ ha)) hcond,
      by rw [hl, ht], ?_⟩
    intro a' b' c' ha' hb' hc' h
    rw [← hlen]
    exact hcov a' b' c' ha' hb' hc'
      ⟨h.2.2.2.2.2.2.1, h.2.2.2.2.2.2.2, h.2.2.2.1, h.2.2.2.2.1⟩

theorem strAt_cases (s : List Char) (k : Int) :
    (∃ c, strAt s k = .returned c) ∨ (∃ a b, strAt s k = .outOfRange a b) := by
  unfold strAt
  split_ifs
  · exact Or.inl ⟨_, rfl⟩
  · exact Or.inl ⟨_, rfl⟩
  · exact Or.inr ⟨_, _, rfl⟩

/-- The loop of `is_mirrored` leaves within its budget: it returns or it reads out of
range. -/
theorem mirrorLoop_ends (s1 s2 : List Char) :
    ∀ (budget : Nat) (i rev_i : Int),
      (max ((s1.length : Int) - i) (rev_i + 1)).toNat < budget →
      mirrorLoop s1 s2 budget i rev_i ≠ .noReturn := by
  intro budget
  induction budget with
  | zero => intro i rev_i h; omega
  | succ b ih =>
    intro i rev_i h
    unfold mirrorLoop
    by_cases hc : i < (s1.length : Int) ∨ rev_i ≥ 0
    · rw [if_pos hc]
      rcases strAt_cases s1 i with ⟨c1, e1⟩ | ⟨a1, b1, e1⟩
      · rcases strAt_cases s2 rev_i with ⟨c2, e2⟩ | ⟨a2, b2, e2⟩
        · rw [e1, e2]
          simp only [Outcome.bind]
          split_ifs
          · exact fun h0 => Outcome.noConfusion h0
          · refine ih (i + 1) (rev_i - 1) ?_
            rcases le_total ((s1.length : Int) - i) (rev_i + 1) with hm | hm
            · rw [max_eq_right hm] at h
              rw [max_eq_right (by omega)]
              omega
            · rw [max_eq_left hm] at h
              rw [max_eq_left (by omega)]
              omega
        · rw [e1, e2]
          exact fun h0 => Outcome.noConfusion h0
      · rw [e1]
        exact fun h0 => Outcome.noConfusion h0
    · rw [if_neg hc]
      exact fun h0 => Outcome.noConfusion h0

/-- The budget of `is_mirrored` is never used up. -/
theorem is_mirrored_ends (s1 s2 : List Char) : is_mirrored s1 s2 ≠ .noReturn := by
  unfold is_mirrored
  simp only []
  split_ifs
  · exact fun h0 => Outcome.noConfusion h0
  · refine mirrorLoop_ends s1 s2 _ _ _ ?_
    rcases le_total ((s1.length : Int) - 0) ((s2.length : Int) - 1 + 1) with hm | hm
    · rw [max_eq_right hm]; omega
    · rw [max_eq_left hm]; omega

/-! ## The tables of the local alignment and the recurrence -/

theorem swRec_zero_left (s1 s2 : List Char) (bpa : BlosumPenaltyArray) (j : Nat) :
    swRec s1 s2 bpa 0 j = 0 := by
  simp [swRec]

theorem swRec_zero_right (s1 s2 : List Char) (bpa : BlosumPenaltyArray) (i : Nat) :
    swRec s1 s2 bpa i 0 = 0 := by
  cases i <;> simp [swRec]

theorem swRec_interior (s1 s2 : List Char) (bpa : BlosumPenaltyArray) (i j : Nat)
    (hi : 1 ≤ i) (hj : 1 ≤ j) :
    swRec s1 s2 bpa i j =
      max (max (upAt (swRec s1 s2 bpa) s1 bpa i j) (leftAt (swRec s1 s2 bpa) s2 bpa i j))
        (max (diagAt (swRec s1 s2 bpa) s1 s2 bpa i j) 0) := by
  obtain ⟨i', rfl⟩ : ∃ i', i = i' + 1 := ⟨i - 1, by omega⟩
  obtain ⟨j', rfl⟩ : ∃ j', j = j' + 1 := ⟨j - 1, by omega⟩
  rw [swRec]
  rfl

theorem alignCell_B_direction (s1 s2 : List Char) (bpa : BlosumPenaltyArray) (i j : Nat)
    (t : AlignTables) :
    (alignCell s1 s2 bpa i j t).B =
      t.B.set i j (direction (upAt t.D s1 bpa i j) (leftAt t.D s2 bpa i j)
        (diagAt t.D s1 s2 bpa i j)) := by
  unfold alignCell direction upAt leftAt diagAt
  simp only []
  split_ifs <;> rfl

theorem alignCell_D_cands (s1 s2 : List Char) (bpa : BlosumPenaltyArray) (i j : Nat)
    (t : AlignTables) :
    (alignCell s1 s2 bpa i j t).D =
      t.D.set i j (max (max (upAt t.D s1 bpa i j) (leftAt t.D s2 bpa i j))
        (max (diagAt t.D s1 s2 bpa i j) 0)) := rfl

theorem alignCell_inv (s1 s2 : List Char) (bpa : BlosumPenaltyArray) (m i j : Nat)
    (t : AlignTables) (hi : 1 ≤ i) (hj : 1 ≤ j) (hjm : j ≤ m)
    (h : AlignInv s1 s2 bpa m i j t) :
    AlignInv s1 s2 bpa m i (j + 1) (alignCell s1 s2 bpa i j t) := by
  obtain ⟨h0, h1, h2⟩ := h
  have eu : upAt t.D s1 bpa i j = upAt (swRec s1 s2 bpa) s1 bpa i j := by
    unfold upAt
    rw [h1 (i - 1) j hjm (Or.inl (by omega))]
  have el : leftAt t.D s2 bpa i j = leftAt (swRec s1 s2 bpa) s2 bpa i j := by
    unfold leftAt
    rw [h1 i (j - 1) (by omega) (Or.inr ⟨rfl, by omega⟩)]
  have ed : diagAt t.D s1 s2 bpa i j = diagAt (swRec s1 s2 bpa) s1 s2 bpa i j := by
    unfold diagAt
    rw [h1 (i - 1) (j - 1) (by omega) (Or.inl (by omega))]
  refine ⟨?_, ?_, ?_⟩
  · intro a
    rw [alignCell_D_cands, Table.set_other _ _ _ _ _ _ (by omega)]
    exact h0 a
  · intro a b hb hab
    rw [alignCell_D_cands]
    by_cases hc : a = i ∧ b = j
    · rw [hc.1, hc.2, Table.set_same, eu, el, ed, swRec_interior s1 s2 bpa i j hi hj]
    · rw [Table.set_other _ _ _ _ _ _ hc]
      exact h1 a b hb (by omega)
  · intro a b ha hb1 hb hab
    rw [alignCell_B_direction]
    by_cases hc : a = i ∧ b = j
    · rw [hc.1, hc.2, Table.set_same, eu, el, ed]
    · rw [Table.set_other _ _ _ _ _ _ hc]
      exact h2 a b ha hb1 hb (by omega)

/-- The tables that the fill loop of `local_alignment` leaves: `D` is the table of the
recurrence, and every cell of `B` in a row and a column of positive index holds the back
pointer selected for the candidates of the cell. -/
theorem alignTables_eq_rec (s1 s2 : List Char) (bpa : BlosumPenaltyArray) :
    (∀ a b, a ≤ s1.length → b ≤ s2.length →
        (alignTables s1 s2 bpa).D a b = swRec s1 s2 bpa a b) ∧
      ∀ a b, 1 ≤ a → a ≤ s1.length → 1 ≤ b → b ≤ s2.length →
        (alignTables s1 s2 bpa).B a b =
          direction (upAt (swRec s1 s2 bpa) s1 bpa a b) (leftAt (swRec s1 s2 bpa) s2 bpa a b)
            (diagAt (swRec s1 s2 bpa) s1 s2 bpa a b) := by
  have key : AlignInv s1 s2 bpa s2.length (s1.length + 1) 1 (alignTables s1 s2 bpa) := by
    unfold alignTables
    refine forLoop_inv (fun i t => AlignInv s1 s2 bpa s2.length i 1 t) 1 (s1.length + 1) _ _
      (by omega) ?_ ?_
    · have hz := (alignInit_spec s1.length s2.length).1
      refine ⟨fun a => hz a 0, ?_, ?_⟩
      · intro a b _ hab
        rw [hz]
        rcases hab with h | ⟨_, h⟩
        · have : a = 0 := by omega
          rw [this, swRec_zero_left]
        · have : b = 0 := by omega
          rw [this, swRec_zero_right]
      · intro a b ha hb _ hab
        omega
    · intro i t hi _ ht
      have hrow : AlignInv s1 s2 bpa s2.length i (s2.length + 1)
          (forLoop 1 (s2.length + 1) (fun j t => alignCell s1 s2 bpa i j t) t) := by
        refine forLoop_inv (fun j t => AlignInv s1 s2 bpa s2.length i j t) 1 (s2.length + 1)
          _ _ (by omega) ht ?_
        intro j u hj hjm hu
        exact alignCell_inv s1 s2 bpa _ i j u hi hj (by omega) hu
      refine ⟨hrow.1, ?_, ?_⟩
      · intro a b hb hab
        rcases hab with h | ⟨_, h⟩
        · exact hrow.2.1 a b hb (by omega)
        · have : b = 0 := by omega
          rw [this, hrow.1, swRec_zero_right]
      · intro a b ha hb1 hb hab
        exact hrow.2.2 a b ha hb1 hb (by omega)
  exact ⟨fun a b ha hb => key.2.1 a b hb (Or.inl (by omega)),
    fun a b ha1 ha hb1 hb => key.2.2 a b ha1 hb1 hb (Or.inl (by omega))⟩

theorem direction_cases (up left diag : Int) :
    (diag ≥ up ∧ diag ≥ left → direction up left diag = 'd') ∧
      (up > diag ∧ up ≥ left → direction up left diag = 'u') ∧
      (left > up ∧ left > diag → direction up left diag = 'l') := by
  unfold direction
  refine ⟨?_, ?_, ?_⟩
  · rintro ⟨h1, h2⟩
    by_cases h : left > up
    · rw [if_pos h, if_neg (not_lt.mpr h2)]
    · rw [if_neg h, if_neg (not_lt.mpr h1)]
  · rintro ⟨h1, h2⟩
    rw [if_neg (not_lt.mpr h2), if_pos h1]
  · rintro ⟨h1, h2⟩
    rw [if_pos h1, if_pos h2]

theorem direction_candidate (up left diag : Int) :
    (direction up left diag = 'u' ∨ direction up left diag = 'l' ∨
        direction up left diag = 'd') ∧
      candidate (direction up left diag) up left diag = max (max up left) diag := by
  unfold direction
  by_cases h1 : left > up
  · rw [if_pos h1]
    by_cases h2 : left > diag
    · rw [if_pos h2]
      refine ⟨Or.inr (Or.inl rfl), ?_⟩
      unfold candidate
      rw [if_neg (by decide), if_pos rfl, max_eq_right (le_of_lt h1), max_eq_left (le_of_lt h2)]
    · rw [if_neg h2]
      refine ⟨Or.inr (Or.inr rfl), ?_⟩
      unfold candidate
      rw [if_neg (by decide), if_neg (by decide), max_eq_right (le_of_lt h1),
        max_eq_right (not_lt.mp h2)]
  · rw [if_neg h1]
    by_cases h3 : up > diag
    · rw [if_pos h3]
      refine ⟨Or.inl rfl, ?_⟩
      unfold candidate
      rw [if_pos rfl, max_eq_left (not_lt.mp h1), max_eq_left (le_of_lt h3)]
    · rw [if_neg h3]
      refine ⟨Or.inr (Or.inr rfl), ?_⟩
      unfold candidate
      rw [if_neg (by decide), if_neg (by decide), max_eq_left (not_lt.mp h1),
        max_eq_right (not_lt.mp h3)]

/-- The candidates and the cell contents of an interior cell, read from the tables that
the fill loop leaves. -/
theorem alignTables_cell (s1 s2 : List Char) (bpa : BlosumPenaltyArray) (i j : Nat)
    (hi : 1 ≤ i) (hin : i ≤ s1.length) (hj : 1 ≤ j) (hjm : j ≤ s2.length) :
    (alignTables s1 s2 bpa).B i j =
        direction (upAt (alignTables s1 s2 bpa).D s1 bpa i j)
          (leftAt (alignTables s1 s2 bpa).D s2 bpa i j)
          (diagAt (alignTables s1 s2 bpa).D s1 s2 bpa i j) ∧
      (alignTables s1 s2 bpa).D i j =
        max (max (upAt (alignTables s1 s2 bpa).D s1 bpa i j)
            (leftAt (alignTables s1 s2 bpa).D s2 bpa i j))
          (max (diagAt (alignTables s1 s2 bpa).D s1 s2 bpa i j) 0) := by
  obtain ⟨hD, hB⟩ := alignTables_eq_rec s1 s2 bpa
  have eu : upAt (alignTables s1 s2 bpa).D s1 bpa i j = upAt (swRec s1 s2 bpa) s1 bpa i j := by
    unfold upAt
    rw [hD (i - 1) j (by omega) hjm]
  have el : leftAt (alignTables s1 s2 bpa).D s2 bpa i j =
      leftAt (swRec s1 s2 bpa) s2 bpa i j := by
    unfold leftAt
    rw [hD i (j - 1) hin (by omega)]
  have ed : diagAt (alignTables s1 s2 bpa).D s1 s2 bpa i j =
      diagAt (swRec s1 s2 bpa) s1 s2 bpa i j := by
    unfold diagAt
    rw [hD (i - 1) (j - 1) (by omega) (by omega)]
  rw [eu, el, ed]
  exact ⟨hB i j hi hin hj hjm, by rw [hD i j hin hjm, swRec_interior s1 s2 bpa i j hi hj]⟩

theorem swMath_zero_left (s1 s2 : List Char) (bpa : BlosumPenaltyArray) (j : Nat) :
    swMath s1 s2 bpa 0 j = 0 := by
  simp [swMath]

theorem swMath_zero_right (s1 s2 : List Char) (bpa : BlosumPenaltyArray) (i : Nat) :
    swMath s1 s2 bpa i 0 = 0 := by
  cases i <;> simp [swMath]

/-- Where no sum of the recurrence leaves the `int` range, the table of the program is
the table of the recurrence read in the integers. -/
theorem swRec_eq_swMath (s1 s2 : List Char) (bpa : BlosumPenaltyArray)
    (h : SumsInInt s1 s2 bpa) :
    ∀ i j, i ≤ s1.length → j ≤ s2.length → swRec s1 s2 bpa i j = swMath s1 s2 bpa i j := by
  intro i
  induction i with
  | zero =>
    intro j _ _
    rw [swRec_zero_left, swMath_zero_left]
  | succ i ih =>
    intro j
    induction j with
    | zero =>
      intro _ _
      rw [swRec_zero_right, swMath_zero_right]
    | succ j ihj =>
      intro hi hj
      obtain ⟨h1, h2, h3⟩ := h i j (by omega) (by omega)
      rw [swRec, swMath, ih (j + 1) (by omega) hj, ihj hi (by omega), ih j (by omega) (by omega),
        intAdd_of_isInt _ _ h1, intAdd_of_isInt _ _ h2, intAdd_of_isInt _ _ h3]

/-- The unit penalties form no sum outside the `int` range on `"AA"` and `"AC"`. -/
theorem sumsInInt_unit : SumsInInt ['A', 'A'] ['A', 'C'] unitPenalties := by
  intro i j hi hj
  have hi2 : i = 0 ∨ i = 1 := by simp at hi; omega
  have hj2 : j = 0 ∨ j = 1 := by simp at hj; omega
  rcases hi2 with rfl | rfl <;> rcases hj2 with rfl | rfl <;>
    simp [swMath, IsInt, unitPenalties, BlosumPenaltyArray.penalty,
      BlosumPenaltyArray.get_penalty, BlosumPenaltyArray.row, charAt]

/-- The program on a matrix that makes a sum overflow. With `INT_MAX` for the pair
`('A', 'A')` and `"AA"` against `"AA"`, the sum `diag` of cell `(2, 2)` is
`INT_MAX + INT_MAX`, which the program computes as `-2`: the cell holds `'u'` and
`2147483646`, the scan of the bottom row stops at column `1`, and the call returns
`2147483647` with `"A"` and `"A"`. The recurrence read in the integers has `4294967294`
in cell `(2, 2)`. -/
theorem local_alignment_int_max :
    diagAt (alignTables ['A', 'A'] ['A', 'A'] maxPenalties).D ['A', 'A'] ['A', 'A']
        maxPenalties 2 2 = -2 ∧
      upAt (alignTables ['A', 'A'] ['A', 'A'] maxPenalties).D ['A', 'A'] maxPenalties 2 2 =
        2147483646 ∧
      leftAt (alignTables ['A', 'A'] ['A', 'A'] maxPenalties).D ['A', 'A'] maxPenalties 2 2 =
        2147483646 ∧
      (alignTables ['A', 'A'] ['A', 'A'] maxPenalties).B 2 2 = 'u' ∧
      (alignTables ['A', 'A'] ['A', 'A'] maxPenalties).D 2 2 = 2147483646 ∧
      (alignTables ['A', 'A'] ['A', 'A'] maxPenalties).D 2 1 = 2147483647 ∧
      (bestInRow (alignTables ['A', 'A'] ['A', 'A'] maxPenalties).D 2 2).2 = 1 ∧
      local_alignment ['A', 'A'] ['A', 'A'] maxPenalties =
        .returned { score := 2147483647, matchString1 := ['A'], matchString2 := ['A'] } ∧
      swMath ['A', 'A'] ['A', 'A'] maxPenalties 2 2 = 4294967294 := by
  refine ⟨by decide, by decide, by decide, by decide, by decide, by decide, by decide,
    by decide, ?_⟩
  simp [swMath, maxPenalties, unitPenalties, BlosumPenaltyArray.penalty,
    BlosumPenaltyArray.get_penalty, BlosumPenaltyArray.set_penalty, BlosumPenaltyArray.row,
    charAt]

/-- C21, as stated, fails. With the unit penalties, cell `(2, 2)` of `"AA"` against `"AC"`
has `left = diag = 0 > up`, so left is among the maxima, and holds `'d'`; cell `(2, 2)`
of `"CA"` against `"AC"` has `left = up = 0 > diag` and holds `'u'`. -/
theorem direction_left_not_preferred :
    (leftAt (alignTables ['A', 'A'] ['A', 'C'] unitPenalties).D ['A', 'C'] unitPenalties 2 2 = 0 ∧
      diagAt (alignTables ['A', 'A'] ['A', 'C'] unitPenalties).D ['A', 'A'] ['A', 'C']
        unitPenalties 2 2 = 0 ∧
      upAt (alignTables ['A', 'A'] ['A', 'C'] unitPenalties).D ['A', 'A'] unitPenalties 2 2 = -1 ∧
      (alignTables ['A', 'A'] ['A', 'C'] unitPenalties).B 2 2 = 'd') ∧
    (leftAt (alignTables ['C', 'A'] ['A', 'C'] unitPenalties).D ['A', 'C'] unitPenalties 2 2 = 0 ∧
      upAt (alignTables ['C', 'A'] ['A', 'C'] unitPenalties).D ['C', 'A'] unitPenalties 2 2 = 0 ∧
      diagAt (alignTables ['C', 'A'] ['A', 'C'] unitPenalties).D ['C', 'A'] ['A', 'C']
        unitPenalties 2 2 = -1 ∧
      (alignTables ['C', 'A'] ['A', 'C'] unitPenalties).B 2 2 = 'u') := by
  decide

/-- C21, amended. In `local_alignment`, for every cell `(i, j)` with `i, j >= 1`, the
recorded back pointer follows the precedence diagonal over up over left: `'d'` is
recorded whenever `diag` is among the maxima of `up`, `left`, `diag`; otherwise `'u'`
whenever `up` is among the maxima; otherwise `'l'`. The values `up`, `left` and `diag`
are the ones that the program compares: sums of `int` values (`upAt`, `leftAt`,
`diagAt`). -/
theorem direction_precedence (string1 string2 : List Char) (bpa : BlosumPenaltyArray)
    (i j : Nat) (hi : 1 ≤ i) (hin : i ≤ string1.length) (hj : 1 ≤ j)
    (hjm : j ≤ string2.length) :
    (diagAt (alignTables string1 string2 bpa).D string1 string2 bpa i j ≥
          upAt (alignTables string1 string2 bpa).D string1 bpa i j ∧
        diagAt (alignTables string1 string2 bpa).D string1 string2 bpa i j ≥
          leftAt (alignTables string1 string2 bpa).D string2 bpa i j →
        (alignTables string1 string2 bpa).B i j = 'd') ∧
      (upAt (alignTables string1 string2 bpa).D string1 bpa i j >
          diagAt (alignTables string1 string2 bpa).D string1 string2 bpa i j ∧
        upAt (alignTables string1 string2 bpa).D string1 bpa i j ≥
          leftAt (alignTables string1 string2 bpa).D string2 bpa i j →
        (alignTables string1 string2 bpa).B i j = 'u') ∧
      (leftAt (alignTables string1 string2 bpa).D string2 bpa i j >
          upAt (alignTables string1 string2 bpa).D string1 bpa i j ∧
        leftAt (alignTables string1 string2 bpa).D string2 bpa i j >
          diagAt (alignTables string1 string2 bpa).D string1 string2 bpa i j →
        (alignTables string1 string2 bpa).B i j = 'l') := by
  rw [(alignTables_cell string1 string2 bpa i j hi hin hj hjm).1]
  exact direction_cases _ _ _

/-- Witness of C21, amended: at cell `(2, 2)` of `"AA"` against `"AC"` with the unit
penalties, where `left = diag = 0 > up`, and at cell `(2, 2)` of `"AA"` against `"AA"`
with `INT_MAX` for the pair `('A', 'A')`, where the program has `diag = -2` and
`up = left = 2147483646`. -/
theorem direction_precedence_witness :
    (1 ≤ 2 ∧ 2 ≤ ['A', 'A'].length ∧ 2 ≤ ['A', 'C'].length ∧
      (alignTables ['A', 'A'] ['A', 'C'] unitPenalties).B 2 2 = 'd') ∧
    (alignTables ['A', 'A'] ['A', 'A'] maxPenalties).B 2 2 = 'u' :=
  ⟨⟨by decide, by decide, by decide,
    (direction_precedence ['A', 'A'] ['A', 'C'] unitPenalties 2 2 (by decide) (by decide)
      (by decide) (by decide)).1 (by decide)⟩,
    (direction_precedence ['A', 'A'] ['A', 'A'] maxPenalties 2 2 (by decide) (by decide)
      (by decide) (by decide)).2.1 (by decide)⟩

/-- The contents of an interior cell: a direction, never `'?'`, whose candidate is the
greatest of the three, and a score that is the greater of this candidate and `0`. -/
theorem alignTables_interior (s1 s2 : List Char) (bpa : BlosumPenaltyArray) (i j : Nat)
    (hi : 1 ≤ i) (hin : i ≤ s1.length) (hj : 1 ≤ j) (hjm : j ≤ s2.length) :
    ((alignTables s1 s2 bpa).B i j = 'u' ∨ (alignTables s1 s2 bpa).B i j = 'l' ∨
        (alignTables s1 s2 bpa).B i j = 'd') ∧
      (alignTables s1 s2 bpa).B i j ≠ '?' ∧
      candidate ((alignTables s1 s2 bpa).B i j)
          (upAt (alignTables s1 s2 bpa).D s1 bpa i j)
          (leftAt (alignTables s1 s2 bpa).D s2 bpa i j)
          (diagAt (alignTables s1 s2 bpa).D s1 s2 bpa i j) =
        max (max (upAt (alignTables s1 s2 bpa).D s1 bpa i j)
            (leftAt (alignTables s1 s2 bpa).D s2 bpa i j))
          (diagAt (alignTables s1 s2 bpa).D s1 s2 bpa i j) ∧
      (alignTables s1 s2 bpa).D i j =
        max (candidate ((alignTables s1 s2 bpa).B i j)
          (upAt (alignTables s1 s2 bpa).D s1 bpa i j)
          (leftAt (alignTables s1 s2 bpa).D s2 bpa i j)
          (diagAt (alignTables s1 s2 bpa).D s1 s2 bpa i j)) 0 := by
  obtain ⟨hB, hD⟩ := alignTables_cell s1 s2 bpa i j hi hin hj hjm
  obtain ⟨hdir, hcand⟩ := direction_candidate (upAt (alignTables s1 s2 bpa).D s1 bpa i j)
    (leftAt (alignTables s1 s2 bpa).D s2 bpa i j)
    (diagAt (alignTables s1 s2 bpa).D s1 s2 bpa i j)
  rw [← hB] at hdir hcand
  refine ⟨hdir, ?_, hcand, ?_⟩
  · rcases hdir with h | h | h <;> rw [h] <;> decide
  · rw [hcand, hD]
    exact (max_assoc _ _ _).symm

theorem bestInRow_fst (D : Table Int) (best_i : Nat) :
    ∀ m, (bestInRow D best_i m).1 = rowMax D best_i m := by
  intro m
  induction m with
  | zero =>
    unfold bestInRow rowMax
    rw [forLoop_of_le _ _ _ _ (le_refl _)]
    rfl
  | succ k ih =>
    have e : bestInRow D best_i (k + 1) =
        (if D best_i (k + 1) > (bestInRow D best_i k).1 then (D best_i (k + 1), k + 1)
         else bestInRow D best_i k) := by
      unfold bestInRow
      rw [forLoop_succ _ _ _ _ (by omega)]
    have e2 : rowMax D best_i (k + 1) = max (rowMax D best_i k) (D best_i (k + 1)) := by
      unfold rowMax
      rw [List.range'_1_concat, List.map_append, List.foldl_append]
      simp [Nat.add_comm]
    rw [e, e2, ← ih]
    by_cases hc : D best_i (k + 1) > (bestInRow D best_i k).1
    · rw [if_pos hc, max_eq_right (le_of_lt hc)]
    · rw [if_neg hc, max_eq_left (not_lt.mp hc)]

theorem rowMax_congr (D1 D2 : Table Int) (n m : Nat) (h : ∀ j, j ≤ m → D1 n j = D2 n j) :
    rowMax D1 n m = rowMax D2 n m := by
  unfold rowMax
  congr 1
  refine List.map_congr_left ?_
  intro j hj
  rw [List.mem_range'_1] at hj
  exact h j (by omega)

/-- Where no sum of the recurrence leaves the `int` range, the score that
`local_alignment` returns is the greatest value of the bottom row, `0` at least, of the
recurrence read in the integers. -/
theorem local_alignment_score_math (s1 s2 : List Char) (bpa : BlosumPenaltyArray)
    (h : SumsInInt s1 s2 bpa) :
    ∃ a, local_alignment s1 s2 bpa = .returned a ∧
      a.score = rowMax (swMath s1 s2 bpa) s1.length s2.length := by
  obtain ⟨hD, _⟩ := alignTables_eq_rec s1 s2 bpa
  obtain ⟨a, ha, has⟩ := local_alignment_score s1 s2 bpa
  unfold alignScore at has
  refine ⟨a, ha, ?_⟩
  rw [has, bestInRow_fst]
  refine rowMax_congr _ _ _ _ (fun j hj => ?_)
  rw [hD _ _ (le_refl _) hj, swRec_eq_swMath s1 s2 bpa h _ _ (le_refl _) hj]

theorem walkStep_dir (s1 s2 : List Char) (B : Table Char) (w : Walk) (hi : 1 ≤ w.i)
    (hj : 1 ≤ w.j) (h : B w.i w.j = 'u' ∨ B w.i w.j = 'l' ∨ B w.i w.j = 'd') :
    (walkStep s1 s2 B w).done = w.done ∧ (walkStep s1 s2 B w).i ≤ w.i ∧
      (walkStep s1 s2 B w).j ≤ w.j ∧
      (walkStep s1 s2 B w).i + (walkStep s1 s2 B w).j < w.i + w.j := by
  rcases h with h | h | h
  · rw [walkStep_u _ _ _ _ h]
    exact ⟨rfl, by show w.i - 1 ≤ w.i; omega, le_refl _, by show w.i - 1 + w.j < w.i + w.j; omega⟩
  · rw [walkStep_l _ _ _ _ h]
    exact ⟨rfl, le_refl _, by show w.j - 1 ≤ w.j; omega,
      by show w.i + (w.j - 1) < w.i + w.j; omega⟩
  · rw [walkStep_d _ _ _ _ h]
    exact ⟨rfl, by show w.i - 1 ≤ w.i; omega, by show w.j - 1 ≤ w.j; omega,
      by show w.i - 1 + (w.j - 1) < w.i + w.j; omega⟩

/-- The course of the backtrace loop on a table whose cells of row `0` and column `0`
hold `'?'` and whose other cells hold a direction: from variables inside the table it
makes `k <= i + j` passes that follow a direction, then reads a `'?'` in row `0` or
column `0` and leaves. -/
theorem walk_trace (s1 s2 : List Char) (B : Table Char) (n m : Nat)
    (hq : ∀ a b, a ≤ n → b ≤ m → (a = 0 ∨ b = 0) → B a b = '?')
    (hd : ∀ a b, 1 ≤ a → a ≤ n → 1 ≤ b → b ≤ m → (B a b = 'u' ∨ B a b = 'l' ∨ B a b = 'd')) :
    ∀ (N : Nat) (w : Walk), w.i + w.j ≤ N → w.i ≤ n → w.j ≤ m → w.done = false →
      ∃ k, k ≤ w.i + w.j ∧
        (∀ t, t < k → WalkPass B n m (Nat.iterate (walkStep s1 s2 B) t w)
          (Nat.iterate (walkStep s1 s2 B) (t + 1) w)) ∧
        WalkStop B n m (Nat.iterate (walkStep s1 s2 B) k w) ∧
        ∀ budget, k + 1 ≤ budget →
          walkLoop s1 s2 B budget w =
            .returned { Nat.iterate (walkStep s1 s2 B) k w with done := true } := by
  intro N
  induction N with
  | zero =>
    intro w hN hi hj hdone
    have h0 : w.i = 0 := by omega
    have hqw := hq w.i w.j hi hj (Or.inl h0)
    refine ⟨0, Nat.zero_le _, fun t ht => absurd ht (Nat.not_lt_zero t),
      ⟨hi, hj, Or.inl h0, hqw⟩, ?_⟩
    intro budget hb
    obtain ⟨b, rfl⟩ : ∃ b, budget = b + 1 := ⟨budget - 1, by omega⟩
    rw [walkLoop]
    simp only [hdone, Bool.false_eq_true, if_false]
    rw [walkStep_q _ _ _ _ hqw, walkLoop_done _ _ _ _ _ rfl]
    rfl
  | succ N ih =>
    intro w hN hi hj hdone
    by_cases hb : w.i = 0 ∨ w.j = 0
    · have hqw := hq w.i w.j hi hj hb
      refine ⟨0, Nat.zero_le _, fun t ht => absurd ht (Nat.not_lt_zero t),
        ⟨hi, hj, hb, hqw⟩, ?_⟩
      intro budget hbud
      obtain ⟨b, rfl⟩ : ∃ b, budget = b + 1 := ⟨budget - 1, by omega⟩
      rw [walkLoop]
      simp only [hdone, Bool.false_eq_true, if_false]
      rw [walkStep_q _ _ _ _ hqw, walkLoop_done _ _ _ _ _ rfl]
      rfl
    · have hi1 : 1 ≤ w.i := by omega
      have hj1 : 1 ≤ w.j := by omega
      have hdir := hd w.i w.j hi1 hi hj1 hj
      obtain ⟨s1', s2', s3', s4'⟩ := walkStep_dir s1 s2 B w hi1 hj1 hdir
      obtain ⟨k, hk, hpass, hstop, hloop⟩ := ih (walkStep s1 s2 B w) (by omega) (by omega)
        (by omega) (by rw [s1', hdone])
      refine ⟨k + 1, by omega, ?_, ?_, ?_⟩
      · intro t ht
        cases t with
        | zero => exact ⟨hi1, hi, hj1, hj, hdir, s2', s3', s4'⟩
        | succ t =>
          rw [Function.iterate_succ_apply, Function.iterate_succ_apply]
          exact hpass t (by omega)
      · rw [Function.iterate_succ_apply]
        exact hstop
      · intro budget hbud
        obtain ⟨b, rfl⟩ : ∃ b, budget = b + 1 := ⟨budget - 1, by omega⟩
        rw [walkLoop]
        simp only [hdone, Bool.false_eq_true, if_false]
        rw [Function.iterate_succ_apply]
        exact hloop b (by omega)

/-- The backtrace of `local_alignment` on its own tables, from `(n, best_j)`. -/
theorem local_alignment_walk (s1 s2 : List Char) (bpa : BlosumPenaltyArray) :
    ∃ k, k ≤ s1.length + s2.length ∧
      (∀ t, t < k →
        WalkPass (alignTables s1 s2 bpa).B s1.length s2.length
          (Nat.iterate (walkStep s1 s2 (alignTables s1 s2 bpa).B) t (walkStart s1 s2 bpa))
          (Nat.iterate (walkStep s1 s2 (alignTables s1 s2 bpa).B) (t + 1)
            (walkStart s1 s2 bpa))) ∧
      WalkStop (alignTables s1 s2 bpa).B s1.length s2.length
        (Nat.iterate (walkStep s1 s2 (alignTables s1 s2 bpa).B) k (walkStart s1 s2 bpa)) ∧
      walkLoop s1 s2 (alignTables s1 s2 bpa).B (s1.length + s2.length + 1)
          (walkStart s1 s2 bpa) =
        .returned { Nat.iterate (walkStep s1 s2 (alignTables s1 s2 bpa).B) k
          (walkStart s1 s2 bpa) with done := true } ∧
      local_alignment s1 s2 bpa =
        (walkLoop s1 s2 (alignTables s1 s2 bpa).B (s1.length + s2.length + 1)
          (walkStart s1 s2 bpa)).bind
          fun w => .returned { score := alignScore s1 s2 bpa,
                               matchString1 := w.matchString1.reverse,
                               matchString2 := w.matchString2.reverse } := by
  have hj := (bestInRow_bounds (alignTables s1 s2 bpa).D s1.length s2.length).2
  obtain ⟨k, hk, hpass, hstop, hloop⟩ := walk_trace s1 s2 (alignTables s1 s2 bpa).B s1.length
    s2.length (alignTables_goodB s1 s2 bpa).1
    (fun a b ha1 ha hb1 hb => (alignTables_interior s1 s2 bpa a b ha1 ha hb1 hb).1)
    (s1.length + s2.length) (walkStart s1 s2 bpa)
    (Nat.add_le_add_left hj _) (le_refl _) hj rfl
  have hk2 : k ≤ s1.length + s2.length := le_trans hk (Nat.add_le_add_left hj _)
  exact ⟨k, hk2, hpass, hstop, hloop _ (by omega), rfl⟩

/-- C22, as stated, fails. With the unit penalties, cell `(1, 1)` of `"XCD"` against
`"ACD"` has the score `0` and the candidates `up = left = diag = -1`, none positive, and
it holds `'d'`, not `'?'`; the backtrace does not stop there: it goes on to cell `(0, 0)`
and the output strings are `"XCD"` and `"ACD"`, for the score `2` of `"CD"` against
`"CD"`. -/
theorem zero_cell_holds_direction :
    (alignTables ['X', 'C', 'D'] ['A', 'C', 'D'] unitPenalties).D 1 1 = 0 ∧
      upAt (alignTables ['X', 'C', 'D'] ['A', 'C', 'D'] unitPenalties).D ['X', 'C', 'D']
        unitPenalties 1 1 = -1 ∧
      leftAt (alignTables ['X', 'C', 'D'] ['A', 'C', 'D'] unitPenalties).D ['A', 'C', 'D']
        unitPenalties 1 1 = -1 ∧
      diagAt (alignTables ['X', 'C', 'D'] ['A', 'C', 'D'] unitPenalties).D ['X', 'C', 'D']
        ['A', 'C', 'D'] unitPenalties 1 1 = -1 ∧
      (alignTables ['X', 'C', 'D'] ['A', 'C', 'D'] unitPenalties).B 1 1 = 'd' ∧
      local_alignment ['X', 'C', 'D'] ['A', 'C', 'D'] unitPenalties =
        .returned { score := 2, matchString1 := ['X', 'C', 'D'],
                    matchString2 := ['A', 'C', 'D'] } := by
  decide

/-- C22, amended. In `local_alignment` every cell `(i, j)` with `i, j >= 1` holds one of
the directions `'u'`, `'l'`, `'d'` and never the sentinel `'?'`, also when `D[i][j]` is
`0` because none of `up`, `left`, `diag` is positive; the candidate value of the
direction held is the greatest of `up`, `left`, `diag`, the sums of `int` values that
the program compares, and `D[i][j]` is the greater of that value and `0`. A pass of the
backtrace loop that reads cell `(i, j)` does not end the loop. The cells of row `0` and
of column `0` hold `'?'`, and the backtrace walk of the call terminates at one of them. -/
theorem interior_cell_direction (string1 string2 : List Char) (bpa : BlosumPenaltyArray)
    (i j : Nat) (hi : 1 ≤ i) (hin : i ≤ string1.length) (hj : 1 ≤ j)
    (hjm : j ≤ string2.length) :
    (((alignTables string1 string2 bpa).B i j = 'u' ∨
          (alignTables string1 string2 bpa).B i j = 'l' ∨
          (alignTables string1 string2 bpa).B i j = 'd') ∧
        (alignTables string1 string2 bpa).B i j ≠ '?' ∧
        candidate ((alignTables string1 string2 bpa).B i j)
            (upAt (alignTables string1 string2 bpa).D string1 bpa i j)
            (leftAt (alignTables string1 string2 bpa).D string2 bpa i j)
            (diagAt (alignTables string1 string2 bpa).D string1 string2 bpa i j) =
          max (max (upAt (alignTables string1 string2 bpa).D string1 bpa i j)
              (leftAt (alignTables string1 string2 bpa).D string2 bpa i j))
            (diagAt (alignTables string1 string2 bpa).D string1 string2 bpa i j) ∧
        (alignTables string1 string2 bpa).D i j =
          max (candidate ((alignTables string1 string2 bpa).B i j)
            (upAt (alignTables string1 string2 bpa).D string1 bpa i j)
            (leftAt (alignTables string1 string2 bpa).D string2 bpa i j)
            (diagAt (alignTables string1 string2 bpa).D string1 string2 bpa i j)) 0) ∧
      (∀ w : Walk, w.i = i → w.j = j →
        (walkStep string1 string2 (alignTables string1 string2 bpa).B w).done = w.done) ∧
      (∀ a b, a ≤ string1.length → b ≤ string2.length → (a = 0 ∨ b = 0) →
        (alignTables string1 string2 bpa).B a b = '?') ∧
      ∃ k, k ≤ string1.length + string2.length ∧
        WalkStop (alignTables string1 string2 bpa).B string1.length string2.length
          (Nat.iterate (walkStep string1 string2 (alignTables string1 string2 bpa).B) k
            (walkStart string1 string2 bpa)) ∧
        walkLoop string1 string2 (alignTables string1 string2 bpa).B
            (string1.length + string2.length + 1) (walkStart string1 string2 bpa) =
          .returned { Nat.iterate (walkStep string1 string2 (alignTables string1 string2 bpa).B) k
            (walkStart string1 string2 bpa) with done := true } := by
  refine ⟨alignTables_interior string1 string2 bpa i j hi hin hj hjm, ?_,
    (alignTables_goodB string1 string2 bpa).1, ?_⟩
  · intro w hwi hwj
    have hdir := (alignTables_interior string1 string2 bpa i j hi hin hj hjm).1
    rw [← hwi, ← hwj] at hdir
    exact (walkStep_dir string1 string2 _ w (by omega) (by omega) hdir).1
  · obtain ⟨k, hk, _, hstop, hloop, _⟩ := local_alignment_walk string1 string2 bpa
    exact ⟨k, hk, hstop, hloop⟩

/-- Witness of C22, amended: at cell `(1, 1)` of `"XCD"` against `"ACD"` with the unit
penalties, where the score is `0`, and at cell `(2, 2)` of `"AA"` against `"AA"` with
`INT_MAX` for the pair `('A', 'A')`, where the sum `diag` of the program is `-2`. -/
theorem interior_cell_direction_witness :
    (1 ≤ 1 ∧ 1 ≤ ['X', 'C', 'D'].length ∧ 1 ≤ ['A', 'C', 'D'].length ∧
      (alignTables ['X', 'C', 'D'] ['A', 'C', 'D'] unitPenalties).B 1 1 ≠ '?') ∧
    (alignTables ['A', 'A'] ['A', 'A'] maxPenalties).B 2 2 ≠ '?' :=
  ⟨⟨by decide, by decide, by decide,
    (interior_cell_direction ['X', 'C', 'D'] ['A', 'C', 'D'] unitPenalties 1 1 (by decide)
      (by decide) (by decide) (by decide)).1.2.1⟩,
    (interior_cell_direction ['A', 'A'] ['A', 'A'] maxPenalties 2 2 (by decide)
      (by decide) (by decide) (by decide)).1.2.1⟩

/-- C24. For all strings `string1` (length `n`), `string2` (length `m`) and every penalty
matrix, the backtrace loop of `local_alignment` terminates: from `(n, best_j)` it makes
`k <= n + m` passes that follow a direction, each of which reads a cell inside the table
that holds `'u'`, `'l'` or `'d'` and decreases `i` or `j`, and then it stops at a cell
with `i = 0` or `j = 0`, which holds `'?'`. -/
theorem backtrace_terminates (string1 string2 : List Char) (bpa : BlosumPenaltyArray) :
    ∃ k, k ≤ string1.length + string2.length ∧
      (∀ t, t < k →
        WalkPass (alignTables string1 string2 bpa).B string1.length string2.length
          (Nat.iterate (walkStep string1 string2 (alignTables string1 string2 bpa).B) t
            (walkStart string1 string2 bpa))
          (Nat.iterate (walkStep string1 string2 (alignTables string1 string2 bpa).B) (t + 1)
            (walkStart string1 string2 bpa))) ∧
      WalkStop (alignTables string1 string2 bpa).B string1.length string2.length
        (Nat.iterate (walkStep string1 string2 (alignTables string1 string2 bpa).B) k
          (walkStart string1 string2 bpa)) ∧
      walkLoop string1 string2 (alignTables string1 string2 bpa).B
          (string1.length + string2.length + 1) (walkStart string1 string2 bpa) =
        .returned { Nat.iterate (walkStep string1 string2 (alignTables string1 string2 bpa).B) k
          (walkStart string1 string2 bpa) with done := true } ∧
      local_alignment string1 string2 bpa =
        (walkLoop string1 string2 (alignTables string1 string2 bpa).B
          (string1.length + string2.length + 1) (walkStart string1 string2 bpa)).bind
          fun w => .returned { score := alignScore string1 string2 bpa,
                               matchString1 := w.matchString1.reverse,
                               matchString2 := w.matchString2.reverse } :=
  local_alignment_walk string1 string2 bpa

/-! ## The two LCS best-match searches agree -/

theorem exScore_eq_dpScore (proteins : ProteinVector) (string1 : List Char)
    (hp : ∀ q, q ∈ proteins → q.sequence.length ≤ 30) (hs : string1.length ≤ 30) :
    exScore proteins string1 = dpScore proteins string1 := by
  funext j
  unfold exScore dpScore entryScore
  cases hj : proteins[j]? with
  | none => rfl
  | some p =>
    exact exhaustiveValue_of_returned _ _ _
      (exhaustive_returns_dp _ _ (hp p (List.getElem?_mem hj)) hs)

/-- On sequences and a query of at most 30 characters the loops of the two LCS best-match
searches leave the same `best_i` and `best_score`, and the two searches return the same
entry of a non-empty vector. -/
theorem lcs_best_match_agree (proteins : ProteinVector) (string1 : List Char)
    (h : proteins ≠ []) (hp : ∀ q, q ∈ proteins → q.sequence.length ≤ 30)
    (hs : string1.length ≤ 30) :
    ∃ best_i best_score p,
      forLoop 0 proteins.length (exhaustiveMatchStep proteins string1) (.returned (0, 0)) =
        .returned (best_i, best_score) ∧
      forLoop 0 proteins.length (dynamicMatchStep proteins string1) (.returned (0, 0)) =
        .returned (best_i, best_score) ∧
      proteins[best_i]? = some p ∧
      exhaustive_best_match proteins string1 = .returned p ∧
      dynamicprogramming_best_match proteins string1 = .returned p := by
  have hret : ∀ q, q ∈ proteins →
      ∃ w, exhaustive_longest_common_subsequence q.sequence string1 = .returned w :=
    fun q hq => ⟨_, exhaustive_returns_dp _ _ (hp q hq) hs⟩
  have e1 := exhaustive_loop proteins string1 hret proteins.length (le_refl _)
  have e2 := dynamic_loop proteins string1 proteins.length (le_refl _)
  rw [exScore_eq_dpScore proteins string1 hp hs] at e1
  have hlt := (bestLoop_first_max (dpScore proteins string1)
    (fun j => by
      unfold dpScore entryScore
      split
      · exact dp_nonneg _ _
      · exact le_refl _) proteins.length (List.length_pos.mpr h)).1
  refine ⟨(bestLoop (dpScore proteins string1) proteins.length).1,
    (bestLoop (dpScore proteins string1) proteins.length).2, proteins.get ⟨_, hlt⟩, e1, e2,
    List.getElem?_eq_getElem hlt, ?_, ?_⟩
  · unfold exhaustive_best_match
    rw [e1]
    exact vecAt_of_lt _ _ hlt
  · unfold dynamicprogramming_best_match
    rw [e2]
    exact vecAt_of_lt _ _ hlt

/-- C25. For every non-empty vector of sequences of at most 30 characters and every query
of at most 30 characters, `exhaustive_best_match` and `dynamicprogramming_best_match`
return the same entry, the one at the same index `best_i`. -/
theorem best_match_engines_agree (proteins : ProteinVector) (string1 : List Char)
    (h : proteins ≠ []) (hp : ∀ q, q ∈ proteins → q.sequence.length ≤ 30)
    (hs : string1.length ≤ 30) :
    ∃ best_i best_score p,
      forLoop 0 proteins.length (exhaustiveMatchStep proteins string1) (.returned (0, 0)) =
        .returned (best_i, best_score) ∧
      forLoop 0 proteins.length (dynamicMatchStep proteins string1) (.returned (0, 0)) =
        .returned (best_i, best_score) ∧
      proteins[best_i]? = some p ∧
      exhaustive_best_match proteins string1 = .returned p ∧
      dynamicprogramming_best_match proteins string1 = .returned p :=
  lcs_best_match_agree proteins string1 h hp hs

/-- Witness of C25 on the vector of the scenario with the query `"ACD"`. -/
theorem best_match_engines_agree_witness :
    sampleProteins ≠ [] ∧ (∀ q, q ∈ sampleProteins → q.sequence.length ≤ 30) ∧
      ['A', 'C', 'D'].length ≤ 30 ∧
      ∃ p, exhaustive_best_match sampleProteins ['A', 'C', 'D'] = .returned p ∧
        dynamicprogramming_best_match sampleProteins ['A', 'C', 'D'] = .returned p :=
  have hp : ∀ q, q ∈ sampleProteins → q.sequence.length ≤ 30 := by decide
  have hs : ['A', 'C', 'D'].length ≤ 30 := by decide
  have hne : sampleProteins ≠ [] := by decide
  ⟨hne, hp, hs,
    (best_match_engines_agree sampleProteins ['A', 'C', 'D'] hne hp hs).elim
      (fun _ h => h.elim (fun _ h => h.elim (fun p h => ⟨p, h.2.2.2.1, h.2.2.2.2⟩)))⟩

end SeqMatch
